import Mathlib

/-!
# Hybrid Round-Robin / SJF scheduler (`Source Code/assignment.c`)

A shallow embedding of the scheduling engine of `assignment.c` and a
verification of its specification.

Modelling conventions.

* C `int` is modelled by `Int` (no overflow: the loader accepts at most five
  decimal digits per field).
* The ready queue, a singly linked list whose head node is allocated before
  the simulation starts, is a `List fileAttribute` holding the chain of nodes
  from the head onward.  While `ITEMS_IN_QUEUE == 0` the head node is storage
  that has never been written; the code does not read it in that situation
  and the model keeps the empty list for it.
* A pointer into the queue (`temp`) is the position of the node in the list.
* The globals and the locals of `main` that the engine mutates are the
  fields of `SimState`; `numberOfFiles` is the length of `fileTable`.
* A function that would read a local variable that was never assigned
  returns `none`.
-/

namespace HybridRR

/-- The record `fileAttribute` of the source (one per process). -/
structure fileAttribute where
  arrivalTime : Int
  burstTime : Int
  waitingTime : Int
  turnAroundTime : Int
  backUpBurstTime : Int
  timeAddedToQueue : Int
  fileID : Int
  responseTime : Int
  timeStopped : Int
  hasArrived : Bool
  hasCompleted : Bool
  inQueue : Bool
  processing : Bool
  saved : Bool
  calculated : Bool
  startedButNotComp : Bool
deriving DecidableEq, Repr

/-- The mutable state of the engine: the two globals `ITEMS_IN_QUEUE` and
`TIME_ELAPSED`, and the locals of `main` that are passed by reference. -/
structure SimState where
  ITEMS_IN_QUEUE : Int
  TIME_ELAPSED : Int
  fileTable : List fileAttribute
  readyQueue : List fileAttribute
  completedFileTable : List fileAttribute
  processesCompleted : Int
  completedIndex : Int
deriving DecidableEq, Repr

/-- The global `DEFAULT_TIME_QUANTUM`. -/
def DEFAULT_TIME_QUANTUM : Int := 5

/-- The number `numberOfFiles` that `main` passes around: the size of the
task table. -/
def numberOfFiles (s : SimState) : Int := s.fileTable.length

/-- Apply `f` to the node at position `i` (a write through a node pointer). -/
def modifyNode (f : fileAttribute → fileAttribute) : Nat → List fileAttribute → List fileAttribute
  | _, [] => []
  | 0, e :: r => f e :: r
  | i + 1, e :: r => e :: modifyNode f i r

/-- The function `AddToReadyQueue`: with `ITEMS_IN_QUEUE == 0` the head node is overwritten
and its `next` cleared; otherwise a copy of the entry is linked after the last
node and the head's `inQueue` is set. Returns the queue and the counter. -/
def AddToReadyQueue (fileTableEntry : fileAttribute) (items : Int)
    (readyQueue : List fileAttribute) : List fileAttribute × Int :=
  if items = 0 then
    ([{ fileTableEntry with inQueue := true }], items + 1)
  else
    (modifyNode (fun h => { h with inQueue := true }) 0 (readyQueue ++ [fileTableEntry]),
      items + 1)

/-- The loop of `populateQueueIfArrive` over the rest of the task table.
Returns the rewritten rest of the table, the queue and `ITEMS_IN_QUEUE`. -/
def populateLoop (n clock : Int) :
    List fileAttribute → List fileAttribute → Int → List fileAttribute × List fileAttribute × Int
  | [], q, items => ([], q, items)
  | e :: rest, q, items =>
    if items = n then (e :: rest, q, items)
    else if e.inQueue = true then
      let r := populateLoop n clock rest q items
      (e :: r.1, r.2.1, r.2.2)
    else if e.hasCompleted = true then
      let r := populateLoop n clock rest q items
      (e :: r.1, r.2.1, r.2.2)
    else if clock > e.arrivalTime ∧ e.inQueue = false then
      let r := populateLoop n clock rest q items
      (e :: r.1, r.2.1, r.2.2)
    else if e.arrivalTime ≤ clock ∧ e.inQueue = false then
      let e1 := { e with hasArrived := true, inQueue := true, timeAddedToQueue := clock }
      let a := AddToReadyQueue e1 items q
      let r := populateLoop n clock rest a.1 a.2
      (e1 :: r.1, r.2.1, r.2.2)
    else
      let r := populateLoop n clock rest q items
      (e :: r.1, r.2.1, r.2.2)

/-- The function `populateQueueIfArrive(numberOfFiles, fileTable, readyQueue)`. -/
def populateQueueIfArrive (s : SimState) : SimState :=
  let r := populateLoop (numberOfFiles s) s.TIME_ELAPSED s.fileTable s.readyQueue s.ITEMS_IN_QUEUE
  { s with fileTable := r.1, readyQueue := r.2.1, ITEMS_IN_QUEUE := r.2.2 }

/-- The body of the loop of `UpdateWaitingTimes` on one node. -/
def updateWaitingNode (clock : Int) (e : fileAttribute) : fileAttribute :=
  if e.processing = false ∧ e.hasCompleted = false ∧ e.startedButNotComp = false then
    { e with waitingTime := clock - e.arrivalTime }
  else e

/-- The function `UpdateWaitingTimes(readyQueue)`. -/
def UpdateWaitingTimes (s : SimState) : SimState :=
  if s.ITEMS_IN_QUEUE = 0 then s
  else { s with readyQueue := s.readyQueue.map (updateWaitingNode s.TIME_ELAPSED) }

/-- The function `CountUncompletedProcessesInQueue(readyQueue)`. -/
def CountUncompletedProcessesInQueue (s : SimState) : Int :=
  if s.ITEMS_IN_QUEUE = 0 then 0
  else ((s.readyQueue.filter (fun e => e.hasCompleted = false)).length : Int)

/-- First loop of `getLowestRemainingBurstTime`: skip the completed nodes and
stop at the first uncompleted one; `lowestBurstTime`, `fid` and `arrival` are
assigned only if its remaining burst is positive. -/
def lowestInit : List fileAttribute → Option (Int × Int × Int)
  | [] => none
  | e :: rest =>
    if e.hasCompleted = true then lowestInit rest
    else if e.backUpBurstTime > 0 then
      some (e.backUpBurstTime, e.fileID, e.timeAddedToQueue)
    else none

/-- Second loop of `getLowestRemainingBurstTime`, from the head, carrying
`lowestBurstTime`, `fid` and `arrival`; returns `fid`. -/
def lowestScan : List fileAttribute → Int → Int → Int → Int
  | [], _, fid, _ => fid
  | e :: rest, lowestBurstTime, fid, arrival =>
    if lowestBurstTime > e.backUpBurstTime ∧ e.hasCompleted = false then
      lowestScan rest e.backUpBurstTime e.fileID arrival
    else if lowestBurstTime = e.backUpBurstTime then
      if arrival > e.arrivalTime then e.fileID
      else lowestScan rest lowestBurstTime fid arrival
    else lowestScan rest lowestBurstTime fid arrival

/-- The function `getLowestRemainingBurstTime(readyQueue)`; `none` when the three locals
are read without having been assigned. -/
def getLowestRemainingBurstTime (readyQueue : List fileAttribute) : Option Int :=
  match lowestInit readyQueue with
  | none => none
  | some (l, f, a) => some (lowestScan readyQueue l f a)

/-- Position of the first node satisfying `p`, if any (a pointer scan). -/
def findNode (p : fileAttribute → Bool) : List fileAttribute → Option Nat
  | [] => none
  | e :: rest => if p e then some 0 else (findNode p rest).map (· + 1)

/-- The field updates of one tick of the `for` loop of `HybridRoundRobin` on
the serviced node, up to and including the decrement of the remaining burst. -/
def serviceNode (clock : Int) (e : fileAttribute) : fileAttribute :=
  let e1 :=
    if e.responseTime = -1 ∧ e.hasCompleted = false then
      { e with responseTime := clock - e.arrivalTime }
    else e
  { e1 with backUpBurstTime := e1.backUpBurstTime - 1 }

/-- The completion branch of the tick on the serviced node. -/
def completeNode (e : fileAttribute) : fileAttribute :=
  { e with hasCompleted := true, processing := false,
           turnAroundTime := e.burstTime + e.waitingTime }

/-- The reconciliation branch of the tick on the serviced node. -/
def reconcileNode (clock : Int) (e : fileAttribute) : fileAttribute :=
  { e with waitingTime := e.waitingTime + (clock - e.timeStopped),
           calculated := true, saved := false, startedButNotComp := false }

/-- Lines 355-376 of `HybridRoundRobin`: the part of one iteration of the
`for` loop that writes to the serviced node `e` at position `temp`, with the
copy into `completedFileTable` when the node completes. -/
def serviceStep (temp : Nat) (e : fileAttribute) (s : SimState) : SimState :=
  let e2 := serviceNode s.TIME_ELAPSED e
  if e2.backUpBurstTime = 0 ∧ e2.hasCompleted = false then
    let e3 := completeNode e2
    { s with
      readyQueue := modifyNode (fun _ => e3) temp s.readyQueue,
      completedFileTable := s.completedFileTable.set s.completedIndex.toNat e3,
      processesCompleted := s.processesCompleted + 1,
      completedIndex := s.completedIndex + 1 }
  else if e2.backUpBurstTime > 0 ∧ e2.calculated = false then
    { s with readyQueue := modifyNode (fun _ => reconcileNode s.TIME_ELAPSED e2) temp s.readyQueue }
  else
    { s with readyQueue := modifyNode (fun _ => e2) temp s.readyQueue }

/-- Lines 379-381 of `HybridRoundRobin`: the call of `UpdateWaitingTimes`
unless the serviced node is flagged `startedButNotComp`. -/
def waitStep (temp : Nat) (s : SimState) : SimState :=
  match s.readyQueue[temp]? with
  | some t => if t.startedButNotComp = false then UpdateWaitingTimes s else s
  | none => s

/-- One iteration of the `for` loop of `HybridRoundRobin`, `temp` being the
position of the serviced node. -/
def tick (temp : Nat) (s : SimState) : SimState :=
  match s.readyQueue[temp]? with
  | none => s
  | some e =>
    let s3 := waitStep temp (populateQueueIfArrive (serviceStep temp e s))
    { s3 with TIME_ELAPSED := s3.TIME_ELAPSED + 1 }

/-- The `for (int i = 0; i < timejump; i++)` loop. -/
def tickLoop (temp : Nat) : Nat → SimState → SimState
  | 0, s => s
  | k + 1, s => tickLoop temp k (tick temp s)

/-- The preemption bookkeeping that the branch for more than one uncompleted
process applies to the node `temp` points at on entry, the head of the queue. -/
def markStopped (clock : Int) (e : fileAttribute) : fileAttribute :=
  let e1 := { e with processing := false }
  let e2 :=
    if e1.saved = false then
      { e1 with timeStopped := clock, startedButNotComp := true, saved := true }
    else e1
  { e2 with calculated := false }

/-- Lines 295-349 of `HybridRoundRobin`: the choice of the node to service
and of `timejump`. Returns the position `temp`, `timejump` and the state with
the flag updates of the taken branch; `none` when an unassigned local or a
null node pointer would be read. -/
def selectTask (TIME_QUANTUM : Int) (s : SimState) : Option (Nat × Int × SimState) :=
  let uncompletedProcessesInQueue := CountUncompletedProcessesInQueue s
  if uncompletedProcessesInQueue = 1 then
    match findNode (fun e => e.hasCompleted = false) s.readyQueue with
    | none => none
    | some temp =>
      match s.readyQueue[temp]? with
      | none => none
      | some e =>
        let q := modifyNode (fun t => { t with processing := true }) temp s.readyQueue
        let timejump : Int :=
          if TIME_QUANTUM ≥ e.backUpBurstTime then e.backUpBurstTime
          else if TIME_QUANTUM ≤ e.backUpBurstTime then DEFAULT_TIME_QUANTUM
          else 0
        some (temp, timejump, { s with readyQueue := q })
  else if uncompletedProcessesInQueue > 1 then
    let q := modifyNode (markStopped s.TIME_ELAPSED) 0 s.readyQueue
    match getLowestRemainingBurstTime q with
    | none => none
    | some fid =>
      let temp := (findNode (fun e => fid = e.fileID) q).getD 0
      match q[temp]? with
      | none => none
      | some e =>
        let q1 := modifyNode (fun t => { t with processing := true }) temp q
        some (temp, e.backUpBurstTime, { s with readyQueue := q1 })
  else
    some (0, 0, s)

/-- The function `HybridRoundRobin(TIME_QUANTUM, ...)`: the early return when no process in
the queue is uncompleted, otherwise the selection followed by `timejump`
iterations of the `for` loop. -/
def HybridRoundRobin (TIME_QUANTUM : Int) (s : SimState) : Option SimState :=
  if CountUncompletedProcessesInQueue s = 0 then
    some { s with TIME_ELAPSED := s.TIME_ELAPSED + 1 }
  else
    match selectTask TIME_QUANTUM s with
    | none => none
    | some (temp, timejump, s1) => some (tickLoop temp timejump.toNat s1)

/-- One iteration of the `while` loop of `main`. -/
def driverRound (s : SimState) : Option SimState :=
  match HybridRoundRobin DEFAULT_TIME_QUANTUM (populateQueueIfArrive s) with
  | none => none
  | some s1 => some (UpdateWaitingTimes s1)

/-- The loop `while (processesCompleted != numberOfFiles)` of `main`, with a
bound on the number of iterations; `none` when the bound is reached before the
loop exits. -/
def driverLoop : Nat → SimState → Option SimState
  | 0, s => if s.processesCompleted = numberOfFiles s then some s else none
  | f + 1, s =>
    if s.processesCompleted = numberOfFiles s then some s
    else
      match driverRound s with
      | none => none
      | some s1 => driverLoop f s1

/-- The entry `fileTable[i]` as `main` initialises it and then fills it from
the input record `(arrivalTime, burstTime)`. -/
def initFileEntry (i : Nat) (rec : Int × Int) : fileAttribute :=
  { arrivalTime := rec.1, burstTime := rec.2, waitingTime := 0, turnAroundTime := 0,
    backUpBurstTime := rec.2, timeAddedToQueue := 0, fileID := i, responseTime := -1,
    timeStopped := 0, hasArrived := false, hasCompleted := false, inQueue := false,
    processing := false, saved := false, calculated := true, startedButNotComp := false }

/-- The entry `completedFileTable[i]` as `main` initialises it. The fields
`timeStopped`, `saved`, `calculated` and `startedButNotComp` are not assigned
by `main`; they are never read before being overwritten and get `0`/`false`. -/
def initCompletedEntry (i : Nat) : fileAttribute :=
  { arrivalTime := -1, burstTime := -1, waitingTime := 0, turnAroundTime := 0,
    backUpBurstTime := -1, timeAddedToQueue := 0, fileID := i, responseTime := -1,
    timeStopped := 0, hasArrived := false, hasCompleted := false, inQueue := false,
    processing := false, saved := false, calculated := false, startedButNotComp := false }

/-- The task table that `main` builds from the input records. -/
def initFileTable (input : List (Int × Int)) : List fileAttribute :=
  input.enum.map (fun p => initFileEntry p.1 p.2)

/-- The state in which `main` enters the `while` loop. -/
def initState (input : List (Int × Int)) : SimState :=
  { ITEMS_IN_QUEUE := 0, TIME_ELAPSED := 0,
    fileTable := initFileTable input,
    readyQueue := [],
    completedFileTable := (List.range input.length).map initCompletedEntry,
    processesCompleted := 0, completedIndex := 0 }

/-- A well-formed task table: every arrival time is non-negative and every
burst time is positive. -/
def WellFormed (input : List (Int × Int)) : Prop :=
  ∀ r ∈ input, 0 ≤ r.1 ∧ 0 < r.2

instance (input : List (Int × Int)) : Decidable (WellFormed input) := by
  unfold WellFormed; infer_instance

/-! ## Specification-level definitions -/

/-- The condition under which the loop of `populateQueueIfArrive` reaches
`AddToReadyQueue` for an entry. -/
def admits (clock : Int) (e : fileAttribute) : Prop :=
  e.inQueue = false ∧ e.hasCompleted = false ∧ e.arrivalTime = clock

instance (clock : Int) (e : fileAttribute) : Decidable (admits clock e) := by
  unfold admits; infer_instance

/-- The table entry as rewritten by an admission at `clock`. -/
def admitEntry (clock : Int) (e : fileAttribute) : fileAttribute :=
  { e with hasArrived := true, inQueue := true, timeAddedToQueue := clock }

/-- A table entry with the three fields that admission writes reset. -/
def tableCore (e : fileAttribute) : fileAttribute :=
  { e with hasArrived := false, inQueue := false, timeAddedToQueue := 0 }

/-- What holds of every node of the ready queue at clock value `clock`. -/
structure NodeOk (clock : Int) (e : fileAttribute) : Prop where
  completed : e.hasCompleted = true →
    e.backUpBurstTime = 0 ∧ e.turnAroundTime = e.burstTime + e.waitingTime
  uncompleted : e.hasCompleted = false → 0 < e.backUpBurstTime
  remaining_le : e.backUpBurstTime ≤ e.burstTime
  burst_pos : 0 < e.burstTime
  added : e.timeAddedToQueue = e.arrivalTime
  arrived : e.arrivalTime ≤ clock
  arrival_nonneg : 0 ≤ e.arrivalTime
  in_queue : e.inQueue = true
  response_unset : e.responseTime = -1 ↔ e.backUpBurstTime = e.burstTime
  response_ge : -1 ≤ e.responseTime

/-- The record `r` of `completedFileTable` carries the results of node `e`. -/
structure RecordOf (e r : fileAttribute) : Prop where
  fileID : r.fileID = e.fileID
  arrivalTime : r.arrivalTime = e.arrivalTime
  burstTime : r.burstTime = e.burstTime
  backUpBurstTime : r.backUpBurstTime = e.backUpBurstTime
  waitingTime : r.waitingTime = e.waitingTime
  turnAroundTime : r.turnAroundTime = e.turnAroundTime
  responseTime : r.responseTime = e.responseTime

/-- The invariant of the engine on the task table `input`. -/
structure Inv (input : List (Int × Int)) (s : SimState) : Prop where
  items : s.ITEMS_IN_QUEUE = s.readyQueue.length
  nodes : ∀ e ∈ s.readyQueue, NodeOk s.TIME_ELAPSED e
  sorted : (s.readyQueue.map (fun e => e.arrivalTime)).Pairwise (fun a b => a ≤ b)
  ids : (s.readyQueue.map (fun e => e.fileID)).Perm
    ((s.fileTable.filter (fun e => e.inQueue)).map (fun e => e.fileID))
  table : s.fileTable.map tableCore = initFileTable input
  done_eq : s.processesCompleted = s.completedIndex
  done_count : s.completedIndex = ((s.readyQueue.filter (fun e => e.hasCompleted)).length : Int)
  records_len : s.completedFileTable.length = input.length
  records : ∀ e ∈ s.readyQueue, e.hasCompleted = true →
    ∃ (k : Nat) (r : fileAttribute), (k : Int) < s.completedIndex ∧
      s.completedFileTable[k]? = some r ∧ RecordOf e r
  order : ((s.completedFileTable.take s.completedIndex.toNat).map (fun e => e.fileID)).Perm
    ((s.readyQueue.filter (fun e => e.hasCompleted)).map (fun e => e.fileID))

/-- A queue node `e` and the same node `e1` at a later time: the identity
of the task is kept, remaining burst only shrinks, a response time that has
been written stays, and a completed node keeps its results. -/
structure Evolves (e e1 : fileAttribute) : Prop where
  fileID : e1.fileID = e.fileID
  arrivalTime : e1.arrivalTime = e.arrivalTime
  burstTime : e1.burstTime = e.burstTime
  remaining_le : e1.backUpBurstTime ≤ e.backUpBurstTime
  response : e.responseTime ≠ -1 → e1.responseTime = e.responseTime
  completed : e.hasCompleted = true →
    e1.hasCompleted = true ∧ e1.backUpBurstTime = e.backUpBurstTime ∧
    e1.turnAroundTime = e.turnAroundTime ∧ e1.waitingTime = e.waitingTime ∧
    e1.responseTime = e.responseTime

/-- A queue node `e` and the same node `e1` after a step that did not
service it. -/
structure Untouched (e e1 : fileAttribute) : Prop where
  fileID : e1.fileID = e.fileID
  arrivalTime : e1.arrivalTime = e.arrivalTime
  burstTime : e1.burstTime = e.burstTime
  backUpBurstTime : e1.backUpBurstTime = e.backUpBurstTime
  hasCompleted : e1.hasCompleted = e.hasCompleted
  responseTime : e1.responseTime = e.responseTime
  turnAroundTime : e1.turnAroundTime = e.turnAroundTime
  timeAddedToQueue : e1.timeAddedToQueue = e.timeAddedToQueue
  inQueue : e1.inQueue = e.inQueue
  waitingTime : e.hasCompleted = true → e1.waitingTime = e.waitingTime

/-- The effect of a step on what was there before it: every queue node stays
at its position and evolves, every completion record written stays as it is,
and neither the clock nor the completion counter decreases. -/
structure Frame (s s1 : SimState) : Prop where
  queue : ∀ (i : Nat) (e : fileAttribute), s.readyQueue[i]? = some e →
    ∃ e1, s1.readyQueue[i]? = some e1 ∧ Evolves e e1
  records : ∀ (k : Nat) (r : fileAttribute), (k : Int) < s.completedIndex →
    s.completedFileTable[k]? = some r → s1.completedFileTable[k]? = some r
  index : s.completedIndex ≤ s1.completedIndex
  clock : s.TIME_ELAPSED ≤ s1.TIME_ELAPSED

/-- The steps of the engine: the three calls of the driver loop, and inside
`HybridRoundRobin` the selection and the single iterations of its `for` loop
(on any uncompleted node of the queue). -/
inductive Step : SimState → SimState → Prop where
  | arrive (s : SimState) : Step s (populateQueueIfArrive s)
  | wait (s : SimState) : Step s (UpdateWaitingTimes s)
  | round (s s1 : SimState) :
      HybridRoundRobin DEFAULT_TIME_QUANTUM s = some s1 → Step s s1
  | select (s s1 : SimState) (temp : Nat) (timejump : Int) :
      selectTask DEFAULT_TIME_QUANTUM s = some (temp, timejump, s1) → Step s s1
  | service (s : SimState) (temp : Nat) (e : fileAttribute) :
      s.readyQueue[temp]? = some e → e.hasCompleted = false → Step s (tick temp s)

/-- The states reachable in a simulation of `input`: the closure of the
initial state under `Step`. It contains every state the driver loop of `main`
goes through, at the loop head, between its three calls and between the
iterations of the `for` loop of `HybridRoundRobin`. -/
inductive Reachable (input : List (Int × Int)) : SimState → Prop where
  | init : Reachable input (initState input)
  | step (s s1 : SimState) : Reachable input s → Step s s1 → Reachable input s1

/-- Number of uncompleted nodes of a queue. -/
def uncompletedCount (q : List fileAttribute) : Nat :=
  (q.filter (fun e => e.hasCompleted = false)).length

/-- Node `e` at position `i` is what the specification says
`getLowestRemainingBurstTime` selects: uncompleted, of minimal remaining burst
among the uncompleted nodes, and among those of that remaining burst the first
in queue order and of smallest `timeAddedToQueue`. -/
structure IsSelection (q : List fileAttribute) (i : Nat) (e : fileAttribute) : Prop where
  at_pos : q[i]? = some e
  uncompleted : e.hasCompleted = false
  minimal : ∀ x ∈ q, x.hasCompleted = false → e.backUpBurstTime ≤ x.backUpBurstTime
  first : ∀ (j : Nat) (x : fileAttribute), q[j]? = some x → x.hasCompleted = false →
    x.backUpBurstTime = e.backUpBurstTime → i ≤ j ∧ e.timeAddedToQueue ≤ x.timeAddedToQueue

/-- The effect on state `s` of servicing for `k` ticks the node that is `e`
at position `temp` in `s`: that node has lost `k` units of remaining burst and
is completed exactly if none is left, every other node is untouched, and the
completion records written before are kept. -/
structure ServicedFor (temp : Nat) (e : fileAttribute) (k : Nat) (s s1 : SimState) : Prop where
  others : ∀ (j : Nat) (x : fileAttribute), j ≠ temp → s.readyQueue[j]? = some x →
    ∃ x1, s1.readyQueue[j]? = some x1 ∧ Untouched x x1
  node : ∃ e1, s1.readyQueue[temp]? = some e1 ∧ Evolves e e1 ∧
    e1.backUpBurstTime = e.backUpBurstTime - k ∧
    (e1.hasCompleted = true ↔ e.backUpBurstTime = k)
  records : ∀ (k : Nat) (r : fileAttribute), (k : Int) < s.completedIndex →
    s.completedFileTable[k]? = some r → s1.completedFileTable[k]? = some r
  index : s.completedIndex ≤ s1.completedIndex

/-- The node that one iteration of the `for` loop of `HybridRoundRobin`
writes back for the serviced node `e`. -/
def nodeAfterService (clock : Int) (e : fileAttribute) : fileAttribute :=
  let e2 := serviceNode clock e
  if e2.backUpBurstTime = 0 ∧ e2.hasCompleted = false then completeNode e2
  else if e2.backUpBurstTime > 0 ∧ e2.calculated = false then reconcileNode clock e2
  else e2

/-- Node `e1` is the uncompleted node `e` after one tick of service at
`clock`. -/
structure NodeServiced (clock : Int) (e e1 : fileAttribute) : Prop where
  fileID : e1.fileID = e.fileID
  arrivalTime : e1.arrivalTime = e.arrivalTime
  burstTime : e1.burstTime = e.burstTime
  timeAddedToQueue : e1.timeAddedToQueue = e.timeAddedToQueue
  inQueue : e1.inQueue = e.inQueue
  backUpBurstTime : e1.backUpBurstTime = e.backUpBurstTime - 1
  responseTime : e1.responseTime =
    if e.responseTime = -1 then clock - e.arrivalTime else e.responseTime
  hasCompleted : e1.hasCompleted = true ↔ e.backUpBurstTime = 1
  turnAroundTime : e1.hasCompleted = true → e1.turnAroundTime = e1.burstTime + e1.waitingTime

/-- Remaining burst summed over the nodes of a queue. -/
def queueCost (q : List fileAttribute) : Nat :=
  (q.map (fun e => e.backUpBurstTime.toNat)).sum

/-- What the tasks that are not yet in the queue still cost at `clock`: their
burst time and the time until they arrive. -/
def pendingCost (clock : Int) (tbl : List fileAttribute) : Nat :=
  (tbl.map (fun t =>
    if t.inQueue = true then 0 else t.burstTime.toNat + (t.arrivalTime - clock).toNat)).sum

/-- A bound on the number of rounds the driver loop still takes. -/
def cost (s : SimState) : Nat :=
  queueCost s.readyQueue + pendingCost s.TIME_ELAPSED s.fileTable

/-- Every task that arrived before the current clock value is in the queue
(the situation at the head of the driver loop). -/
def Admitted (s : SimState) : Prop :=
  ∀ t ∈ s.fileTable, t.arrivalTime < s.TIME_ELAPSED → t.inQueue = true

/-- Every task that has arrived by the current clock value is in the queue
(the situation at a scheduling decision). -/
def AdmittedNow (s : SimState) : Prop :=
  ∀ t ∈ s.fileTable, t.arrivalTime ≤ s.TIME_ELAPSED → t.inQueue = true

/-- The state after `k` iterations of the `while` loop of `main`, whatever
the loop condition. -/
def driverRounds : Nat → SimState → Option SimState
  | 0, s => some s
  | k + 1, s =>
    match driverRound s with
    | none => none
    | some s1 => driverRounds k s1

/-- The elementary state changes the engine is made of: the two calls
`populateQueueIfArrive` and `UpdateWaitingTimes`, the preemption bookkeeping on
the head of the queue, the write `processing = true` through `temp`, the
write-back of one tick of service to an uncompleted node, and `TIME_ELAPSED++`. -/
inductive Prim : SimState → SimState → Prop where
  | arrive (s : SimState) : Prim s (populateQueueIfArrive s)
  | wait (s : SimState) : Prim s (UpdateWaitingTimes s)
  | mark (s : SimState) :
      Prim s { s with readyQueue := modifyNode (markStopped s.TIME_ELAPSED) 0 s.readyQueue }
  | dispatch (s : SimState) (temp : Nat) :
      Prim s { s with
        readyQueue := modifyNode (fun t => { t with processing := true }) temp s.readyQueue }
  | service (s : SimState) (temp : Nat) (e : fileAttribute) :
      s.readyQueue[temp]? = some e → e.hasCompleted = false → Prim s (serviceStep temp e s)
  | advance (s : SimState) : Prim s { s with TIME_ELAPSED := s.TIME_ELAPSED + 1 }

/-- What an elementary state change does to one queue node at `clock`. -/
inductive NodeMove (clock : Int) : fileAttribute → fileAttribute → Prop where
  | same (e : fileAttribute) : NodeMove clock e e
  | wait (e : fileAttribute) : NodeMove clock e (updateWaitingNode clock e)
  | mark (e : fileAttribute) : NodeMove clock e (markStopped clock e)
  | dispatch (e : fileAttribute) : NodeMove clock e { e with processing := true }
  | service (e : fileAttribute) :
      e.hasCompleted = false → NodeMove clock e (nodeAfterService clock e)

/-- The bookkeeping of waiting time on a queue node at `clock`: the waiting
time is between `0` and the time since arrival, the three reconciliation flags
agree, and while a reconciliation is pending the waiting time covers at most
the time up to `timeStopped`. -/
structure WaitOk (clock : Int) (e : fileAttribute) : Prop where
  nonneg : 0 ≤ e.waitingTime
  bound : e.waitingTime ≤ clock - e.arrivalTime
  flags : e.calculated = false ↔ e.saved = true
  pending : e.startedButNotComp = e.saved
  stopped : e.saved = true →
    e.timeStopped ≤ clock ∧ e.waitingTime ≤ e.timeStopped - e.arrivalTime

/-- The waiting-time bookkeeping holds of every queue node. -/
def WaitInv (s : SimState) : Prop :=
  ∀ e ∈ s.readyQueue, WaitOk s.TIME_ELAPSED e

/-- No queue node of `s` has a larger waiting time than the node at the same
position in `s1`. -/
def WaitGrows (s s1 : SimState) : Prop :=
  ∀ (i : Nat) (e : fileAttribute), s.readyQueue[i]? = some e →
    ∃ e1, s1.readyQueue[i]? = some e1 ∧ e.waitingTime ≤ e1.waitingTime

/-- Admission order on the queue: earlier arrival first, and among equal
arrival times the smaller file id (task-table position) first. -/
def AdmissionOrdered (q : List fileAttribute) : Prop :=
  q.Pairwise (fun a b =>
    a.arrivalTime < b.arrivalTime ∨ (a.arrivalTime = b.arrivalTime ∧ a.fileID < b.fileID))

/-- Once a task that arrives at the current clock value is in the queue, all
tasks arriving at this clock value are. -/
def BatchAdmitted (s : SimState) : Prop :=
  (∃ e ∈ s.readyQueue, e.arrivalTime = s.TIME_ELAPSED) →
    ∀ t ∈ s.fileTable, t.arrivalTime = s.TIME_ELAPSED → t.inQueue = true

/-- The function `validate(str)`: `1` when the scan reaches the terminating NUL without
meeting a character that is not a decimal digit, `0` otherwise. The argument is
the C string without its terminator. -/
def validate : List Char → Int
  | [] => 1
  | c :: rest => if ¬ c.isDigit then 0 else validate rest

/-- The task table of a run on the single task `(a, b)` once the task has been
admitted. -/
def soloTable (a b : Int) : List fileAttribute :=
  [admitEntry a (initFileEntry 0 (a, b))]

/-- The queue node of the single task `(a, b)` while it is being serviced,
with `r` units of burst remaining and response time `resp`. -/
def soloNode (a b r resp : Int) : fileAttribute :=
  { arrivalTime := a, burstTime := b, waitingTime := 0, turnAroundTime := 0,
    backUpBurstTime := r, timeAddedToQueue := a, fileID := 0, responseTime := resp,
    timeStopped := 0, hasArrived := true, hasCompleted := false, inQueue := true,
    processing := true, saved := false, calculated := true, startedButNotComp := false }

/-- The queue node of the single task `(a, b)` once it is completed. -/
def soloDoneNode (a b : Int) : fileAttribute :=
  { arrivalTime := a, burstTime := b, waitingTime := 0, turnAroundTime := b + 0,
    backUpBurstTime := 0, timeAddedToQueue := a, fileID := 0, responseTime := 0,
    timeStopped := 0, hasArrived := true, hasCompleted := true, inQueue := true,
    processing := false, saved := false, calculated := true, startedButNotComp := false }

/-- The state of a run on the single task `(a, b)` at clock `c` before the
task has arrived. -/
def soloIdle (a b c : Int) : SimState :=
  { initState [(a, b)] with TIME_ELAPSED := c }

/-- The state of a run on the single task `(a, b)` at clock `c` while the task
is being serviced. -/
def soloRunning (a b c r resp : Int) : SimState :=
  { ITEMS_IN_QUEUE := 1, TIME_ELAPSED := c, fileTable := soloTable a b,
    readyQueue := [soloNode a b r resp], completedFileTable := [initCompletedEntry 0],
    processesCompleted := 0, completedIndex := 0 }

/-- The state of a run on the single task `(a, b)` at clock `c` once the task
is completed. -/
def soloDone (a b c : Int) : SimState :=
  { ITEMS_IN_QUEUE := 1, TIME_ELAPSED := c, fileTable := soloTable a b,
    readyQueue := [soloDoneNode a b], completedFileTable := [soloDoneNode a b],
    processesCompleted := 1, completedIndex := 1 }

/-! ## Non-preemptive shortest job first -/

/-- The order in which non-preemptive shortest-job-first with FIFO ties runs
the tasks of `input`: the tasks, each paired with its position in the table
(its file id), stably sorted by burst time. -/
def sjfOrder (input : List (Int × Int)) : List (Nat × Int × Int) :=
  input.enum.insertionSort (fun a b => a.2.2 ≤ b.2.2)

/-- The completion records `(fileID, waitingTime, turnAroundTime, responseTime)`
of a non-preemptive schedule that starts at clock `c` and runs tasks that are
all present from the start in the given order: a task waits, and gets its
first response, after the sum of the bursts of the tasks run before it, and
its turnaround time is the clock at which it completes. -/
def sjfRecords : Int → List (Nat × Int × Int) → List (Int × Int × Int × Int)
  | _, [] => []
  | c, p :: rest => ((p.1 : Int), c, c + p.2.2, c) :: sjfRecords (c + p.2.2) rest

/-- A task table in which every task arrives at clock 0 and has a positive
burst time. -/
def ZeroArrival (input : List (Int × Int)) : Prop :=
  ∀ r ∈ input, r.1 = 0 ∧ 0 < r.2

instance (input : List (Int × Int)) : Decidable (ZeroArrival input) := by
  unfold ZeroArrival; infer_instance

/-- The task a node or record belongs to: file id, arrival time, burst time. -/
def taskOf (e : fileAttribute) : Int × Int × Int :=
  (e.fileID, e.arrivalTime, e.burstTime)

/-- The task of an entry of the enumerated input table. -/
def taskOfInput (p : Nat × Int × Int) : Int × Int × Int :=
  ((p.1 : Int), p.2.1, p.2.2)

/-- Task `a` runs before task `b` under shortest job first with FIFO ties:
smaller burst time, or equal burst time and smaller file id. -/
def Before (a b : Int × Int × Int) : Prop :=
  a.2.2 < b.2.2 ∨ (a.2.2 = b.2.2 ∧ a.1 < b.1)

/-- The completion records written so far, in the order of completion. -/
def completedRecords (s : SimState) : List fileAttribute :=
  s.completedFileTable.take s.completedIndex.toNat

/-- Sum of the burst times of a list of records. -/
def sumBurst (l : List fileAttribute) : Int :=
  (l.map (fun r => r.burstTime)).sum

/-- The records `l` are those of tasks run back to back from clock `c` on:
each has waited, and got its first response, at the clock value at which the
one before it completed. -/
def Chained : Int → List fileAttribute → Prop
  | _, [] => True
  | c, r :: rest =>
    r.waitingTime = c ∧ r.responseTime = c ∧ r.turnAroundTime = c + r.burstTime ∧
      Chained (c + r.burstTime) rest

/-- Every task of the table is in the ready queue. -/
def Full (s : SimState) : Prop :=
  ∀ t ∈ s.fileTable, t.inQueue = true

/-- An uncompleted queue node that has not been serviced yet: either it has
never been touched, or it is the head of the queue and carries the preemption
bookkeeping, its waiting time frozen at `timeStopped`. -/
structure Idle (e : fileAttribute) : Prop where
  uncompleted : e.hasCompleted = false
  full : e.backUpBurstTime = e.burstTime
  unanswered : e.responseTime = -1
  waiting : e.processing = false
  state : (e.startedButNotComp = false ∧ e.calculated = true ∧ e.saved = false) ∨
    (e.startedButNotComp = true ∧ e.calculated = false ∧ e.saved = true ∧
      e.waitingTime = e.timeStopped ∧ 1 < e.burstTime)

/-- An idle node at the head of the driver loop at clock `clock`: unless its
waiting time is frozen it has been waiting since its arrival. -/
structure Ready (clock : Int) (e : fileAttribute) : Prop where
  idle : Idle e
  waited : e.startedButNotComp = false → e.waitingTime = clock

/-- The node is the one being serviced at clock `clock`, its service having
started (or starting now) at clock `c`. -/
structure Serving (c clock : Int) (e : fileAttribute) : Prop where
  uncompleted : e.hasCompleted = false
  processing : e.processing = true
  start_nonneg : 0 ≤ c
  remaining_pos : 0 < e.backUpBurstTime
  clock_eq : clock = c + (e.burstTime - e.backUpBurstTime)
  state :
    (e.backUpBurstTime = e.burstTime ∧ e.responseTime = -1 ∧
      ((e.calculated = true ∧ e.waitingTime = c) ∨
        (e.calculated = false ∧ e.waitingTime = e.timeStopped ∧
          (1 < e.burstTime ∨ e.timeStopped = c)))) ∨
    (e.backUpBurstTime < e.burstTime ∧ e.responseTime = c ∧ e.waitingTime = c ∧
      e.calculated = true)

/-- The node is completed and its service started at clock `c`. -/
structure DoneAt (c : Int) (e : fileAttribute) : Prop where
  completed : e.hasCompleted = true
  waitingTime : e.waitingTime = c
  responseTime : e.responseTime = c
  turnAroundTime : e.turnAroundTime = c + e.burstTime

/-- The state at the head of the driver loop in a run on a table of tasks that
all arrive at clock 0: all tasks are in the queue in table order, the
completion records are those of a back-to-back schedule from clock 0 in
shortest-job-first order, every task not completed comes after the completed
ones in that order, and either no uncompleted task has been serviced, or the
only uncompleted task is being serviced. -/
structure SjfInv (input : List (Int × Int)) (s : SimState) : Prop where
  inv : Inv input s
  full : Full s
  shape : s.readyQueue.map taskOf = input.enum.map taskOfInput
  chain : Chained 0 (completedRecords s)
  sorted : (completedRecords s).Pairwise (fun a b => Before (taskOf a) (taskOf b))
  below : ∀ r ∈ completedRecords s, ∀ x ∈ s.readyQueue, x.hasCompleted = false →
    Before (taskOf r) (taskOf x)
  known : ∀ r ∈ completedRecords s, taskOf r ∈ input.enum.map taskOfInput
  nodes :
    (s.TIME_ELAPSED = sumBurst (completedRecords s) ∧
      ∀ x ∈ s.readyQueue, x.hasCompleted = false → Ready s.TIME_ELAPSED x) ∨
    (uncompletedCount s.readyQueue = 1 ∧
      ∀ x ∈ s.readyQueue, x.hasCompleted = false →
        Serving (sumBurst (completedRecords s)) s.TIME_ELAPSED x)

/-! ## The admission loop -/

theorem populateLoop_nil (n clock : Int) (q : List fileAttribute) (items : Int) :
    populateLoop n clock [] q items = ([], q, items) := rfl

theorem populateLoop_full (n clock : Int) (tbl q : List fileAttribute) :
    populateLoop n clock tbl q n = (tbl, q, n) := by
  cases tbl <;> simp [populateLoop]

theorem populateLoop_skip (n clock : Int) (e : fileAttribute) (rest q : List fileAttribute)
    (items : Int) (h : ¬ admits clock e) :
    populateLoop n clock (e :: rest) q items =
      if items = n then (e :: rest, q, items)
      else (e :: (populateLoop n clock rest q items).1,
            (populateLoop n clock rest q items).2.1, (populateLoop n clock rest q items).2.2) := by
  unfold admits at h
  rw [populateLoop]
  split_ifs with h0 h1 h2 h3 h4 <;> try rfl
  exfalso
  apply h
  refine ⟨h4.2, by simpa using h2, ?_⟩
  have h5 : ¬ clock > e.arrivalTime := fun hc => h3 ⟨hc, h4.2⟩
  have h6 := h4.1
  omega

theorem populateLoop_admitted (n clock : Int) (e : fileAttribute) (rest q : List fileAttribute)
    (items : Int) (h : admits clock e) :
    populateLoop n clock (e :: rest) q items =
      if items = n then (e :: rest, q, items)
      else
        (admitEntry clock e ::
          (populateLoop n clock rest (AddToReadyQueue (admitEntry clock e) items q).1
            (AddToReadyQueue (admitEntry clock e) items q).2).1,
         (populateLoop n clock rest (AddToReadyQueue (admitEntry clock e) items q).1
            (AddToReadyQueue (admitEntry clock e) items q).2).2.1,
         (populateLoop n clock rest (AddToReadyQueue (admitEntry clock e) items q).1
            (AddToReadyQueue (admitEntry clock e) items q).2).2.2) := by
  obtain ⟨h1, h2, h3⟩ := h
  rw [populateLoop]
  by_cases h0 : items = n
  · simp [h0]
  · have h4 : ¬ (clock > e.arrivalTime) := by omega
    have h5 : e.arrivalTime ≤ clock := by omega
    simp [h0, h1, h2, h4, h5, admitEntry]

theorem admitEntry_not_admits (clock c2 : Int) (e : fileAttribute) :
    ¬ admits c2 (admitEntry clock e) := by
  simp [admits, admitEntry]

/-- After the loop either the counter equals `n`, or no entry of the table can
be admitted any more. -/
theorem populateLoop_settled (n clock : Int) (tbl : List fileAttribute) :
    ∀ (q : List fileAttribute) (items : Int),
      (populateLoop n clock tbl q items).2.2 = n ∨
      ∀ e ∈ (populateLoop n clock tbl q items).1, ¬ admits clock e := by
  induction tbl with
  | nil => intro q items; right; simp [populateLoop]
  | cons e rest ih =>
    intro q items
    by_cases h0 : items = n
    · left; subst h0; rw [populateLoop_full]
    · by_cases ha : admits clock e
      · rw [populateLoop_admitted _ _ _ _ _ _ ha]
        simp only [h0, if_false]
        rcases ih (AddToReadyQueue (admitEntry clock e) items q).1
            (AddToReadyQueue (admitEntry clock e) items q).2 with h | h
        · left; exact h
        · right
          intro x hx
          rcases List.mem_cons.mp hx with hx | hx
          · subst hx; exact admitEntry_not_admits _ _ _
          · exact h x hx
      · rw [populateLoop_skip _ _ _ _ _ _ ha]
        simp only [h0, if_false]
        rcases ih q items with h | h
        · left; exact h
        · right
          intro x hx
          rcases List.mem_cons.mp hx with hx | hx
          · subst hx; exact ha
          · exact h x hx

theorem populateLoop_inert (n clock : Int) (tbl : List fileAttribute) :
    ∀ (q : List fileAttribute) (items : Int), (∀ e ∈ tbl, ¬ admits clock e) →
      populateLoop n clock tbl q items = (tbl, q, items) := by
  induction tbl with
  | nil => intro q items _; rfl
  | cons e rest ih =>
    intro q items h
    rw [populateLoop_skip _ _ _ _ _ _ (h e (List.mem_cons_self _ _))]
    by_cases h0 : items = n
    · simp [h0]
    · simp only [h0, if_false]
      rw [ih q items (fun x hx => h x (List.mem_cons_of_mem _ hx))]

theorem populateLoop_length (n clock : Int) (tbl : List fileAttribute) :
    ∀ (q : List fileAttribute) (items : Int),
      (populateLoop n clock tbl q items).1.length = tbl.length := by
  induction tbl with
  | nil => intro q items; rfl
  | cons e rest ih =>
    intro q items
    by_cases ha : admits clock e
    · rw [populateLoop_admitted _ _ _ _ _ _ ha]
      by_cases h0 : items = n
      · simp [h0]
      · simp [h0, ih]
    · rw [populateLoop_skip _ _ _ _ _ _ ha]
      by_cases h0 : items = n
      · simp [h0]
      · simp [h0, ih]

theorem numberOfFiles_populate (s : SimState) :
    numberOfFiles (populateQueueIfArrive s) = numberOfFiles s := by
  simp [numberOfFiles, populateQueueIfArrive, populateLoop_length]

theorem populateQueueIfArrive_eq_self (s : SimState)
    (h : populateLoop (numberOfFiles s) s.TIME_ELAPSED s.fileTable s.readyQueue s.ITEMS_IN_QUEUE =
      (s.fileTable, s.readyQueue, s.ITEMS_IN_QUEUE)) :
    populateQueueIfArrive s = s := by
  unfold populateQueueIfArrive
  rw [h]

/-! ## Writes through a node pointer -/

theorem getElem?_modifyNode (f : fileAttribute → fileAttribute) (q : List fileAttribute) :
    ∀ (i j : Nat), (modifyNode f i q)[j]? = if j = i then q[j]?.map f else q[j]? := by
  induction q with
  | nil => intro i j; simp [modifyNode]
  | cons e r ih =>
    intro i j
    cases i with
    | zero =>
      cases j with
      | zero => simp [modifyNode]
      | succ j => simp [modifyNode]
    | succ i =>
      cases j with
      | zero => simp [modifyNode]
      | succ j => simp [modifyNode, ih]

theorem length_modifyNode (f : fileAttribute → fileAttribute) (q : List fileAttribute) :
    ∀ (i : Nat), (modifyNode f i q).length = q.length := by
  induction q with
  | nil => intro i; simp [modifyNode]
  | cons e r ih =>
    intro i
    cases i with
    | zero => simp [modifyNode]
    | succ i => simp [modifyNode, ih]

theorem modifyNode_split (q : List fileAttribute) :
    ∀ (i : Nat) (e : fileAttribute), q[i]? = some e →
      ∃ l1 l2, q = l1 ++ e :: l2 ∧ l1.length = i ∧
        ∀ f, modifyNode f i q = l1 ++ f e :: l2 := by
  induction q with
  | nil => intro i e h; simp at h
  | cons x r ih =>
    intro i e h
    cases i with
    | zero =>
      simp at h
      subst h
      exact ⟨[], r, rfl, rfl, fun f => rfl⟩
    | succ i =>
      simp at h
      obtain ⟨l1, l2, h1, h2, h3⟩ := ih i e h
      refine ⟨x :: l1, l2, by simp [h1], by simp [h2], fun f => ?_⟩
      simp [modifyNode, h3]

theorem modifyNode_none (f : fileAttribute → fileAttribute) (q : List fileAttribute) :
    ∀ (i : Nat), q[i]? = none → modifyNode f i q = q := by
  induction q with
  | nil => intro i _; simp [modifyNode]
  | cons x r ih =>
    intro i h
    cases i with
    | zero => simp at h
    | succ i =>
      simp at h
      simp [modifyNode, ih i (by simpa using h)]

theorem modifyNode_id (f : fileAttribute → fileAttribute) (q : List fileAttribute) (i : Nat)
    (h : ∀ e, q[i]? = some e → f e = e) : modifyNode f i q = q := by
  cases hq : q[i]? with
  | none => exact modifyNode_none f q i hq
  | some e =>
    obtain ⟨l1, l2, h1, _, h3⟩ := modifyNode_split q i e hq
    rw [h3 f, h e hq, ← h1]

theorem mem_modifyNode (f : fileAttribute → fileAttribute) (q : List fileAttribute) (i : Nat)
    (x : fileAttribute) (hx : x ∈ modifyNode f i q) :
    x ∈ q ∨ ∃ e, q[i]? = some e ∧ x = f e := by
  cases hq : q[i]? with
  | none => rw [modifyNode_none f q i hq] at hx; exact Or.inl hx
  | some e =>
    obtain ⟨l1, l2, h1, _, h3⟩ := modifyNode_split q i e hq
    rw [h3 f] at hx
    rw [h1]
    simp only [List.mem_append, List.mem_cons] at hx ⊢
    rcases hx with hx | hx | hx
    · exact Or.inl (Or.inl hx)
    · exact Or.inr ⟨e, rfl, hx⟩
    · exact Or.inl (Or.inr (Or.inr hx))

/-- A projection that the write does not change is the same along the queue. -/
theorem map_modifyNode {β : Type} (g : fileAttribute → β) (f : fileAttribute → fileAttribute)
    (q : List fileAttribute) (i : Nat) (h : ∀ e, q[i]? = some e → g (f e) = g e) :
    (modifyNode f i q).map g = q.map g := by
  cases hq : q[i]? with
  | none => rw [modifyNode_none f q i hq]
  | some e =>
    obtain ⟨l1, l2, h1, _, h3⟩ := modifyNode_split q i e hq
    rw [h3 f, h1]
    simp [h e hq]

theorem filter_modifyNode (p : fileAttribute → Bool) (f : fileAttribute → fileAttribute)
    (g : fileAttribute → Int) (q : List fileAttribute) (i : Nat)
    (hp : ∀ e, q[i]? = some e → p (f e) = p e) (hg : ∀ e, q[i]? = some e → g (f e) = g e) :
    ((modifyNode f i q).filter p).map g = (q.filter p).map g := by
  cases hq : q[i]? with
  | none => rw [modifyNode_none f q i hq]
  | some e =>
    obtain ⟨l1, l2, h1, _, h3⟩ := modifyNode_split q i e hq
    rw [h3 f, h1]
    simp only [List.filter_append, List.map_append, List.filter_cons, hp e hq]
    split_ifs <;> simp [hg e hq]

/-! ## `AddToReadyQueue` and the admission loop on a consistent queue -/

theorem AddToReadyQueue_eq (e : fileAttribute) (items : Int) (q : List fileAttribute)
    (hi : items = q.length) (hq : ∀ x ∈ q, x.inQueue = true) (he : e.inQueue = true) :
    AddToReadyQueue e items q = (q ++ [e], items + 1) := by
  unfold AddToReadyQueue
  cases q with
  | nil =>
    simp at hi
    subst hi
    cases e
    simp at he
    simp [he]
  | cons h t =>
    have h0 : items ≠ 0 := by simp at hi; omega
    simp only [h0, if_false, List.cons_append, modifyNode]
    have hh := hq h (List.mem_cons_self _ _)
    cases h
    simp at hh
    simp [hh]

/-- The admission loop on a queue that is consistent with its counter: the
queue grows at the tail by the admitted entries, in table order, and the table
changes only in the three admission fields of the admitted entries. -/
theorem populateLoop_spec (n clock : Int) (tbl : List fileAttribute) :
    ∀ (q : List fileAttribute) (items : Int), items = q.length →
      (∀ x ∈ q, x.inQueue = true) →
      ∃ added : List fileAttribute,
        (populateLoop n clock tbl q items).2.1 = q ++ added ∧
        (populateLoop n clock tbl q items).2.2 = items + added.length ∧
        added.Sublist ((tbl.filter (fun t => decide (admits clock t))).map (admitEntry clock)) ∧
        (((populateLoop n clock tbl q items).1.filter (fun e => e.inQueue)).map
            (fun e => e.fileID)).Perm
          ((tbl.filter (fun e => e.inQueue)).map (fun e => e.fileID) ++
            added.map (fun e => e.fileID)) ∧
        (populateLoop n clock tbl q items).1.map tableCore = tbl.map tableCore := by
  induction tbl with
  | nil =>
    intro q items _ _
    exact ⟨[], by simp [populateLoop]⟩
  | cons e rest ih =>
    intro q items hi hq
    by_cases h0 : items = n
    · subst h0
      rw [populateLoop_full]
      exact ⟨[], by simp⟩
    · by_cases ha : admits clock e
      · rw [populateLoop_admitted _ _ _ _ _ _ ha]
        simp only [h0, if_false]
        have hin : (admitEntry clock e).inQueue = true := rfl
        rw [AddToReadyQueue_eq _ _ _ hi hq hin]
        obtain ⟨added, h1, h2, h3, h4, h5⟩ := ih (q ++ [admitEntry clock e]) (items + 1)
          (by simp [hi]) (by
            intro x hx
            rcases List.mem_append.mp hx with hx | hx
            · exact hq x hx
            · simp at hx; subst hx; rfl)
        refine ⟨admitEntry clock e :: added, ?_, ?_, ?_, ?_, ?_⟩
        · simp [h1]
        · simp [h2]; omega
        · simp only [List.filter_cons, ha, decide_True, if_true, List.map_cons]
          exact List.Sublist.cons₂ _ h3
        · have he : e.inQueue = false := ha.1
          simp only [List.filter_cons, hin, he, if_true, List.map_cons, Bool.false_eq_true,
            if_false]
          refine (List.Perm.cons _ h4).trans ?_
          exact List.perm_middle.symm
        · simp only [List.map_cons, h5]
          congr 1
      · rw [populateLoop_skip _ _ _ _ _ _ ha]
        simp only [h0, if_false]
        obtain ⟨added, h1, h2, h3, h4, h5⟩ := ih q items hi hq
        refine ⟨added, h1, h2, ?_, ?_, ?_⟩
        · simp only [List.filter_cons, ha, decide_False]
          simpa using h3
        · simp only [List.filter_cons]
          by_cases he : e.inQueue = true
          · simp only [he, if_true, List.map_cons, List.cons_append]
            exact List.Perm.cons _ h4
          · simp only [he, if_false]
            exact h4
        · simp [h5]

/-! ## The evolution relations -/

theorem Evolves.evolves_refl (e : fileAttribute) : Evolves e e :=
  ⟨rfl, rfl, rfl, le_refl _, fun _ => rfl, fun h => ⟨h, rfl, rfl, rfl, rfl⟩⟩

theorem Evolves.evolves_trans {a b c : fileAttribute} (h1 : Evolves a b) (h2 : Evolves b c) :
    Evolves a c := by
  refine ⟨h2.fileID.trans h1.fileID, h2.arrivalTime.trans h1.arrivalTime,
    h2.burstTime.trans h1.burstTime, le_trans h2.remaining_le h1.remaining_le, ?_, ?_⟩
  · intro h
    have hb := h1.response h
    rw [← hb]
    exact h2.response (by rw [hb]; exact h)
  · intro h
    obtain ⟨p1, p2, p3, p4, p5⟩ := h1.completed h
    obtain ⟨r1, r2, r3, r4, r5⟩ := h2.completed p1
    exact ⟨r1, r2.trans p2, r3.trans p3, r4.trans p4, r5.trans p5⟩

theorem Untouched.untouched_refl (e : fileAttribute) : Untouched e e :=
  ⟨rfl, rfl, rfl, rfl, rfl, rfl, rfl, rfl, rfl, fun _ => rfl⟩

theorem Untouched.untouched_trans {a b c : fileAttribute} (h1 : Untouched a b) (h2 : Untouched b c) :
    Untouched a c :=
  ⟨h2.fileID.trans h1.fileID, h2.arrivalTime.trans h1.arrivalTime,
    h2.burstTime.trans h1.burstTime, h2.backUpBurstTime.trans h1.backUpBurstTime,
    h2.hasCompleted.trans h1.hasCompleted, h2.responseTime.trans h1.responseTime,
    h2.turnAroundTime.trans h1.turnAroundTime, h2.timeAddedToQueue.trans h1.timeAddedToQueue,
    h2.inQueue.trans h1.inQueue,
    fun h => (h2.waitingTime (h1.hasCompleted.trans h)).trans (h1.waitingTime h)⟩

theorem Untouched.to_evolves {e e1 : fileAttribute} (h : Untouched e e1) : Evolves e e1 :=
  ⟨h.fileID, h.arrivalTime, h.burstTime, le_of_eq h.backUpBurstTime, fun _ => h.responseTime,
    fun hc => ⟨h.hasCompleted.trans hc, h.backUpBurstTime, h.turnAroundTime, h.waitingTime hc,
      h.responseTime⟩⟩

theorem Frame.frame_refl (s : SimState) : Frame s s :=
  ⟨fun _ e h => ⟨e, h, Evolves.evolves_refl e⟩, fun _ _ _ h => h, le_refl _, le_refl _⟩

theorem Frame.frame_trans {a b c : SimState} (h1 : Frame a b) (h2 : Frame b c) : Frame a c := by
  refine ⟨?_, ?_, le_trans h1.index h2.index, le_trans h1.clock h2.clock⟩
  · intro i e h
    obtain ⟨e1, p1, p2⟩ := h1.queue i e h
    obtain ⟨e2, r1, r2⟩ := h2.queue i e1 p1
    exact ⟨e2, r1, p2.evolves_trans r2⟩
  · intro k r hk h
    exact h2.records k r (lt_of_lt_of_le hk h1.index) (h1.records k r hk h)

/-- A node that a step left untouched is still in order, at any later clock. -/
theorem NodeOk.node_untouched {clock c1 : Int} {e e1 : fileAttribute} (h : NodeOk clock e)
    (hu : Untouched e e1) (hc : clock ≤ c1) : NodeOk c1 e1 := by
  obtain ⟨a1, a2, a3, a4, a5, a6, a7, a8, a9, a10⟩ := hu
  refine ⟨?_, ?_, ?_, ?_, ?_, ?_, ?_, ?_, ?_, ?_⟩
  · intro hd
    rw [a5] at hd
    rw [a4, a7, a3, a10 hd]
    exact h.completed hd
  · intro hd
    rw [a5] at hd
    rw [a4]
    exact h.uncompleted hd
  · rw [a4, a3]; exact h.remaining_le
  · rw [a3]; exact h.burst_pos
  · rw [a8, a2]; exact h.added
  · rw [a2]; exact le_trans h.arrived hc
  · rw [a2]; exact h.arrival_nonneg
  · rw [a9]; exact h.in_queue
  · rw [a6, a4, a3]; exact h.response_unset
  · rw [a6]; exact h.response_ge

theorem RecordOf.record_untouched {e e1 r : fileAttribute} (h : RecordOf e r) (hu : Untouched e e1)
    (hc : e.hasCompleted = true) : RecordOf e1 r :=
  ⟨h.fileID.trans hu.fileID.symm, h.arrivalTime.trans hu.arrivalTime.symm,
    h.burstTime.trans hu.burstTime.symm, h.backUpBurstTime.trans hu.backUpBurstTime.symm,
    h.waitingTime.trans (hu.waitingTime hc).symm, h.turnAroundTime.trans hu.turnAroundTime.symm,
    h.responseTime.trans hu.responseTime.symm⟩

/-! ## The task table -/

/-- Every entry of the task table is, apart from the admission fields, the
entry `main` built from an input record. -/
theorem table_entry {input : List (Int × Int)} {tbl : List fileAttribute}
    (h : tbl.map tableCore = initFileTable input) {t : fileAttribute} (ht : t ∈ tbl) :
    ∃ (i : Nat) (r : Int × Int), r ∈ input ∧ tableCore t = initFileEntry i r := by
  have h1 : tableCore t ∈ initFileTable input := by
    rw [← h]; exact List.mem_map_of_mem _ ht
  unfold initFileTable at h1
  obtain ⟨p, hp, hpe⟩ := List.mem_map.mp h1
  exact ⟨p.1, p.2, List.snd_mem_of_mem_enum hp, hpe.symm⟩

theorem table_entry_fields {input : List (Int × Int)} (hw : WellFormed input)
    {tbl : List fileAttribute} (h : tbl.map tableCore = initFileTable input)
    {t : fileAttribute} (ht : t ∈ tbl) :
    0 ≤ t.arrivalTime ∧ 0 < t.burstTime ∧ t.backUpBurstTime = t.burstTime ∧
      t.responseTime = -1 ∧ t.hasCompleted = false := by
  obtain ⟨i, r, hr, he⟩ := table_entry h ht
  obtain ⟨w1, w2⟩ := hw r hr
  have e1 : (tableCore t).arrivalTime = r.1 := by rw [he]; rfl
  have e2 : (tableCore t).burstTime = r.2 := by rw [he]; rfl
  have e3 : (tableCore t).backUpBurstTime = r.2 := by rw [he]; rfl
  have e4 : (tableCore t).responseTime = -1 := by rw [he]; rfl
  have e5 : (tableCore t).hasCompleted = false := by rw [he]; rfl
  simp only [tableCore] at e1 e2 e3 e4 e5
  refine ⟨by omega, by omega, by omega, e4, e5⟩

theorem NodeOk.admitEntry {input : List (Int × Int)} (hw : WellFormed input)
    {tbl : List fileAttribute} (h : tbl.map tableCore = initFileTable input)
    {t : fileAttribute} (ht : t ∈ tbl) {clock : Int} (ha : admits clock t) :
    NodeOk clock (admitEntry clock t) := by
  obtain ⟨f1, f2, f3, f4, f5⟩ := table_entry_fields hw h ht
  obtain ⟨_, _, a3⟩ := ha
  refine ⟨?_, ?_, ?_, ?_, ?_, ?_, ?_, ?_, ?_, ?_⟩ <;> simp only [HybridRR.admitEntry]
  · intro hd; rw [f5] at hd; cases hd
  · intro _; omega
  · omega
  · exact f2
  · exact a3.symm
  · omega
  · exact f1
  · exact ⟨fun _ => f3, fun _ => f4⟩
  · omega

/-! ## Admission keeps the invariant -/

theorem populate_added (s : SimState) {input : List (Int × Int)} (h : Inv input s) :
    ∃ added : List fileAttribute,
      (populateQueueIfArrive s).readyQueue = s.readyQueue ++ added ∧
      (populateQueueIfArrive s).ITEMS_IN_QUEUE = s.ITEMS_IN_QUEUE + added.length ∧
      added.Sublist
        ((s.fileTable.filter (fun t => decide (admits s.TIME_ELAPSED t))).map
          (admitEntry s.TIME_ELAPSED)) ∧
      (((populateQueueIfArrive s).fileTable.filter (fun e => e.inQueue)).map
          (fun e => e.fileID)).Perm
        ((s.fileTable.filter (fun e => e.inQueue)).map (fun e => e.fileID) ++
          added.map (fun e => e.fileID)) ∧
      (populateQueueIfArrive s).fileTable.map tableCore = s.fileTable.map tableCore :=
  populateLoop_spec (numberOfFiles s) s.TIME_ELAPSED s.fileTable s.readyQueue s.ITEMS_IN_QUEUE
    h.items (fun x hx => (h.nodes x hx).in_queue)

theorem populate_fields (s : SimState) :
    (populateQueueIfArrive s).TIME_ELAPSED = s.TIME_ELAPSED ∧
    (populateQueueIfArrive s).completedFileTable = s.completedFileTable ∧
    (populateQueueIfArrive s).processesCompleted = s.processesCompleted ∧
    (populateQueueIfArrive s).completedIndex = s.completedIndex :=
  ⟨rfl, rfl, rfl, rfl⟩

theorem added_mem {s : SimState} {added : List fileAttribute}
    (h : added.Sublist
      ((s.fileTable.filter (fun t => decide (admits s.TIME_ELAPSED t))).map
        (admitEntry s.TIME_ELAPSED))) {a : fileAttribute} (ha : a ∈ added) :
    ∃ t ∈ s.fileTable, admits s.TIME_ELAPSED t ∧ a = admitEntry s.TIME_ELAPSED t := by
  obtain ⟨t, ht, hte⟩ := List.mem_map.mp (h.subset ha)
  rw [List.mem_filter] at ht
  exact ⟨t, ht.1, by simpa using ht.2, hte.symm⟩

theorem Inv.inv_populate {input : List (Int × Int)} (hw : WellFormed input) {s : SimState}
    (h : Inv input s) : Inv input (populateQueueIfArrive s) := by
  obtain ⟨added, h1, h2, h3, h4, h5⟩ := populate_added s h
  obtain ⟨c1, c2, c3, c4⟩ := populate_fields s
  have hadd : ∀ a ∈ added, NodeOk s.TIME_ELAPSED a ∧ a.hasCompleted = false ∧
      a.arrivalTime = s.TIME_ELAPSED := by
    intro a ha
    obtain ⟨t, ht, hta, hte⟩ := added_mem h3 ha
    subst hte
    exact ⟨NodeOk.admitEntry hw h.table ht hta, hta.2.1, hta.2.2⟩
  have hfil : added.filter (fun e => e.hasCompleted) = [] := by
    rw [List.filter_eq_nil_iff]
    intro a ha
    simp [(hadd a ha).2.1]
  refine ⟨?_, ?_, ?_, ?_, ?_, ?_, ?_, ?_, ?_, ?_⟩
  · rw [h2, h1, h.items]; simp
  · intro e he
    rw [h1] at he
    rw [c1]
    rcases List.mem_append.mp he with he | he
    · exact h.nodes e he
    · exact (hadd e he).1
  · rw [h1, List.map_append, List.pairwise_append]
    refine ⟨h.sorted, ?_, ?_⟩
    · rw [List.pairwise_map]
      apply List.pairwise_of_forall_mem_list
      intro a ha b hb
      have := (hadd a ha).2.2
      have := (hadd b hb).2.2
      omega
    · intro a ha b hb
      obtain ⟨x, hx, rfl⟩ := List.mem_map.mp ha
      obtain ⟨y, hy, rfl⟩ := List.mem_map.mp hb
      have := (h.nodes x hx).arrived
      have := (hadd y hy).2.2
      show x.arrivalTime ≤ y.arrivalTime
      omega
  · rw [h1, List.map_append]
    exact (List.Perm.append_right _ h.ids).trans h4.symm
  · rw [h5]; exact h.table
  · rw [c3, c4]; exact h.done_eq
  · rw [c4, h1, List.filter_append, hfil, List.append_nil]; exact h.done_count
  · rw [c2]; exact h.records_len
  · intro e he hc
    rw [h1] at he
    rw [c2, c4]
    rcases List.mem_append.mp he with he | he
    · exact h.records e he hc
    · have := (hadd e he).2.1
      rw [hc] at this; cases this
  · rw [c2, c4, h1, List.filter_append, hfil, List.append_nil]; exact h.order

/-! ## Steps that service no node -/

theorem forall₂_untouched_map (g : fileAttribute → fileAttribute)
    (hg : ∀ e, Untouched e (g e)) (q : List fileAttribute) :
    List.Forall₂ Untouched q (q.map g) := by
  induction q with
  | nil => exact List.Forall₂.nil
  | cons e r ih => exact List.Forall₂.cons (hg e) ih

theorem forall₂_untouched_refl (q : List fileAttribute) : List.Forall₂ Untouched q q := by
  induction q with
  | nil => exact List.Forall₂.nil
  | cons e r ih => exact List.Forall₂.cons (Untouched.untouched_refl e) ih

theorem forall₂_untouched_modifyNode (f : fileAttribute → fileAttribute)
    (hf : ∀ e, Untouched e (f e)) (q : List fileAttribute) :
    ∀ i : Nat, List.Forall₂ Untouched q (modifyNode f i q) := by
  induction q with
  | nil => intro i; simp [modifyNode]
  | cons e r ih =>
    intro i
    cases i with
    | zero => exact List.Forall₂.cons (hf e) (forall₂_untouched_refl r)
    | succ i => exact List.Forall₂.cons (Untouched.untouched_refl e) (ih i)

theorem forall₂_untouched_trans {a b c : List fileAttribute}
    (h1 : List.Forall₂ Untouched a b) (h2 : List.Forall₂ Untouched b c) :
    List.Forall₂ Untouched a c := by
  induction h1 generalizing c with
  | nil => cases h2; exact List.Forall₂.nil
  | cons hx _ ih =>
    cases h2 with
    | cons hy hr => exact List.Forall₂.cons (hx.untouched_trans hy) (ih hr)

theorem forall₂_untouched_getElem? {q q1 : List fileAttribute}
    (h : List.Forall₂ Untouched q q1) :
    ∀ (i : Nat) (e : fileAttribute), q[i]? = some e →
      ∃ e1, q1[i]? = some e1 ∧ Untouched e e1 := by
  induction h with
  | nil => intro i e he; simp at he
  | cons hx _ ih =>
    intro i e he
    cases i with
    | zero => simp at he; subst he; exact ⟨_, by simp, hx⟩
    | succ i => simp at he; simpa using ih i e he

theorem forall₂_untouched_mem {q q1 : List fileAttribute}
    (h : List.Forall₂ Untouched q q1) :
    ∀ e1 ∈ q1, ∃ e ∈ q, Untouched e e1 := by
  induction h with
  | nil => intro e1 he; simp at he
  | cons hx _ ih =>
    intro e1 he
    rcases List.mem_cons.mp he with he | he
    · subst he; exact ⟨_, List.mem_cons_self _ _, hx⟩
    · obtain ⟨e, h1, h2⟩ := ih e1 he
      exact ⟨e, List.mem_cons_of_mem _ h1, h2⟩

theorem forall₂_untouched_map_eq {β : Type} (g : fileAttribute → β)
    (hg : ∀ e e1, Untouched e e1 → g e1 = g e) {q q1 : List fileAttribute}
    (h : List.Forall₂ Untouched q q1) : q1.map g = q.map g := by
  induction h with
  | nil => rfl
  | cons hx _ ih => simp [hg _ _ hx, ih]

theorem forall₂_untouched_filter {β : Type} (g : fileAttribute → β)
    (hg : ∀ e e1, Untouched e e1 → g e1 = g e) {q q1 : List fileAttribute}
    (h : List.Forall₂ Untouched q q1) :
    (q1.filter (fun e => e.hasCompleted)).map g = (q.filter (fun e => e.hasCompleted)).map g := by
  induction h with
  | nil => rfl
  | cons hx _ ih =>
    simp only [List.filter_cons, hx.hasCompleted]
    split_ifs
    · simp [hg _ _ hx, ih]
    · exact ih

/-- A step that keeps the table and the completion records and leaves every
queue node untouched keeps the invariant. -/
theorem Inv.inv_of_untouched {input : List (Int × Int)} {s s1 : SimState} (h : Inv input s)
    (hq : List.Forall₂ Untouched s.readyQueue s1.readyQueue)
    (hclock : s.TIME_ELAPSED ≤ s1.TIME_ELAPSED)
    (hitems : s1.ITEMS_IN_QUEUE = s.ITEMS_IN_QUEUE)
    (htable : s1.fileTable = s.fileTable)
    (hrec : s1.completedFileTable = s.completedFileTable)
    (hpc : s1.processesCompleted = s.processesCompleted)
    (hci : s1.completedIndex = s.completedIndex) : Inv input s1 := by
  have hlen : s1.readyQueue.length = s.readyQueue.length := hq.length_eq.symm
  have hfil := forall₂_untouched_filter (fun e => e.fileID) (fun _ _ hu => hu.fileID) hq
  refine ⟨?_, ?_, ?_, ?_, ?_, ?_, ?_, ?_, ?_, ?_⟩
  · rw [hitems, hlen]; exact h.items
  · intro e1 he1
    obtain ⟨e, he, hu⟩ := forall₂_untouched_mem hq e1 he1
    exact (h.nodes e he).node_untouched hu hclock
  · rw [forall₂_untouched_map_eq (fun e => e.arrivalTime) (fun _ _ hu => hu.arrivalTime) hq]
    exact h.sorted
  · rw [forall₂_untouched_map_eq (fun e => e.fileID) (fun _ _ hu => hu.fileID) hq, htable]
    exact h.ids
  · rw [htable]; exact h.table
  · rw [hpc, hci]; exact h.done_eq
  · rw [hci, h.done_count]
    have := congrArg List.length hfil
    simp only [List.length_map] at this
    rw [this]
  · rw [hrec]; exact h.records_len
  · intro e1 he1 hc
    obtain ⟨e, he, hu⟩ := forall₂_untouched_mem hq e1 he1
    have hc0 : e.hasCompleted = true := by rw [← hu.hasCompleted]; exact hc
    obtain ⟨k, r, hk, hr, hro⟩ := h.records e he hc0
    exact ⟨k, r, by rw [hci]; exact hk, by rw [hrec]; exact hr, hro.record_untouched hu hc0⟩
  · rw [hrec, hci, hfil]; exact h.order

/-- A step that leaves every queue node untouched at its position and keeps
the records frames the state. -/
theorem Frame.frame_of_untouched {s s1 : SimState}
    (hq : ∀ (i : Nat) (e : fileAttribute), s.readyQueue[i]? = some e →
      ∃ e1, s1.readyQueue[i]? = some e1 ∧ Untouched e e1)
    (hclock : s.TIME_ELAPSED ≤ s1.TIME_ELAPSED)
    (hrec : s1.completedFileTable = s.completedFileTable)
    (hci : s1.completedIndex = s.completedIndex) : Frame s s1 := by
  refine ⟨?_, ?_, le_of_eq hci.symm, hclock⟩
  · intro i e he
    obtain ⟨e1, h1, h2⟩ := hq i e he
    exact ⟨e1, h1, h2.to_evolves⟩
  · intro k r _ hr
    rw [hrec]; exact hr

theorem updateWaitingNode_untouched (clock : Int) (e : fileAttribute) :
    Untouched e (updateWaitingNode clock e) := by
  unfold updateWaitingNode
  split_ifs with h
  · refine ⟨rfl, rfl, rfl, rfl, rfl, rfl, rfl, rfl, rfl, ?_⟩
    intro hc
    rw [h.2.1] at hc; cases hc
  · exact Untouched.untouched_refl e

theorem UpdateWaitingTimes_queue (s : SimState) :
    List.Forall₂ Untouched s.readyQueue (UpdateWaitingTimes s).readyQueue := by
  unfold UpdateWaitingTimes
  split_ifs
  · exact forall₂_untouched_refl _
  · exact forall₂_untouched_map _ (updateWaitingNode_untouched _) _

theorem UpdateWaitingTimes_fields (s : SimState) :
    (UpdateWaitingTimes s).TIME_ELAPSED = s.TIME_ELAPSED ∧
    (UpdateWaitingTimes s).ITEMS_IN_QUEUE = s.ITEMS_IN_QUEUE ∧
    (UpdateWaitingTimes s).fileTable = s.fileTable ∧
    (UpdateWaitingTimes s).completedFileTable = s.completedFileTable ∧
    (UpdateWaitingTimes s).processesCompleted = s.processesCompleted ∧
    (UpdateWaitingTimes s).completedIndex = s.completedIndex := by
  unfold UpdateWaitingTimes
  split_ifs <;> exact ⟨rfl, rfl, rfl, rfl, rfl, rfl⟩

theorem Inv.update {input : List (Int × Int)} {s : SimState} (h : Inv input s) :
    Inv input (UpdateWaitingTimes s) := by
  obtain ⟨f1, f2, f3, f4, f5, f6⟩ := UpdateWaitingTimes_fields s
  exact h.inv_of_untouched (UpdateWaitingTimes_queue s) (le_of_eq f1.symm) f2 f3 f4 f5 f6

theorem Inv.advance {input : List (Int × Int)} {s : SimState} (h : Inv input s) :
    Inv input { s with TIME_ELAPSED := s.TIME_ELAPSED + 1 } :=
  h.inv_of_untouched (forall₂_untouched_refl _) (by simp) rfl rfl rfl rfl rfl

theorem Inv.flags {input : List (Int × Int)} {s : SimState} (h : Inv input s)
    (f : fileAttribute → fileAttribute) (hf : ∀ e, Untouched e (f e)) (i : Nat) :
    Inv input { s with readyQueue := modifyNode f i s.readyQueue } :=
  h.inv_of_untouched (forall₂_untouched_modifyNode f hf _ i) (le_refl _) rfl rfl rfl rfl rfl

theorem markStopped_untouched (clock : Int) (e : fileAttribute) :
    Untouched e (markStopped clock e) := by
  simp only [markStopped]
  split_ifs <;> exact ⟨rfl, rfl, rfl, rfl, rfl, rfl, rfl, rfl, rfl, fun _ => rfl⟩

theorem processing_untouched (e : fileAttribute) :
    Untouched e { e with processing := true } :=
  ⟨rfl, rfl, rfl, rfl, rfl, rfl, rfl, rfl, rfl, fun _ => rfl⟩

/-! ## One tick of service -/

theorem serviceNode_backUp (clock : Int) (e : fileAttribute) :
    (serviceNode clock e).backUpBurstTime = e.backUpBurstTime - 1 := by
  simp only [serviceNode]; split_ifs <;> rfl

theorem serviceNode_hasCompleted (clock : Int) (e : fileAttribute) :
    (serviceNode clock e).hasCompleted = e.hasCompleted := by
  simp only [serviceNode]; split_ifs <;> rfl

theorem serviceStep_queue (temp : Nat) (e : fileAttribute) (s : SimState) :
    (serviceStep temp e s).readyQueue =
      modifyNode (fun _ => nodeAfterService s.TIME_ELAPSED e) temp s.readyQueue := by
  simp only [serviceStep, nodeAfterService]
  split_ifs <;> rfl

theorem serviceStep_fields (temp : Nat) (e : fileAttribute) (s : SimState) :
    (serviceStep temp e s).TIME_ELAPSED = s.TIME_ELAPSED ∧
    (serviceStep temp e s).ITEMS_IN_QUEUE = s.ITEMS_IN_QUEUE ∧
    (serviceStep temp e s).fileTable = s.fileTable := by
  simp only [serviceStep]
  split_ifs <;> exact ⟨rfl, rfl, rfl⟩

theorem serviceStep_completing (temp : Nat) (e : fileAttribute) (s : SimState)
    (hu : e.hasCompleted = false) (hb : e.backUpBurstTime = 1) :
    (serviceStep temp e s).completedFileTable =
      s.completedFileTable.set s.completedIndex.toNat (nodeAfterService s.TIME_ELAPSED e) ∧
    (serviceStep temp e s).processesCompleted = s.processesCompleted + 1 ∧
    (serviceStep temp e s).completedIndex = s.completedIndex + 1 := by
  have h1 : (serviceNode s.TIME_ELAPSED e).backUpBurstTime = 0 ∧
      (serviceNode s.TIME_ELAPSED e).hasCompleted = false := by
    rw [serviceNode_backUp, serviceNode_hasCompleted]; exact ⟨by omega, hu⟩
  simp only [serviceStep, nodeAfterService, h1, and_self, if_true]

theorem serviceStep_continuing (temp : Nat) (e : fileAttribute) (s : SimState)
    (hb : e.backUpBurstTime ≠ 1) :
    (serviceStep temp e s).completedFileTable = s.completedFileTable ∧
    (serviceStep temp e s).processesCompleted = s.processesCompleted ∧
    (serviceStep temp e s).completedIndex = s.completedIndex := by
  have h1 : ¬ ((serviceNode s.TIME_ELAPSED e).backUpBurstTime = 0 ∧
      (serviceNode s.TIME_ELAPSED e).hasCompleted = false) := by
    rw [serviceNode_backUp]; intro h; omega
  simp only [serviceStep, h1, if_false]
  split_ifs <;> exact ⟨rfl, rfl, rfl⟩

theorem nodeAfterService_serviced (clock : Int) (e : fileAttribute)
    (hu : e.hasCompleted = false) :
    NodeServiced clock e (nodeAfterService clock e) := by
  have hr : (serviceNode clock e).responseTime =
      if e.responseTime = -1 then clock - e.arrivalTime else e.responseTime := by
    simp only [serviceNode, hu, and_true]
    split_ifs <;> rfl
  have hf : (serviceNode clock e).fileID = e.fileID ∧
      (serviceNode clock e).arrivalTime = e.arrivalTime ∧
      (serviceNode clock e).burstTime = e.burstTime ∧
      (serviceNode clock e).timeAddedToQueue = e.timeAddedToQueue ∧
      (serviceNode clock e).inQueue = e.inQueue := by
    simp only [serviceNode]
    split_ifs <;> exact ⟨rfl, rfl, rfl, rfl, rfl⟩
  obtain ⟨f1, f2, f3, f4, f5⟩ := hf
  have hbk := serviceNode_backUp clock e
  have hco := serviceNode_hasCompleted clock e
  unfold nodeAfterService
  simp only
  split_ifs with c1 c2
  · refine ⟨f1, f2, f3, f4, f5, ?_, hr, ?_, ?_⟩
    · show (serviceNode clock e).backUpBurstTime = _
      exact hbk
    · show true = true ↔ _
      simp only [true_iff]
      have := c1.1; omega
    · intro _; rfl
  · refine ⟨f1, f2, f3, f4, f5, ?_, hr, ?_, ?_⟩
    · show (serviceNode clock e).backUpBurstTime = _
      exact hbk
    · show (serviceNode clock e).hasCompleted = true ↔ _
      rw [hco, hu]
      have := c2.1
      constructor
      · intro h; cases h
      · intro h; omega
    · intro h
      have : (serviceNode clock e).hasCompleted = true := h
      rw [hco, hu] at this; cases this
  · refine ⟨f1, f2, f3, f4, f5, hbk, hr, ?_, ?_⟩
    · rw [hco, hu]
      constructor
      · intro h; cases h
      · intro h; exfalso; apply c1; rw [hbk, hco]; exact ⟨by omega, hu⟩
    · intro h; rw [hco, hu] at h; cases h

theorem NodeServiced.nodeOk {clock : Int} {e e1 : fileAttribute} (hs : NodeServiced clock e e1)
    (h : NodeOk clock e) (hu : e.hasCompleted = false) : NodeOk clock e1 := by
  obtain ⟨a1, a2, a3, a4, a5, a6, a7, a8, a9⟩ := hs
  have hpos := h.uncompleted hu
  have hle := h.remaining_le
  have harr := h.arrived
  have hrg := h.response_ge
  refine ⟨?_, ?_, ?_, ?_, ?_, ?_, ?_, ?_, ?_, ?_⟩
  · intro hd
    exact ⟨by have := a8.mp hd; omega, a9 hd⟩
  · intro hd
    have : ¬ e.backUpBurstTime = 1 := fun hb => by
      rw [a8.mpr hb] at hd; cases hd
    omega
  · omega
  · rw [a3]; exact h.burst_pos
  · rw [a4, a2]; exact h.added
  · rw [a2]; exact harr
  · rw [a2]; exact h.arrival_nonneg
  · rw [a5]; exact h.in_queue
  · rw [a7, a6, a3]
    constructor
    · intro hx
      split_ifs at hx <;> omega
    · intro hx; omega
  · rw [a7]; split_ifs <;> omega

theorem NodeServiced.serviced_evolves {clock : Int} {e e1 : fileAttribute} (hs : NodeServiced clock e e1)
    (hu : e.hasCompleted = false) : Evolves e e1 := by
  refine ⟨hs.fileID, hs.arrivalTime, hs.burstTime, ?_, ?_, ?_⟩
  · rw [hs.backUpBurstTime]; omega
  · intro h; rw [hs.responseTime, if_neg h]
  · intro h; rw [hu] at h; cases h

theorem take_succ_set (l : List fileAttribute) (a : fileAttribute) :
    ∀ c : Nat, c < l.length → (l.set c a).take (c + 1) = l.take c ++ [a] := by
  induction l with
  | nil => intro c hc; simp at hc
  | cons x r ih =>
    intro c hc
    cases c with
    | zero => simp
    | succ c =>
      simp only [List.length_cons, Nat.add_lt_add_iff_right] at hc
      simp [ih c hc]

theorem queue_length_le {input : List (Int × Int)} {s : SimState} (h : Inv input s) :
    s.readyQueue.length ≤ input.length := by
  have h1 := h.ids.length_eq
  have h2 : s.fileTable.length = input.length := by
    have := congrArg List.length h.table
    simpa [initFileTable] using this
  have h3 := List.length_filter_le (fun e : fileAttribute => e.inQueue) s.fileTable
  simp only [List.length_map] at h1
  omega

theorem completed_lt_length {q : List fileAttribute} {e : fileAttribute} (he : e ∈ q)
    (hu : e.hasCompleted = false) :
    (q.filter (fun e => e.hasCompleted)).length < q.length := by
  induction q with
  | nil => simp at he
  | cons x r ih =>
    simp only [List.filter_cons, List.length_cons]
    rcases List.mem_cons.mp he with he | he
    · subst he
      simp only [hu, Bool.false_eq_true, if_false]
      have := List.length_filter_le (fun e : fileAttribute => e.hasCompleted) r
      omega
    · have := ih he
      split_ifs
      · simp only [List.length_cons]; omega
      · omega

/-! ## The write-back of the serviced node keeps the invariant -/

theorem Inv.inv_serviceStep {input : List (Int × Int)} {s : SimState} (h : Inv input s)
    {temp : Nat} {e : fileAttribute} (hget : s.readyQueue[temp]? = some e)
    (hu : e.hasCompleted = false) : Inv input (serviceStep temp e s) := by
  obtain ⟨f1, f2, f3⟩ := serviceStep_fields temp e s
  have hq := serviceStep_queue temp e s
  have hmem : e ∈ s.readyQueue := List.mem_iff_getElem?.mpr ⟨temp, hget⟩
  have hok := h.nodes e hmem
  have hs := nodeAfterService_serviced s.TIME_ELAPSED e hu
  have hok1 := hs.nodeOk hok hu
  obtain ⟨l1, l2, hsplit, hlen, hmod⟩ := modifyNode_split s.readyQueue temp e hget
  have hq1 : (serviceStep temp e s).readyQueue =
      l1 ++ nodeAfterService s.TIME_ELAPSED e :: l2 := by rw [hq, hmod]
  have hmem1 : ∀ x ∈ (serviceStep temp e s).readyQueue,
      x ∈ s.readyQueue ∨ x = nodeAfterService s.TIME_ELAPSED e := by
    intro x hx
    rw [hq1] at hx
    rw [hsplit]
    simp only [List.mem_append, List.mem_cons] at hx ⊢
    tauto
  have hitems : (serviceStep temp e s).ITEMS_IN_QUEUE = (serviceStep temp e s).readyQueue.length := by
    rw [f2, hq, length_modifyNode]; exact h.items
  have hnodes : ∀ x ∈ (serviceStep temp e s).readyQueue,
      NodeOk (serviceStep temp e s).TIME_ELAPSED x := by
    intro x hx
    rw [f1]
    rcases hmem1 x hx with hx | hx
    · exact h.nodes x hx
    · rw [hx]; exact hok1
  have hsorted : ((serviceStep temp e s).readyQueue.map (fun e => e.arrivalTime)).Pairwise
      (fun a b => a ≤ b) := by
    rw [hq, map_modifyNode (fun e => e.arrivalTime) _ _ _
      (fun x hx => by rw [hget] at hx; cases hx; exact hs.arrivalTime)]
    exact h.sorted
  have hids : ((serviceStep temp e s).readyQueue.map (fun e => e.fileID)).Perm
      (((serviceStep temp e s).fileTable.filter (fun e => e.inQueue)).map (fun e => e.fileID)) := by
    rw [hq, f3, map_modifyNode (fun e => e.fileID) _ _ _
      (fun x hx => by rw [hget] at hx; cases hx; exact hs.fileID)]
    exact h.ids
  have hci0 : (0 : Int) ≤ s.completedIndex := by rw [h.done_count]; omega
  by_cases hb : e.backUpBurstTime = 1
  · obtain ⟨g1, g2, g3⟩ := serviceStep_completing temp e s hu hb
    have hc1 : (nodeAfterService s.TIME_ELAPSED e).hasCompleted = true := hs.hasCompleted.mpr hb
    have hfil : (serviceStep temp e s).readyQueue.filter (fun e => e.hasCompleted) =
        l1.filter (fun e => e.hasCompleted) ++
          nodeAfterService s.TIME_ELAPSED e :: l2.filter (fun e => e.hasCompleted) := by
      rw [hq1, List.filter_append, List.filter_cons, hc1]; rfl
    have hfil0 : s.readyQueue.filter (fun e => e.hasCompleted) =
        l1.filter (fun e => e.hasCompleted) ++ l2.filter (fun e => e.hasCompleted) := by
      rw [hsplit, List.filter_append, List.filter_cons, hu]; rfl
    have hlt : s.completedIndex.toNat < s.completedFileTable.length := by
      have := completed_lt_length hmem hu
      have := queue_length_le h
      have := h.done_count
      have := h.records_len
      omega
    refine ⟨hitems, hnodes, hsorted, hids, by rw [f3]; exact h.table, ?_, ?_, ?_, ?_, ?_⟩
    · rw [g2, g3, h.done_eq]
    · rw [g3, hfil, h.done_count, hfil0]
      simp only [List.length_append, List.length_cons]
      push_cast; ring
    · rw [g1, List.length_set]; exact h.records_len
    · intro x hx hxc
      rw [g1, g3]
      rcases hmem1 x hx with hx | hx
      · obtain ⟨k, r, hk, hr, hro⟩ := h.records x hx hxc
        refine ⟨k, r, by omega, ?_, hro⟩
        rw [List.getElem?_set_ne (by omega)]
        exact hr
      · refine ⟨s.completedIndex.toNat, x, by omega, ?_, ⟨rfl, rfl, rfl, rfl, rfl, rfl, rfl⟩⟩
        rw [List.getElem?_set_self hlt, hx]
    · rw [g1, g3, hfil]
      have e1 : (s.completedIndex + 1).toNat = s.completedIndex.toNat + 1 := by omega
      rw [e1, take_succ_set _ _ _ hlt]
      simp only [List.map_append, List.map_cons, List.map_nil]
      have := h.order
      rw [hfil0, List.map_append] at this
      refine (List.Perm.append_right _ this).trans ?_
      rw [List.append_assoc]
      exact List.Perm.append_left _ (List.perm_append_singleton _ _)
  · obtain ⟨g1, g2, g3⟩ := serviceStep_continuing temp e s hb
    have hc1 : (nodeAfterService s.TIME_ELAPSED e).hasCompleted = false := by
      cases hx : (nodeAfterService s.TIME_ELAPSED e).hasCompleted with
      | false => rfl
      | true => exact absurd (hs.hasCompleted.mp hx) hb
    have hfil : (serviceStep temp e s).readyQueue.filter (fun e => e.hasCompleted) =
        s.readyQueue.filter (fun e => e.hasCompleted) := by
      rw [hq1, hsplit]
      simp [List.filter_append, List.filter_cons, hc1, hu]
    refine ⟨hitems, hnodes, hsorted, hids, by rw [f3]; exact h.table, ?_, ?_, ?_, ?_, ?_⟩
    · rw [g2, g3]; exact h.done_eq
    · rw [g3, hfil]; exact h.done_count
    · rw [g1]; exact h.records_len
    · intro x hx hxc
      rw [g1, g3]
      rcases hmem1 x hx with hx | hx
      · exact h.records x hx hxc
      · rw [hx, hc1] at hxc; cases hxc
    · rw [g1, g3, hfil]; exact h.order

theorem ServicedFor.serviced_serviceStep {input : List (Int × Int)} {s : SimState} (h : Inv input s)
    {temp : Nat} {e : fileAttribute} (hget : s.readyQueue[temp]? = some e)
    (hu : e.hasCompleted = false) : ServicedFor temp e 1 s (serviceStep temp e s) := by
  have hq := serviceStep_queue temp e s
  have hs := nodeAfterService_serviced s.TIME_ELAPSED e hu
  have hci0 : (0 : Int) ≤ s.completedIndex := by rw [h.done_count]; omega
  refine ⟨?_, ?_, ?_, ?_⟩
  · intro j x hj hx
    refine ⟨x, ?_, Untouched.untouched_refl x⟩
    rw [hq, getElem?_modifyNode, if_neg hj]; exact hx
  · refine ⟨nodeAfterService s.TIME_ELAPSED e, ?_, hs.serviced_evolves hu, ?_, ?_⟩
    · rw [hq, getElem?_modifyNode, if_pos rfl, hget]; rfl
    · rw [hs.backUpBurstTime]; simp
    · rw [hs.hasCompleted]; simp
  · intro k r hk hr
    by_cases hb : e.backUpBurstTime = 1
    · rw [(serviceStep_completing temp e s hu hb).1, List.getElem?_set_ne (by omega)]
      exact hr
    · rw [(serviceStep_continuing temp e s hb).1]; exact hr
  · by_cases hb : e.backUpBurstTime = 1
    · rw [(serviceStep_completing temp e s hu hb).2.2]; omega
    · rw [(serviceStep_continuing temp e s hb).2.2]

/-! ## One iteration of the `for` loop, and the loop -/

theorem populate_keeps {input : List (Int × Int)} {s : SimState} (h : Inv input s)
    (i : Nat) (e : fileAttribute) (he : s.readyQueue[i]? = some e) :
    (populateQueueIfArrive s).readyQueue[i]? = some e := by
  obtain ⟨added, h1, _⟩ := populate_added s h
  have hi : i < s.readyQueue.length := by
    obtain ⟨hi, _⟩ := List.getElem?_eq_some.mp he
    exact hi
  rw [h1, List.getElem?_append_left hi]
  exact he

theorem waitStep_queue (temp : Nat) (s : SimState) :
    List.Forall₂ Untouched s.readyQueue (waitStep temp s).readyQueue := by
  unfold waitStep
  split
  · split_ifs
    · exact UpdateWaitingTimes_queue s
    · exact forall₂_untouched_refl _
  · exact forall₂_untouched_refl _

theorem waitStep_fields (temp : Nat) (s : SimState) :
    (waitStep temp s).TIME_ELAPSED = s.TIME_ELAPSED ∧
    (waitStep temp s).ITEMS_IN_QUEUE = s.ITEMS_IN_QUEUE ∧
    (waitStep temp s).fileTable = s.fileTable ∧
    (waitStep temp s).completedFileTable = s.completedFileTable ∧
    (waitStep temp s).processesCompleted = s.processesCompleted ∧
    (waitStep temp s).completedIndex = s.completedIndex := by
  unfold waitStep
  split
  · split_ifs
    · exact UpdateWaitingTimes_fields s
    · exact ⟨rfl, rfl, rfl, rfl, rfl, rfl⟩
  · exact ⟨rfl, rfl, rfl, rfl, rfl, rfl⟩

theorem Inv.of_waitStep {input : List (Int × Int)} {s : SimState} (h : Inv input s)
    (temp : Nat) : Inv input (waitStep temp s) := by
  obtain ⟨f1, f2, f3, f4, f5, f6⟩ := waitStep_fields temp s
  exact h.inv_of_untouched (waitStep_queue temp s) (le_of_eq f1.symm) f2 f3 f4 f5 f6

theorem ServicedFor.zero {temp : Nat} {e : fileAttribute} {s : SimState}
    (hget : s.readyQueue[temp]? = some e) (hu : e.hasCompleted = false)
    (hpos : 0 < e.backUpBurstTime) : ServicedFor temp e 0 s s := by
  refine ⟨fun j x _ hx => ⟨x, hx, Untouched.untouched_refl x⟩, ⟨e, hget, Evolves.evolves_refl e, by simp, ?_⟩,
    fun _ _ _ hr => hr, le_refl _⟩
  rw [hu]
  constructor
  · intro hx; cases hx
  · intro hx; simp at hx; omega

/-- Servicing is not disturbed by a following step that leaves the queue
nodes untouched and keeps the completion records. -/
theorem ServicedFor.then_untouched {temp : Nat} {e : fileAttribute} {k : Nat}
    {s s1 s2 : SimState} (h : ServicedFor temp e k s s1)
    (hq : ∀ (j : Nat) (x : fileAttribute), s1.readyQueue[j]? = some x →
      ∃ x1, s2.readyQueue[j]? = some x1 ∧ Untouched x x1)
    (hrec : s2.completedFileTable = s1.completedFileTable)
    (hci : s2.completedIndex = s1.completedIndex) : ServicedFor temp e k s s2 := by
  refine ⟨?_, ?_, ?_, ?_⟩
  · intro j x hj hx
    obtain ⟨x1, p1, p2⟩ := h.others j x hj hx
    obtain ⟨x2, r1, r2⟩ := hq j x1 p1
    exact ⟨x2, r1, p2.untouched_trans r2⟩
  · obtain ⟨e1, p1, p2, p3, p4⟩ := h.node
    obtain ⟨e2, r1, r2⟩ := hq temp e1 p1
    refine ⟨e2, r1, p2.evolves_trans r2.to_evolves, by rw [r2.backUpBurstTime]; exact p3, ?_⟩
    rw [r2.hasCompleted]; exact p4
  · intro j r hj hr
    rw [hrec]; exact h.records j r hj hr
  · rw [hci]; exact h.index

theorem ServicedFor.append {temp : Nat} {e e1 : fileAttribute} {k : Nat}
    {s s1 s2 : SimState} (h1 : ServicedFor temp e 1 s s1)
    (hget : s1.readyQueue[temp]? = some e1)
    (h2 : ServicedFor temp e1 k s1 s2) : ServicedFor temp e (k + 1) s s2 := by
  obtain ⟨x1, p1, p2, p3, p4⟩ := h1.node
  rw [hget] at p1
  cases p1
  refine ⟨?_, ?_, ?_, le_trans h1.index h2.index⟩
  · intro j x hj hx
    obtain ⟨y1, q1, q2⟩ := h1.others j x hj hx
    obtain ⟨y2, r1, r2⟩ := h2.others j y1 hj q1
    exact ⟨y2, r1, q2.untouched_trans r2⟩
  · obtain ⟨e2, r1, r2, r3, r4⟩ := h2.node
    refine ⟨e2, r1, p2.evolves_trans r2, ?_, ?_⟩
    · rw [r3, p3]; push_cast; ring
    · rw [r4, p3]; push_cast
      constructor <;> intro hx <;> omega
  · intro j r hj hr
    exact h2.records j r (lt_of_lt_of_le hj h1.index) (h1.records j r hj hr)

theorem tick_eq (temp : Nat) (s : SimState) (e : fileAttribute)
    (hget : s.readyQueue[temp]? = some e) :
    tick temp s =
      { waitStep temp (populateQueueIfArrive (serviceStep temp e s)) with
        TIME_ELAPSED :=
          (waitStep temp (populateQueueIfArrive (serviceStep temp e s))).TIME_ELAPSED + 1 } := by
  simp only [tick, hget]

theorem tick_spec {input : List (Int × Int)} (hw : WellFormed input) {s : SimState}
    (h : Inv input s) {temp : Nat} {e : fileAttribute}
    (hget : s.readyQueue[temp]? = some e) (hu : e.hasCompleted = false) :
    Inv input (tick temp s) ∧ ServicedFor temp e 1 s (tick temp s) ∧
      (tick temp s).TIME_ELAPSED = s.TIME_ELAPSED + 1 := by
  have i1 := h.inv_serviceStep hget hu
  have i2 := i1.inv_populate hw
  have i3 := i2.of_waitStep temp
  have v1 := ServicedFor.serviced_serviceStep h hget hu
  obtain ⟨a1, _, _⟩ := serviceStep_fields temp e s
  obtain ⟨b1, b2, b3, b4⟩ := populate_fields (serviceStep temp e s)
  obtain ⟨c1, c2, c3, c4, c5, c6⟩ := waitStep_fields temp (populateQueueIfArrive (serviceStep temp e s))
  have v2 : ServicedFor temp e 1 s (populateQueueIfArrive (serviceStep temp e s)) :=
    v1.then_untouched (fun j x hx => ⟨x, populate_keeps i1 j x hx, Untouched.untouched_refl x⟩) b2 b4
  have v3 : ServicedFor temp e 1 s (waitStep temp (populateQueueIfArrive (serviceStep temp e s))) :=
    v2.then_untouched (forall₂_untouched_getElem? (waitStep_queue temp _)) c4 c6
  rw [tick_eq temp s e hget]
  refine ⟨i3.advance, ?_, ?_⟩
  · exact v3.then_untouched (fun j x hx => ⟨x, hx, Untouched.untouched_refl x⟩) rfl rfl
  · show (waitStep temp (populateQueueIfArrive (serviceStep temp e s))).TIME_ELAPSED + 1 = _
    rw [c1, b1, a1]

theorem tickLoop_spec {input : List (Int × Int)} (hw : WellFormed input) (temp : Nat) :
    ∀ (k : Nat) (s : SimState) (e : fileAttribute), Inv input s →
      s.readyQueue[temp]? = some e → e.hasCompleted = false → (k : Int) ≤ e.backUpBurstTime →
      Inv input (tickLoop temp k s) ∧ ServicedFor temp e k s (tickLoop temp k s) ∧
        (tickLoop temp k s).TIME_ELAPSED = s.TIME_ELAPSED + k := by
  intro k
  induction k with
  | zero =>
    intro s e h hget hu _
    have hpos := (h.nodes e (List.mem_iff_getElem?.mpr ⟨temp, hget⟩)).uncompleted hu
    exact ⟨h, ServicedFor.zero hget hu hpos, by simp [tickLoop]⟩
  | succ k ih =>
    intro s e h hget hu hk
    obtain ⟨i1, v1, c1⟩ := tick_spec hw h hget hu
    obtain ⟨e1, p1, p2, p3, p4⟩ := v1.node
    show Inv input (tickLoop temp k (tick temp s)) ∧
      ServicedFor temp e (k + 1) s (tickLoop temp k (tick temp s)) ∧
      (tickLoop temp k (tick temp s)).TIME_ELAPSED = s.TIME_ELAPSED + ((k + 1 : Nat) : Int)
    cases k with
    | zero =>
      simp only [tickLoop]
      exact ⟨i1, v1, by rw [c1]; simp⟩
    | succ k =>
      have hu1 : e1.hasCompleted = false := by
        cases hx : e1.hasCompleted with
        | false => rfl
        | true => have := p4.mp hx; push_cast at hk this; omega
      have hk1 : ((k + 1 : Nat) : Int) ≤ e1.backUpBurstTime := by
        rw [p3]; push_cast at hk ⊢; omega
      obtain ⟨i2, v2, c2⟩ := ih (tick temp s) e1 i1 p1 hu1 hk1
      exact ⟨i2, v1.append p1 v2, by rw [c2, c1]; push_cast; ring⟩

/-! ## Pointer scans -/

theorem findNode_first (p : fileAttribute → Bool) (q : List fileAttribute)
    (h : ∃ x ∈ q, p x = true) :
    ∃ (i : Nat) (e : fileAttribute), findNode p q = some i ∧ q[i]? = some e ∧ p e = true ∧
      ∀ (j : Nat) (x : fileAttribute), q[j]? = some x → p x = true → i ≤ j := by
  induction q with
  | nil => obtain ⟨x, hx, _⟩ := h; simp at hx
  | cons y r ih =>
    by_cases hy : p y = true
    · exact ⟨0, y, by simp [findNode, hy], by simp, hy, fun j _ _ _ => Nat.zero_le j⟩
    · have h1 : ∃ x ∈ r, p x = true := by
        obtain ⟨x, hx, hpx⟩ := h
        rcases List.mem_cons.mp hx with hx | hx
        · subst hx; exact absurd hpx hy
        · exact ⟨x, hx, hpx⟩
      obtain ⟨i, e, h2, h3, h4, h5⟩ := ih h1
      refine ⟨i + 1, e, by simp [findNode, hy, h2], by simpa using h3, h4, ?_⟩
      intro j x hj hpx
      cases j with
      | zero => simp at hj; subst hj; exact absurd hpx hy
      | succ j =>
        simp at hj
        have := h5 j x hj hpx
        omega

theorem lowestInit_eq (q : List fileAttribute) :
    ∀ (i : Nat) (e : fileAttribute), q[i]? = some e → e.hasCompleted = false →
      0 < e.backUpBurstTime →
      (∀ (j : Nat) (x : fileAttribute), q[j]? = some x → x.hasCompleted = false → i ≤ j) →
      lowestInit q = some (e.backUpBurstTime, e.fileID, e.timeAddedToQueue) := by
  induction q with
  | nil => intro i e h; simp at h
  | cons y r ih =>
    intro i e hget hu hpos hfirst
    cases i with
    | zero =>
      simp at hget
      subst hget
      simp [lowestInit, hu, hpos]
    | succ i =>
      simp at hget
      have hy : y.hasCompleted = true := by
        cases hx : y.hasCompleted with
        | true => rfl
        | false =>
          have := hfirst 0 y (by simp) hx
          omega
      simp only [lowestInit, hy, if_true]
      apply ih i e hget hu hpos
      intro j x hj hx
      have := hfirst (j + 1) x (by simpa using hj) hx
      omega

/-- The second loop of `getLowestRemainingBurstTime` on a queue in which no
uncompleted node arrived before `arrival`: either the candidate is kept and
nothing uncompleted is shorter, or the result is the first of the shortest
uncompleted nodes. -/
theorem lowestScan_spec (rest : List fileAttribute) :
    ∀ (l f a : Int), 0 < l →
      (∀ e ∈ rest, (e.hasCompleted = true → e.backUpBurstTime = 0) ∧
        (e.hasCompleted = false → a ≤ e.arrivalTime ∧ 0 < e.backUpBurstTime)) →
      (lowestScan rest l f a = f ∧
        ∀ e ∈ rest, e.hasCompleted = false → l ≤ e.backUpBurstTime) ∨
      (∃ (i : Nat) (e : fileAttribute), rest[i]? = some e ∧
        e.fileID = lowestScan rest l f a ∧ e.hasCompleted = false ∧ e.backUpBurstTime < l ∧
        (∀ x ∈ rest, x.hasCompleted = false → e.backUpBurstTime ≤ x.backUpBurstTime) ∧
        (∀ (j : Nat) (x : fileAttribute), rest[j]? = some x → x.hasCompleted = false →
          x.backUpBurstTime = e.backUpBurstTime → i ≤ j)) := by
  induction rest with
  | nil => intro l f a _ _; left; simp [lowestScan]
  | cons y r ih =>
    intro l f a hl hq
    have hy := hq y (List.mem_cons_self _ _)
    have hr : ∀ e ∈ r, (e.hasCompleted = true → e.backUpBurstTime = 0) ∧
        (e.hasCompleted = false → a ≤ e.arrivalTime ∧ 0 < e.backUpBurstTime) :=
      fun e he => hq e (List.mem_cons_of_mem _ he)
    by_cases c1 : l > y.backUpBurstTime ∧ y.hasCompleted = false
    · have hs : lowestScan (y :: r) l f a = lowestScan r y.backUpBurstTime y.fileID a := by
        simp [lowestScan, c1]
      rw [hs]
      right
      rcases ih y.backUpBurstTime y.fileID a (hy.2 c1.2).2 hr with ⟨h1, h2⟩ | ⟨i, e, h1, h2, h3, h4, h5, h6⟩
      · refine ⟨0, y, by simp, h1.symm, c1.2, c1.1, ?_, fun j _ _ _ _ => Nat.zero_le j⟩
        intro x hx hxu
        rcases List.mem_cons.mp hx with hx | hx
        · subst hx; exact le_refl _
        · exact h2 x hx hxu
      · refine ⟨i + 1, e, by simpa using h1, h2, h3, by omega, ?_, ?_⟩
        · intro x hx hxu
          rcases List.mem_cons.mp hx with hx | hx
          · subst hx; omega
          · exact h5 x hx hxu
        · intro j x hj hxu hxe
          cases j with
          | zero => simp at hj; subst hj; omega
          | succ j =>
            have := h6 j x (by simpa using hj) hxu hxe
            omega
    · have hyge : y.hasCompleted = false → l ≤ y.backUpBurstTime := by
        intro hu
        by_contra hc
        exact c1 ⟨by omega, hu⟩
      have hs : lowestScan (y :: r) l f a = lowestScan r l f a := by
        rw [lowestScan]
        simp only [c1, if_false]
        split_ifs with c2 c3
        · exfalso
          cases hu : y.hasCompleted with
          | true => have := hy.1 hu; omega
          | false => have := (hy.2 hu).1; omega
        · rfl
        · rfl
      rw [hs]
      rcases ih l f a hl hr with ⟨h1, h2⟩ | ⟨i, e, h1, h2, h3, h4, h5, h6⟩
      · left
        refine ⟨h1, ?_⟩
        intro x hx hxu
        rcases List.mem_cons.mp hx with hx | hx
        · subst hx; exact hyge hxu
        · exact h2 x hx hxu
      · right
        refine ⟨i + 1, e, by simpa using h1, h2, h3, h4, ?_, ?_⟩
        · intro x hx hxu
          rcases List.mem_cons.mp hx with hx | hx
          · subst hx; have := hyge hxu; omega
          · exact h5 x hx hxu
        · intro j x hj hxu hxe
          cases j with
          | zero => simp at hj; subst hj; have := hyge hxu; omega
          | succ j =>
            have := h6 j x (by simpa using hj) hxu hxe
            omega

theorem pairwise_getElem?_le (l : List Int) (h : l.Pairwise (fun a b => a ≤ b)) :
    ∀ (i j : Nat) (a b : Int), l[i]? = some a → l[j]? = some b → i ≤ j → a ≤ b := by
  induction l with
  | nil => intro i j a b hi; simp at hi
  | cons x r ih =>
    intro i j a b hi hj hij
    rw [List.pairwise_cons] at h
    cases i with
    | zero =>
      simp at hi; subst hi
      cases j with
      | zero => simp at hj; omega
      | succ j =>
        simp at hj
        exact h.1 b (List.mem_iff_getElem?.mpr ⟨j, hj⟩)
    | succ i =>
      cases j with
      | zero => omega
      | succ j =>
        simp at hi hj
        exact ih h.2 i j a b hi hj (by omega)

/-- On a queue that satisfies the invariant and holds an uncompleted node,
`getLowestRemainingBurstTime` returns the file id of the node the
specification describes. -/
theorem getLowest_selection {input : List (Int × Int)} {s : SimState} (h : Inv input s)
    (hex : ∃ x ∈ s.readyQueue, x.hasCompleted = false) :
    ∃ (i : Nat) (e : fileAttribute), IsSelection s.readyQueue i e ∧
      getLowestRemainingBurstTime s.readyQueue = some e.fileID := by
  have hex1 : ∃ x ∈ s.readyQueue, (fun e : fileAttribute => !e.hasCompleted) x = true := by
    obtain ⟨x, hx, hxu⟩ := hex
    exact ⟨x, hx, by simp [hxu]⟩
  obtain ⟨i0, e0, _, g2, g3, g4⟩ := findNode_first _ _ hex1
  have hu0 : e0.hasCompleted = false := by simpa using g3
  have hfirst : ∀ (j : Nat) (x : fileAttribute), s.readyQueue[j]? = some x →
      x.hasCompleted = false → i0 ≤ j := fun j x hj hx => g4 j x hj (by simp [hx])
  have hok0 := h.nodes e0 (List.mem_iff_getElem?.mpr ⟨i0, g2⟩)
  have hpos0 := hok0.uncompleted hu0
  have hinit := lowestInit_eq s.readyQueue i0 e0 g2 hu0 hpos0 hfirst
  have harr : ∀ (i j : Nat) (x y : fileAttribute), s.readyQueue[i]? = some x →
      s.readyQueue[j]? = some y → i ≤ j → x.arrivalTime ≤ y.arrivalTime := by
    intro i j x y hx hy hij
    exact pairwise_getElem?_le _ h.sorted i j x.arrivalTime y.arrivalTime
      (by simp [hx]) (by simp [hy]) hij
  have hadded : ∀ (i j : Nat) (x y : fileAttribute), s.readyQueue[i]? = some x →
      s.readyQueue[j]? = some y → i ≤ j → x.timeAddedToQueue ≤ y.timeAddedToQueue := by
    intro i j x y hx hy hij
    rw [(h.nodes x (List.mem_iff_getElem?.mpr ⟨i, hx⟩)).added,
      (h.nodes y (List.mem_iff_getElem?.mpr ⟨j, hy⟩)).added]
    exact harr i j x y hx hy hij
  have hq : ∀ e ∈ s.readyQueue, (e.hasCompleted = true → e.backUpBurstTime = 0) ∧
      (e.hasCompleted = false → e0.timeAddedToQueue ≤ e.arrivalTime ∧ 0 < e.backUpBurstTime) := by
    intro e he
    refine ⟨fun hc => ((h.nodes e he).completed hc).1, fun hu => ⟨?_, (h.nodes e he).uncompleted hu⟩⟩
    obtain ⟨j, hj⟩ := List.mem_iff_getElem?.mp he
    rw [hok0.added]
    exact harr i0 j e0 e g2 hj (hfirst j e hj hu)
  have hget : getLowestRemainingBurstTime s.readyQueue =
      some (lowestScan s.readyQueue e0.backUpBurstTime e0.fileID e0.timeAddedToQueue) := by
    simp [getLowestRemainingBurstTime, hinit]
  rw [hget]
  rcases lowestScan_spec s.readyQueue e0.backUpBurstTime e0.fileID e0.timeAddedToQueue hpos0 hq
    with ⟨h1, h2⟩ | ⟨i, e, h1, h2, h3, _, h5, h6⟩
  · refine ⟨i0, e0, ⟨g2, hu0, h2, ?_⟩, by rw [h1]⟩
    intro j x hj hxu _
    exact ⟨hfirst j x hj hxu, hadded i0 j e0 x g2 hj (hfirst j x hj hxu)⟩
  · refine ⟨i, e, ⟨h1, h3, h5, ?_⟩, by rw [h2]⟩
    intro j x hj hxu hxe
    exact ⟨h6 j x hj hxu hxe, hadded i j e x h1 hj (h6 j x hj hxu hxe)⟩

/-! ## The selection of `HybridRoundRobin` -/

theorem nodup_fileID_index (q : List fileAttribute)
    (h : (q.map (fun e => e.fileID)).Nodup) :
    ∀ (i j : Nat) (x y : fileAttribute), q[i]? = some x → q[j]? = some y →
      x.fileID = y.fileID → i = j := by
  induction q with
  | nil => intro i j x y hi; simp at hi
  | cons z r ih =>
    intro i j x y hi hj hxy
    rw [List.map_cons, List.nodup_cons] at h
    cases i with
    | zero =>
      cases j with
      | zero => rfl
      | succ j =>
        exfalso
        simp at hi hj
        subst hi
        apply h.1
        rw [hxy]
        exact List.mem_map_of_mem _ (List.mem_iff_getElem?.mpr ⟨j, hj⟩)
    | succ i =>
      cases j with
      | zero =>
        exfalso
        simp at hi hj
        subst hj
        apply h.1
        rw [← hxy]
        exact List.mem_map_of_mem _ (List.mem_iff_getElem?.mpr ⟨i, hi⟩)
      | succ j =>
        simp at hi hj
        rw [ih h.2 i j x y hi hj hxy]

theorem table_ids_nodup {input : List (Int × Int)} {tbl : List fileAttribute}
    (h : tbl.map tableCore = initFileTable input) :
    (tbl.map (fun e => e.fileID)).Nodup := by
  have h1 : tbl.map (fun e => e.fileID) = (initFileTable input).map (fun e => e.fileID) := by
    rw [← h, List.map_map]; rfl
  rw [h1]
  have h2 : (initFileTable input).map (fun e => e.fileID) =
      (List.range input.length).map (fun i : Nat => (i : Int)) := by
    unfold initFileTable
    rw [List.map_map]
    have : ((fun e : fileAttribute => e.fileID) ∘ fun p : Nat × (Int × Int) => initFileEntry p.1 p.2)
        = (fun i : Nat => (i : Int)) ∘ Prod.fst := by
      funext p; rfl
    rw [this, ← List.map_map, List.enum_map_fst]
  rw [h2]
  exact (List.nodup_range _).map (fun a b hab => by exact_mod_cast hab)

theorem queue_ids_nodup {input : List (Int × Int)} {s : SimState} (h : Inv input s) :
    (s.readyQueue.map (fun e => e.fileID)).Nodup := by
  rw [h.ids.nodup_iff]
  exact ((table_ids_nodup h.table).sublist
    ((List.filter_sublist _).map (fun e : fileAttribute => e.fileID)))

theorem findNode_fileID {input : List (Int × Int)} {s : SimState} (h : Inv input s)
    {i : Nat} {e : fileAttribute} (hget : s.readyQueue[i]? = some e) :
    findNode (fun x => decide (e.fileID = x.fileID)) s.readyQueue = some i := by
  obtain ⟨j, x, h1, h2, h3, _⟩ := findNode_first (fun x => decide (e.fileID = x.fileID))
    s.readyQueue ⟨e, List.mem_iff_getElem?.mpr ⟨i, hget⟩, by simp⟩
  have hx : e.fileID = x.fileID := by simpa using h3
  rw [h1, nodup_fileID_index _ (queue_ids_nodup h) i j e x hget h2 hx]

theorem count_eq {input : List (Int × Int)} {s : SimState} (h : Inv input s) :
    CountUncompletedProcessesInQueue s = (uncompletedCount s.readyQueue : Int) := by
  unfold CountUncompletedProcessesInQueue uncompletedCount
  split_ifs with h0
  · have : s.readyQueue = [] := by
      have := h.items
      rw [h0] at this
      exact List.length_eq_zero.mp (by exact_mod_cast this.symm)
    rw [this]; rfl
  · rfl

theorem exists_uncompleted {q : List fileAttribute} (h : uncompletedCount q ≠ 0) :
    ∃ x ∈ q, x.hasCompleted = false := by
  unfold uncompletedCount at h
  obtain ⟨x, hx⟩ := List.exists_mem_of_length_pos (Nat.pos_of_ne_zero h)
  rw [List.mem_filter] at hx
  exact ⟨x, hx.1, by simpa using hx.2⟩

theorem forall₂_untouched_getElem?_rev {q q1 : List fileAttribute}
    (h : List.Forall₂ Untouched q q1) (i : Nat) (e1 : fileAttribute)
    (he : q1[i]? = some e1) : ∃ e, q[i]? = some e ∧ Untouched e e1 := by
  have hi : i < q.length := by
    rw [h.length_eq]
    exact (List.getElem?_eq_some.mp he).1
  obtain ⟨e2, p1, p2⟩ := forall₂_untouched_getElem? h i q[i] (List.getElem?_eq_getElem hi)
  rw [he] at p1
  cases p1
  exact ⟨q[i], List.getElem?_eq_getElem hi, p2⟩

theorem IsSelection.selection_of_untouched {q q1 : List fileAttribute}
    (h : List.Forall₂ Untouched q q1) {i : Nat} {e1 : fileAttribute}
    (hs : IsSelection q1 i e1) :
    ∃ e, Untouched e e1 ∧ IsSelection q i e := by
  obtain ⟨e, p1, p2⟩ := forall₂_untouched_getElem?_rev h i e1 hs.at_pos
  refine ⟨e, p2, ⟨p1, by rw [← p2.hasCompleted]; exact hs.uncompleted, ?_, ?_⟩⟩
  · intro x hx hxu
    obtain ⟨j, hj⟩ := List.mem_iff_getElem?.mp hx
    obtain ⟨x1, r1, r2⟩ := forall₂_untouched_getElem? h j x hj
    have := hs.minimal x1 (List.mem_iff_getElem?.mpr ⟨j, r1⟩) (by rw [r2.hasCompleted]; exact hxu)
    rw [r2.backUpBurstTime, p2.backUpBurstTime] at this
    exact this
  · intro j x hj hxu hxe
    obtain ⟨x1, r1, r2⟩ := forall₂_untouched_getElem? h j x hj
    have := hs.first j x1 r1 (by rw [r2.hasCompleted]; exact hxu)
      (by rw [r2.backUpBurstTime, p2.backUpBurstTime]; exact hxe)
    rw [r2.timeAddedToQueue, p2.timeAddedToQueue] at this
    exact this

/-- The queue that `HybridRoundRobin` passes to `getLowestRemainingBurstTime`:
the ready queue after the preemption bookkeeping on its head. -/
theorem marked_inv {input : List (Int × Int)} {s : SimState} (h : Inv input s) :
    Inv input { s with readyQueue := modifyNode (markStopped s.TIME_ELAPSED) 0 s.readyQueue } :=
  h.flags _ (markStopped_untouched _) 0

theorem selectTask_one {input : List (Int × Int)} {s : SimState} (h : Inv input s)
    (hc : CountUncompletedProcessesInQueue s = 1) :
    ∃ (temp : Nat) (e : fileAttribute), s.readyQueue[temp]? = some e ∧
      e.hasCompleted = false ∧
      selectTask DEFAULT_TIME_QUANTUM s =
        some (temp, min DEFAULT_TIME_QUANTUM e.backUpBurstTime,
          { s with
            readyQueue :=
              modifyNode (fun t => { t with processing := true }) temp s.readyQueue }) := by
  have hcnt : uncompletedCount s.readyQueue ≠ 0 := by
    have := count_eq h
    omega
  obtain ⟨x, hx, hxu⟩ := exists_uncompleted hcnt
  obtain ⟨temp, e, g1, g2, g3, _⟩ := findNode_first (fun e => decide (e.hasCompleted = false))
    s.readyQueue ⟨x, hx, by simp [hxu]⟩
  have hu : e.hasCompleted = false := by simpa using g3
  refine ⟨temp, e, g2, hu, ?_⟩
  simp only [selectTask, hc, if_true, g1, g2]
  congr 2
  unfold DEFAULT_TIME_QUANTUM
  by_cases hb : (5 : Int) ≥ e.backUpBurstTime
  · simp only [hb, if_true]
    congr 1
    omega
  · have hb2 : (5 : Int) ≤ e.backUpBurstTime := by omega
    simp only [hb, hb2, if_true, if_false]
    congr 1
    omega

theorem selectTask_many {input : List (Int × Int)} {s : SimState} (h : Inv input s)
    (hc : 1 < CountUncompletedProcessesInQueue s) :
    ∃ (temp : Nat) (e e1 : fileAttribute), s.readyQueue[temp]? = some e ∧
      IsSelection s.readyQueue temp e ∧ Untouched e e1 ∧
      (modifyNode (markStopped s.TIME_ELAPSED) 0 s.readyQueue)[temp]? = some e1 ∧
      IsSelection (modifyNode (markStopped s.TIME_ELAPSED) 0 s.readyQueue) temp e1 ∧
      getLowestRemainingBurstTime (modifyNode (markStopped s.TIME_ELAPSED) 0 s.readyQueue) =
        some e.fileID ∧
      selectTask DEFAULT_TIME_QUANTUM s =
        some (temp, e.backUpBurstTime,
          { s with
            readyQueue :=
              modifyNode (fun t => { t with processing := true }) temp
                (modifyNode (markStopped s.TIME_ELAPSED) 0 s.readyQueue) }) := by
  have hm := marked_inv h
  have hfa : List.Forall₂ Untouched s.readyQueue
      (modifyNode (markStopped s.TIME_ELAPSED) 0 s.readyQueue) :=
    forall₂_untouched_modifyNode _ (markStopped_untouched _) _ 0
  have hcnt : uncompletedCount s.readyQueue ≠ 0 := by
    have := count_eq h
    omega
  obtain ⟨x, hx, hxu⟩ := exists_uncompleted hcnt
  obtain ⟨j, hj⟩ := List.mem_iff_getElem?.mp hx
  obtain ⟨x1, r1, r2⟩ := forall₂_untouched_getElem? hfa j x hj
  have hex : ∃ y ∈ modifyNode (markStopped s.TIME_ELAPSED) 0 s.readyQueue,
      y.hasCompleted = false :=
    ⟨x1, List.mem_iff_getElem?.mpr ⟨j, r1⟩, by rw [r2.hasCompleted]; exact hxu⟩
  obtain ⟨temp, e1, hsel, hlow⟩ := getLowest_selection hm hex
  obtain ⟨e, hun, hsel0⟩ := IsSelection.selection_of_untouched hfa hsel
  have hfind := findNode_fileID hm hsel.at_pos
  have hlow' : getLowestRemainingBurstTime
      (modifyNode (markStopped s.TIME_ELAPSED) 0 s.readyQueue) = some e1.fileID := hlow
  have hget1 : (modifyNode (markStopped s.TIME_ELAPSED) 0 s.readyQueue)[temp]? = some e1 :=
    hsel.at_pos
  have hfind' : findNode (fun x => decide (e1.fileID = x.fileID))
      (modifyNode (markStopped s.TIME_ELAPSED) 0 s.readyQueue) = some temp := hfind
  refine ⟨temp, e, e1, hsel0.at_pos, hsel0, hun, hget1, hsel, by rw [hlow', hun.fileID], ?_⟩
  have hne : ¬ CountUncompletedProcessesInQueue s = 1 := by omega
  have hgt : CountUncompletedProcessesInQueue s > 1 := hc
  simp only [selectTask, hne, if_false, hgt, if_true, hlow', hfind', Option.getD_some, hget1,
    hun.backUpBurstTime]

/-! ## One call of `HybridRoundRobin` -/

theorem ServicedFor.after_untouched {temp : Nat} {e e1 : fileAttribute} {k : Nat}
    {s s1 s2 : SimState} (hq : List.Forall₂ Untouched s.readyQueue s1.readyQueue)
    (hrec : s1.completedFileTable = s.completedFileTable)
    (hci : s1.completedIndex = s.completedIndex)
    (hget : s.readyQueue[temp]? = some e) (hget1 : s1.readyQueue[temp]? = some e1)
    (h : ServicedFor temp e1 k s1 s2) : ServicedFor temp e k s s2 := by
  obtain ⟨x, p1, p2⟩ := forall₂_untouched_getElem? hq temp e hget
  rw [hget1] at p1
  cases p1
  refine ⟨?_, ?_, ?_, ?_⟩
  · intro j y hj hy
    obtain ⟨y1, q1, q2⟩ := forall₂_untouched_getElem? hq j y hy
    obtain ⟨y2, r1, r2⟩ := h.others j y1 hj q1
    exact ⟨y2, r1, q2.untouched_trans r2⟩
  · obtain ⟨e2, r1, r2, r3, r4⟩ := h.node
    refine ⟨e2, r1, p2.to_evolves.evolves_trans r2, by rw [r3, p2.backUpBurstTime], ?_⟩
    rw [r4, p2.backUpBurstTime]
  · intro j r hj hr
    exact h.records j r (by rw [hci]; exact hj) (by rw [hrec]; exact hr)
  · rw [← hci]; exact h.index

/-- Running the `for` loop on a selected uncompleted node for `timejump` ticks,
`timejump` being at most its remaining burst. -/
theorem run_selected {input : List (Int × Int)} (hw : WellFormed input) {s : SimState}
    (h : Inv input s) {temp : Nat} {e : fileAttribute} (hget : s.readyQueue[temp]? = some e)
    (hu : e.hasCompleted = false) (q1 : List fileAttribute)
    (hq : List.Forall₂ Untouched s.readyQueue q1) (timejump : Int) (h0 : 0 ≤ timejump)
    (hle : timejump ≤ e.backUpBurstTime) :
    Inv input (tickLoop temp timejump.toNat { s with readyQueue := q1 }) ∧
    ServicedFor temp e timejump.toNat s (tickLoop temp timejump.toNat { s with readyQueue := q1 }) ∧
    (tickLoop temp timejump.toNat { s with readyQueue := q1 }).TIME_ELAPSED =
      s.TIME_ELAPSED + timejump := by
  have hinv : Inv input { s with readyQueue := q1 } :=
    h.inv_of_untouched hq (le_refl _) rfl rfl rfl rfl rfl
  obtain ⟨e1, p1, p2⟩ := forall₂_untouched_getElem? hq temp e hget
  have hu1 : e1.hasCompleted = false := by rw [p2.hasCompleted]; exact hu
  have hk : (timejump.toNat : Int) ≤ e1.backUpBurstTime := by
    rw [p2.backUpBurstTime]; omega
  obtain ⟨i1, v1, c1⟩ := tickLoop_spec hw temp timejump.toNat { s with readyQueue := q1 } e1
    hinv p1 hu1 hk
  have hq0 : List.Forall₂ Untouched s.readyQueue
      ({ s with readyQueue := q1 } : SimState).readyQueue := hq
  refine ⟨i1, ServicedFor.after_untouched hq0 rfl rfl hget p1 v1, ?_⟩
  rw [c1]
  show s.TIME_ELAPSED + (timejump.toNat : Int) = _
  omega

theorem HybridRoundRobin_idle (TIME_QUANTUM : Int) (s : SimState)
    (hc : CountUncompletedProcessesInQueue s = 0) :
    HybridRoundRobin TIME_QUANTUM s = some { s with TIME_ELAPSED := s.TIME_ELAPSED + 1 } := by
  simp [HybridRoundRobin, hc]

/-- With exactly one uncompleted node in the queue, `HybridRoundRobin` services
that node for `min(5, remaining burst)` ticks. -/
theorem HybridRoundRobin_one {input : List (Int × Int)} (hw : WellFormed input) {s : SimState}
    (h : Inv input s) (hc : CountUncompletedProcessesInQueue s = 1) :
    ∃ (temp : Nat) (e : fileAttribute) (s1 : SimState),
      s.readyQueue[temp]? = some e ∧ e.hasCompleted = false ∧
      HybridRoundRobin DEFAULT_TIME_QUANTUM s = some s1 ∧ Inv input s1 ∧
      ServicedFor temp e (min DEFAULT_TIME_QUANTUM e.backUpBurstTime).toNat s s1 ∧
      s1.TIME_ELAPSED = s.TIME_ELAPSED + min DEFAULT_TIME_QUANTUM e.backUpBurstTime := by
  obtain ⟨temp, e, hget, hu, hsel⟩ := selectTask_one h hc
  have hpos := (h.nodes e (List.mem_iff_getElem?.mpr ⟨temp, hget⟩)).uncompleted hu
  have hq : List.Forall₂ Untouched s.readyQueue
      (modifyNode (fun t => { t with processing := true }) temp s.readyQueue) :=
    forall₂_untouched_modifyNode _ processing_untouched _ temp
  have h0 : (0 : Int) ≤ min DEFAULT_TIME_QUANTUM e.backUpBurstTime := by
    unfold DEFAULT_TIME_QUANTUM; omega
  obtain ⟨i1, v1, c1⟩ := run_selected hw h hget hu _ hq _ h0 (min_le_right _ _)
  have hne : ¬ CountUncompletedProcessesInQueue s = 0 := by omega
  refine ⟨temp, e, _, hget, hu, ?_, i1, v1, c1⟩
  simp only [HybridRoundRobin, hne, if_false, hsel]

/-- With more than one uncompleted node in the queue, `HybridRoundRobin`
services the node selected by `getLowestRemainingBurstTime` for all of its
remaining burst. -/
theorem HybridRoundRobin_many {input : List (Int × Int)} (hw : WellFormed input) {s : SimState}
    (h : Inv input s) (hc : 1 < CountUncompletedProcessesInQueue s) :
    ∃ (temp : Nat) (e : fileAttribute) (s1 : SimState),
      IsSelection s.readyQueue temp e ∧
      getLowestRemainingBurstTime (modifyNode (markStopped s.TIME_ELAPSED) 0 s.readyQueue) =
        some e.fileID ∧
      HybridRoundRobin DEFAULT_TIME_QUANTUM s = some s1 ∧ Inv input s1 ∧
      ServicedFor temp e e.backUpBurstTime.toNat s s1 ∧
      s1.TIME_ELAPSED = s.TIME_ELAPSED + e.backUpBurstTime := by
  obtain ⟨temp, e, e1, hget, hsel0, _, _, _, hlow, hsel⟩ := selectTask_many h hc
  have hu := hsel0.uncompleted
  have hpos := (h.nodes e (List.mem_iff_getElem?.mpr ⟨temp, hget⟩)).uncompleted hu
  have hq : List.Forall₂ Untouched s.readyQueue
      (modifyNode (fun t => { t with processing := true }) temp
        (modifyNode (markStopped s.TIME_ELAPSED) 0 s.readyQueue)) :=
    forall₂_untouched_trans (forall₂_untouched_modifyNode _ (markStopped_untouched _) _ 0)
      (forall₂_untouched_modifyNode _ processing_untouched _ temp)
  obtain ⟨i1, v1, c1⟩ := run_selected hw h hget hu _ hq e.backUpBurstTime (by omega) (le_refl _)
  have hne : ¬ CountUncompletedProcessesInQueue s = 0 := by omega
  refine ⟨temp, e, _, hsel0, hlow, ?_, i1, v1, c1⟩
  simp only [HybridRoundRobin, hne, if_false, hsel]

theorem count_nonneg (s : SimState) : 0 ≤ CountUncompletedProcessesInQueue s := by
  unfold CountUncompletedProcessesInQueue
  split_ifs <;> omega

theorem Inv.inv_round {input : List (Int × Int)} (hw : WellFormed input) {s s1 : SimState}
    (h : Inv input s) (hr : HybridRoundRobin DEFAULT_TIME_QUANTUM s = some s1) :
    Inv input s1 := by
  have hn := count_nonneg s
  by_cases c0 : CountUncompletedProcessesInQueue s = 0
  · rw [HybridRoundRobin_idle _ _ c0] at hr
    cases hr
    exact h.advance
  · by_cases c1 : CountUncompletedProcessesInQueue s = 1
    · obtain ⟨_, _, s2, _, _, p, i, _, _⟩ := HybridRoundRobin_one hw h c1
      rw [p] at hr; cases hr; exact i
    · obtain ⟨_, _, s2, _, _, p, i, _, _⟩ := HybridRoundRobin_many hw h (by omega)
      rw [p] at hr; cases hr; exact i

theorem Inv.of_selectTask {input : List (Int × Int)} {s s1 : SimState} (h : Inv input s)
    {temp : Nat} {timejump : Int}
    (hs : selectTask DEFAULT_TIME_QUANTUM s = some (temp, timejump, s1)) : Inv input s1 := by
  have hn := count_nonneg s
  by_cases c1 : CountUncompletedProcessesInQueue s = 1
  · obtain ⟨t, e, _, _, p⟩ := selectTask_one h c1
    rw [p] at hs
    cases hs
    exact h.flags _ processing_untouched _
  · by_cases c2 : 1 < CountUncompletedProcessesInQueue s
    · obtain ⟨t, e, e1, _, _, _, _, _, _, p⟩ := selectTask_many h c2
      rw [p] at hs
      cases hs
      exact (marked_inv h).flags _ processing_untouched _
    · have c3 : ¬ CountUncompletedProcessesInQueue s > 1 := c2
      simp only [selectTask, c1, c3, if_false] at hs
      cases hs
      exact h

theorem Inv.inv_init (input : List (Int × Int)) : Inv input (initState input) := by
  have hq : ∀ t ∈ initFileTable input, t.inQueue = false := by
    intro t ht
    unfold initFileTable at ht
    obtain ⟨p, _, hp⟩ := List.mem_map.mp ht
    rw [← hp]; rfl
  refine ⟨rfl, ?_, ?_, ?_, ?_, rfl, rfl, ?_, ?_, ?_⟩
  · intro e he; simp [initState] at he
  · simp [initState]
  · have : (initState input).fileTable.filter (fun e => e.inQueue) = [] := by
      rw [List.filter_eq_nil_iff]
      intro t ht
      simp [hq t ht]
    rw [this]; simp [initState]
  · show (initFileTable input).map tableCore = initFileTable input
    unfold initFileTable
    rw [List.map_map]
    rfl
  · simp [initState]
  · intro e he; simp [initState] at he
  · simp [initState]

theorem Inv.inv_step {input : List (Int × Int)} (hw : WellFormed input) {s s1 : SimState}
    (h : Inv input s) (hs : Step s s1) : Inv input s1 := by
  cases hs with
  | arrive => exact h.inv_populate hw
  | wait => exact h.update
  | round _ hr => exact h.inv_round hw hr
  | select _ temp timejump hsel => exact h.of_selectTask hsel
  | service temp e hget hu => exact (tick_spec hw h hget hu).1

/-- Every reachable state satisfies the invariant. -/
theorem Reachable.inv {input : List (Int × Int)} (hw : WellFormed input) {s : SimState}
    (h : Reachable input s) : Inv input s := by
  induction h with
  | init => exact Inv.inv_init input
  | step _ _ _ hs ih => exact ih.inv_step hw hs

/-! ## What a step keeps -/

theorem ServicedFor.frame {temp : Nat} {e : fileAttribute} {k : Nat} {s s1 : SimState}
    (h : ServicedFor temp e k s s1) (hget : s.readyQueue[temp]? = some e)
    (hclock : s.TIME_ELAPSED ≤ s1.TIME_ELAPSED) : Frame s s1 := by
  refine ⟨?_, h.records, h.index, hclock⟩
  intro i x hx
  by_cases hi : i = temp
  · subst hi
    rw [hget] at hx
    cases hx
    obtain ⟨e1, p1, p2, _, _⟩ := h.node
    exact ⟨e1, p1, p2⟩
  · obtain ⟨x1, p1, p2⟩ := h.others i x hi hx
    exact ⟨x1, p1, p2.to_evolves⟩

theorem selectTask_untouched {input : List (Int × Int)} {s s1 : SimState} (h : Inv input s)
    {temp : Nat} {timejump : Int}
    (hs : selectTask DEFAULT_TIME_QUANTUM s = some (temp, timejump, s1)) :
    List.Forall₂ Untouched s.readyQueue s1.readyQueue ∧
      s1.TIME_ELAPSED = s.TIME_ELAPSED ∧ s1.completedFileTable = s.completedFileTable ∧
      s1.completedIndex = s.completedIndex := by
  by_cases c1 : CountUncompletedProcessesInQueue s = 1
  · obtain ⟨t, e, _, _, p⟩ := selectTask_one h c1
    rw [p] at hs
    cases hs
    exact ⟨forall₂_untouched_modifyNode _ processing_untouched _ _, rfl, rfl, rfl⟩
  · by_cases c2 : 1 < CountUncompletedProcessesInQueue s
    · obtain ⟨t, e, e1, _, _, _, _, _, _, p⟩ := selectTask_many h c2
      rw [p] at hs
      cases hs
      exact ⟨forall₂_untouched_trans (forall₂_untouched_modifyNode _ (markStopped_untouched _) _ 0)
        (forall₂_untouched_modifyNode _ processing_untouched _ _), rfl, rfl, rfl⟩
    · have c3 : ¬ CountUncompletedProcessesInQueue s > 1 := c2
      simp only [selectTask, c1, c3, if_false] at hs
      cases hs
      exact ⟨forall₂_untouched_refl _, rfl, rfl, rfl⟩

theorem Frame.of_step {input : List (Int × Int)} (hw : WellFormed input) {s s1 : SimState}
    (h : Inv input s) (hs : Step s s1) : Frame s s1 := by
  cases hs with
  | arrive =>
    exact Frame.frame_of_untouched (fun i e he => ⟨e, populate_keeps h i e he, Untouched.untouched_refl e⟩)
      (le_refl _) rfl rfl
  | wait =>
    obtain ⟨f1, _, _, f4, _, f6⟩ := UpdateWaitingTimes_fields s
    exact Frame.frame_of_untouched (forall₂_untouched_getElem? (UpdateWaitingTimes_queue s))
      (le_of_eq f1.symm) f4 f6
  | round _ hr =>
    have hn := count_nonneg s
    by_cases c0 : CountUncompletedProcessesInQueue s = 0
    · rw [HybridRoundRobin_idle _ _ c0] at hr
      cases hr
      exact Frame.frame_of_untouched (fun i e he => ⟨e, he, Untouched.untouched_refl e⟩) (by simp) rfl rfl
    · by_cases c1 : CountUncompletedProcessesInQueue s = 1
      · obtain ⟨temp, e, s2, hget, hu, p, _, v, c⟩ := HybridRoundRobin_one hw h c1
        rw [p] at hr; cases hr
        have hpos := (h.nodes e (List.mem_iff_getElem?.mpr ⟨temp, hget⟩)).uncompleted hu
        exact v.frame hget (by rw [c]; unfold DEFAULT_TIME_QUANTUM; omega)
      · obtain ⟨temp, e, s2, hsel, _, p, _, v, c⟩ := HybridRoundRobin_many hw h (by omega)
        rw [p] at hr; cases hr
        have hpos := (h.nodes e (List.mem_iff_getElem?.mpr ⟨temp, hsel.at_pos⟩)).uncompleted
          hsel.uncompleted
        exact v.frame hsel.at_pos (by rw [c]; omega)
  | select _ temp timejump hsel =>
    obtain ⟨g1, g2, g3, g4⟩ := selectTask_untouched h hsel
    exact Frame.frame_of_untouched (forall₂_untouched_getElem? g1) (le_of_eq g2.symm) g3 g4
  | service temp e hget hu =>
    obtain ⟨_, v, c⟩ := tick_spec hw h hget hu
    exact v.frame hget (by rw [c]; omega)

/-- The serviced node after one iteration of the `for` loop: the node written
back by the service, untouched by the rest of the iteration. -/
theorem tick_node {input : List (Int × Int)} {s : SimState}
    (h : Inv input s) {temp : Nat} {e : fileAttribute}
    (hget : s.readyQueue[temp]? = some e) (hu : e.hasCompleted = false) :
    ∃ e1 e2, NodeServiced s.TIME_ELAPSED e e1 ∧ (tick temp s).readyQueue[temp]? = some e2 ∧
      Untouched e1 e2 := by
  have i1 := h.inv_serviceStep hget hu
  have hs := nodeAfterService_serviced s.TIME_ELAPSED e hu
  have g1 : (serviceStep temp e s).readyQueue[temp]? = some (nodeAfterService s.TIME_ELAPSED e) := by
    rw [serviceStep_queue, getElem?_modifyNode, if_pos rfl, hget]; rfl
  have g2 := populate_keeps i1 temp _ g1
  obtain ⟨e2, g3, g4⟩ := forall₂_untouched_getElem?
    (waitStep_queue temp (populateQueueIfArrive (serviceStep temp e s))) temp _ g2
  refine ⟨_, e2, hs, ?_, g4⟩
  rw [tick_eq temp s e hget]
  exact g3

/-! ## Progress of the admission loop -/

theorem AddToReadyQueue_items (e : fileAttribute) (items : Int) (q : List fileAttribute) :
    (AddToReadyQueue e items q).2 = items + 1 := by
  unfold AddToReadyQueue; split_ifs <;> rfl

/-- When the loop is done, every entry that has arrived is flagged as in the
queue, also when the loop returns early on a full queue. -/
theorem populateLoop_complete (n clock : Int) (tbl : List fileAttribute) :
    ∀ (q : List fileAttribute) (items : Int),
      ((tbl.filter (fun t => !t.inQueue)).length : Int) ≤ n - items →
      (∀ t ∈ tbl, t.hasCompleted = false) →
      (∀ t ∈ tbl, t.arrivalTime < clock → t.inQueue = true) →
      ∀ t ∈ (populateLoop n clock tbl q items).1, t.arrivalTime ≤ clock → t.inQueue = true := by
  induction tbl with
  | nil => intro q items _ _ _ t ht; simp [populateLoop] at ht
  | cons e rest ih =>
    intro q items hcnt hcomp hbefore
    have hrest_comp : ∀ t ∈ rest, t.hasCompleted = false :=
      fun t ht => hcomp t (List.mem_cons_of_mem _ ht)
    have hrest_before : ∀ t ∈ rest, t.arrivalTime < clock → t.inQueue = true :=
      fun t ht => hbefore t (List.mem_cons_of_mem _ ht)
    by_cases h0 : items = n
    · subst h0
      rw [populateLoop_full]
      intro t ht _
      have hz : (List.filter (fun t => !t.inQueue) (e :: rest)).length = 0 := by omega
      have hnil := List.length_eq_zero.mp hz
      rw [List.filter_eq_nil_iff] at hnil
      have := hnil t ht
      simpa using this
    · by_cases ha : admits clock e
      · rw [populateLoop_admitted _ _ _ _ _ _ ha]
        simp only [h0, if_false]
        have hcnt1 : ((rest.filter (fun t => !t.inQueue)).length : Int) ≤
            n - (AddToReadyQueue (admitEntry clock e) items q).2 := by
          rw [AddToReadyQueue_items]
          simp only [List.filter_cons, ha.1, Bool.not_false, if_true, List.length_cons] at hcnt
          push_cast at hcnt
          omega
        intro t ht hle
        rcases List.mem_cons.mp ht with ht | ht
        · subst ht; rfl
        · exact ih _ _ hcnt1 hrest_comp hrest_before t ht hle
      · rw [populateLoop_skip _ _ _ _ _ _ ha]
        simp only [h0, if_false]
        have hcnt1 : ((rest.filter (fun t => !t.inQueue)).length : Int) ≤ n - items := by
          simp only [List.filter_cons] at hcnt
          split_ifs at hcnt
          · simp only [List.length_cons] at hcnt
            push_cast at hcnt
            omega
          · exact hcnt
        intro t ht hle
        rcases List.mem_cons.mp ht with ht | ht
        · subst ht
          by_contra hq
          have hq' : t.inQueue = false := by simpa using hq
          have hne : t.arrivalTime ≠ clock := fun heq =>
            ha ⟨hq', hcomp t (List.mem_cons_self _ _), heq⟩
          have hlt : t.arrivalTime < clock := by omega
          exact hq (hbefore t (List.mem_cons_self _ _) hlt)
        · exact ih _ _ hcnt1 hrest_comp hrest_before t ht hle

theorem length_filter_not (p : fileAttribute → Bool) (l : List fileAttribute) :
    (l.filter (fun t => !p t)).length + (l.filter p).length = l.length := by
  induction l with
  | nil => rfl
  | cons x r ih =>
    simp only [List.filter_cons]
    cases hp : p x <;> simp [ih] <;> omega

theorem table_length {input : List (Int × Int)} {s : SimState} (h : Inv input s) :
    s.fileTable.length = input.length := by
  have := congrArg List.length h.table
  simpa [initFileTable] using this

theorem Admitted.admitted_populate {input : List (Int × Int)} (hw : WellFormed input) {s : SimState}
    (h : Inv input s) (ha : Admitted s) : AdmittedNow (populateQueueIfArrive s) := by
  intro t ht hle
  have hcnt : ((s.fileTable.filter (fun t => !t.inQueue)).length : Int) ≤
      numberOfFiles s - s.ITEMS_IN_QUEUE := by
    have h1 := length_filter_not (fun t => t.inQueue) s.fileTable
    have h2 := h.ids.length_eq
    simp only [List.length_map] at h2
    rw [h.items]
    unfold numberOfFiles
    omega
  exact populateLoop_complete (numberOfFiles s) s.TIME_ELAPSED s.fileTable s.readyQueue
    s.ITEMS_IN_QUEUE hcnt (fun t ht => (table_entry_fields hw h.table ht).2.2.2.2) ha t ht hle

/-! ## The cost of a state -/

theorem queueCost_append (q r : List fileAttribute) :
    queueCost (q ++ r) = queueCost q + queueCost r := by
  simp [queueCost]

theorem populateLoop_cost (n clock : Int) (tbl : List fileAttribute) :
    ∀ (q : List fileAttribute) (items : Int), items = q.length →
      (∀ x ∈ q, x.inQueue = true) → (∀ t ∈ tbl, t.backUpBurstTime = t.burstTime) →
      queueCost (populateLoop n clock tbl q items).2.1 +
          pendingCost clock (populateLoop n clock tbl q items).1 =
        queueCost q + pendingCost clock tbl := by
  induction tbl with
  | nil => intro q items _ _ _; simp [populateLoop]
  | cons e rest ih =>
    intro q items hi hq hb
    have hbr : ∀ t ∈ rest, t.backUpBurstTime = t.burstTime :=
      fun t ht => hb t (List.mem_cons_of_mem _ ht)
    by_cases h0 : items = n
    · subst h0; rw [populateLoop_full]
    · by_cases ha : admits clock e
      · rw [populateLoop_admitted _ _ _ _ _ _ ha]
        simp only [h0, if_false]
        have hin : (admitEntry clock e).inQueue = true := rfl
        rw [AddToReadyQueue_eq _ _ _ hi hq hin]
        have := ih (q ++ [admitEntry clock e]) (items + 1) (by simp [hi]) (by
          intro x hx
          rcases List.mem_append.mp hx with hx | hx
          · exact hq x hx
          · simp at hx; subst hx; rfl) hbr
        rw [queueCost_append] at this
        have hb0 := hb e (List.mem_cons_self _ _)
        have he : queueCost [admitEntry clock e] = e.burstTime.toNat := by
          simp [queueCost, admitEntry, hb0]
        have h3 := ha.2.2
        simp only [pendingCost, List.map_cons, List.sum_cons, hin, if_true, ha.1,
          Bool.false_eq_true, if_false] at this ⊢
        have hz : (e.arrivalTime - clock).toNat = 0 := by omega
        omega
      · rw [populateLoop_skip _ _ _ _ _ _ ha]
        simp only [h0, if_false]
        have := ih q items hi hq hbr
        simp only [pendingCost, List.map_cons, List.sum_cons] at this ⊢
        omega

theorem cost_populate {input : List (Int × Int)} (hw : WellFormed input) {s : SimState}
    (h : Inv input s) : cost (populateQueueIfArrive s) = cost s :=
  populateLoop_cost (numberOfFiles s) s.TIME_ELAPSED s.fileTable s.readyQueue s.ITEMS_IN_QUEUE
    h.items (fun x hx => (h.nodes x hx).in_queue)
    (fun _ ht => (table_entry_fields hw h.table ht).2.2.1)

theorem queueCost_untouched {q q1 : List fileAttribute} (h : List.Forall₂ Untouched q q1) :
    queueCost q1 = queueCost q := by
  unfold queueCost
  rw [forall₂_untouched_map_eq (fun e => e.backUpBurstTime.toNat)
    (fun _ _ hu => by simp only [hu.backUpBurstTime]) h]

theorem pendingCost_mono (tbl : List fileAttribute) (c c1 : Int) (h : c ≤ c1) :
    pendingCost c1 tbl ≤ pendingCost c tbl := by
  induction tbl with
  | nil => simp [pendingCost]
  | cons _ r ih =>
    simp only [pendingCost, List.map_cons, List.sum_cons] at ih ⊢
    split_ifs <;> omega

theorem pendingCost_strict (tbl : List fileAttribute) (clock : Int) {t : fileAttribute}
    (ht : t ∈ tbl) (hq : t.inQueue = false) (hlt : clock < t.arrivalTime) :
    pendingCost (clock + 1) tbl < pendingCost clock tbl := by
  induction tbl with
  | nil => simp at ht
  | cons x r ih =>
    have hm := pendingCost_mono r clock (clock + 1) (by omega)
    simp only [pendingCost, List.map_cons, List.sum_cons] at ih hm ⊢
    rcases List.mem_cons.mp ht with ht | ht
    · subst ht
      simp only [hq, Bool.false_eq_true, if_false]
      omega
    · have := ih ht
      split_ifs <;> omega

theorem queueCost_serviceStep {input : List (Int × Int)} {s : SimState} (h : Inv input s)
    {temp : Nat} {e : fileAttribute} (hget : s.readyQueue[temp]? = some e)
    (hu : e.hasCompleted = false) :
    queueCost (serviceStep temp e s).readyQueue + 1 = queueCost s.readyQueue := by
  have hpos := (h.nodes e (List.mem_iff_getElem?.mpr ⟨temp, hget⟩)).uncompleted hu
  have hs := nodeAfterService_serviced s.TIME_ELAPSED e hu
  obtain ⟨l1, l2, hsplit, _, hmod⟩ := modifyNode_split s.readyQueue temp e hget
  rw [serviceStep_queue, hmod, hsplit]
  simp only [queueCost, List.map_append, List.map_cons, List.sum_append, List.sum_cons,
    hs.backUpBurstTime]
  omega

/-! ## Progress of the scheduling rounds -/

theorem tick_progress {input : List (Int × Int)} (hw : WellFormed input) {s : SimState}
    (h : Inv input s) (ha : Admitted s) {temp : Nat} {e : fileAttribute}
    (hget : s.readyQueue[temp]? = some e) (hu : e.hasCompleted = false) :
    Admitted (tick temp s) ∧ cost (tick temp s) + 1 ≤ cost s := by
  have i1 := h.inv_serviceStep hget hu
  obtain ⟨a1, _, a3⟩ := serviceStep_fields temp e s
  have ha1 : Admitted (serviceStep temp e s) := by
    intro t ht hlt
    rw [a3] at ht; rw [a1] at hlt
    exact ha t ht hlt
  have ha2 := Admitted.admitted_populate hw i1 ha1
  have hc2 := cost_populate hw i1
  obtain ⟨b1, _, _, _⟩ := populate_fields (serviceStep temp e s)
  obtain ⟨c1, _, c3, _, _, _⟩ := waitStep_fields temp (populateQueueIfArrive (serviceStep temp e s))
  have hq3 := queueCost_untouched (waitStep_queue temp (populateQueueIfArrive (serviceStep temp e s)))
  have hq1 := queueCost_serviceStep h hget hu
  rw [tick_eq temp s e hget]
  constructor
  · intro t ht hlt
    have ht' : t ∈ (populateQueueIfArrive (serviceStep temp e s)).fileTable := by
      rw [← c3]; exact ht
    have hlt' : t.arrivalTime < (populateQueueIfArrive (serviceStep temp e s)).TIME_ELAPSED + 1 := by
      rw [← c1]; exact hlt
    exact ha2 t ht' (by omega)
  · have hm := pendingCost_mono (populateQueueIfArrive (serviceStep temp e s)).fileTable
      (populateQueueIfArrive (serviceStep temp e s)).TIME_ELAPSED
      ((populateQueueIfArrive (serviceStep temp e s)).TIME_ELAPSED + 1) (by omega)
    unfold cost at hc2 ⊢
    show queueCost (waitStep temp (populateQueueIfArrive (serviceStep temp e s))).readyQueue +
      pendingCost ((waitStep temp (populateQueueIfArrive (serviceStep temp e s))).TIME_ELAPSED + 1)
        (waitStep temp (populateQueueIfArrive (serviceStep temp e s))).fileTable + 1 ≤ _
    rw [hq3, c1, c3]
    rw [a1, a3] at hc2
    omega

theorem tickLoop_progress {input : List (Int × Int)} (hw : WellFormed input) (temp : Nat) :
    ∀ (k : Nat) (s : SimState) (e : fileAttribute), Inv input s → Admitted s →
      s.readyQueue[temp]? = some e → e.hasCompleted = false → (k : Int) ≤ e.backUpBurstTime →
      Admitted (tickLoop temp k s) ∧ cost (tickLoop temp k s) + k ≤ cost s := by
  intro k
  induction k with
  | zero => intro s e _ ha _ _ _; exact ⟨ha, le_refl _⟩
  | succ k ih =>
    intro s e h ha hget hu hk
    obtain ⟨i1, v1, _⟩ := tick_spec hw h hget hu
    obtain ⟨a1, c1⟩ := tick_progress hw h ha hget hu
    obtain ⟨e1, p1, _, p3, p4⟩ := v1.node
    show Admitted (tickLoop temp k (tick temp s)) ∧
      cost (tickLoop temp k (tick temp s)) + (k + 1) ≤ cost s
    cases k with
    | zero => exact ⟨a1, c1⟩
    | succ k =>
      have hu1 : e1.hasCompleted = false := by
        cases hx : e1.hasCompleted with
        | false => rfl
        | true => have := p4.mp hx; push_cast at hk this; omega
      have hk1 : ((k + 1 : Nat) : Int) ≤ e1.backUpBurstTime := by
        rw [p3]; push_cast at hk ⊢; omega
      obtain ⟨a2, c2⟩ := ih (tick temp s) e1 i1 a1 p1 hu1 hk1
      exact ⟨a2, by omega⟩

theorem run_selected_progress {input : List (Int × Int)} (hw : WellFormed input) {s : SimState}
    (h : Inv input s) (ha : Admitted s) {temp : Nat} {e : fileAttribute}
    (hget : s.readyQueue[temp]? = some e) (hu : e.hasCompleted = false)
    (q1 : List fileAttribute) (hq : List.Forall₂ Untouched s.readyQueue q1) (timejump : Int)
    (h0 : 0 < timejump) (hle : timejump ≤ e.backUpBurstTime) :
    Admitted (tickLoop temp timejump.toNat { s with readyQueue := q1 }) ∧
    cost (tickLoop temp timejump.toNat { s with readyQueue := q1 }) < cost s := by
  have hinv : Inv input { s with readyQueue := q1 } :=
    h.inv_of_untouched hq (le_refl _) rfl rfl rfl rfl rfl
  obtain ⟨e1, p1, p2⟩ := forall₂_untouched_getElem? hq temp e hget
  have hu1 : e1.hasCompleted = false := by rw [p2.hasCompleted]; exact hu
  have hk : (timejump.toNat : Int) ≤ e1.backUpBurstTime := by
    rw [p2.backUpBurstTime]; omega
  have ha1 : Admitted { s with readyQueue := q1 } := ha
  obtain ⟨a2, c2⟩ := tickLoop_progress hw temp timejump.toNat { s with readyQueue := q1 } e1
    hinv ha1 p1 hu1 hk
  refine ⟨a2, ?_⟩
  have hc : cost { s with readyQueue := q1 } = cost s := by
    unfold cost
    show queueCost q1 + _ = _
    rw [queueCost_untouched hq]
  have : 0 < timejump.toNat := by omega
  omega

theorem length_filter_completed (q : List fileAttribute) :
    (q.filter (fun e => e.hasCompleted)).length + uncompletedCount q = q.length := by
  unfold uncompletedCount
  have h1 := length_filter_not (fun e => e.hasCompleted) q
  have hf : q.filter (fun e => decide (e.hasCompleted = false)) =
      q.filter (fun e => !e.hasCompleted) := by
    congr 1
    funext e
    cases e.hasCompleted <;> rfl
  rw [hf]
  omega

/-- A scheduling round at a scheduling decision, while the driver loop is not
done, makes progress. -/
theorem HybridRoundRobin_progress {input : List (Int × Int)} (hw : WellFormed input)
    {s : SimState} (h : Inv input s) (ha : AdmittedNow s)
    (hne : s.processesCompleted ≠ numberOfFiles s) :
    ∃ s1, HybridRoundRobin DEFAULT_TIME_QUANTUM s = some s1 ∧ Inv input s1 ∧ Admitted s1 ∧
      cost s1 < cost s := by
  have hn := count_nonneg s
  have ha0 : Admitted s := fun t ht hlt => ha t ht (le_of_lt hlt)
  by_cases c0 : CountUncompletedProcessesInQueue s = 0
  · refine ⟨_, HybridRoundRobin_idle _ _ c0, h.advance, ?_, ?_⟩
    · intro t ht hlt
      have hlt' : t.arrivalTime < s.TIME_ELAPSED + 1 := hlt
      exact ha t ht (by omega)
    · have hcnt : uncompletedCount s.readyQueue = 0 := by
        have := count_eq h
        omega
      have h1 := length_filter_completed s.readyQueue
      have h2 := h.ids.length_eq
      simp only [List.length_map] at h2
      have h3 := length_filter_not (fun t => t.inQueue) s.fileTable
      have h4 := h.done_count
      have h5 := h.done_eq
      have hpos : 0 < (s.fileTable.filter (fun t => !t.inQueue)).length := by
        unfold numberOfFiles at hne
        omega
      obtain ⟨t, ht⟩ := List.exists_mem_of_length_pos hpos
      rw [List.mem_filter] at ht
      have hq : t.inQueue = false := by simpa using ht.2
      have hlt : s.TIME_ELAPSED < t.arrivalTime := by
        by_contra hc
        have := ha t ht.1 (by omega)
        rw [hq] at this; cases this
      have := pendingCost_strict s.fileTable s.TIME_ELAPSED ht.1 hq hlt
      unfold cost
      show queueCost s.readyQueue + pendingCost (s.TIME_ELAPSED + 1) s.fileTable < _
      omega
  · by_cases c1 : CountUncompletedProcessesInQueue s = 1
    · obtain ⟨temp, e, hget, hu, hsel⟩ := selectTask_one h c1
      have hpos := (h.nodes e (List.mem_iff_getElem?.mpr ⟨temp, hget⟩)).uncompleted hu
      have hq : List.Forall₂ Untouched s.readyQueue
          (modifyNode (fun t => { t with processing := true }) temp s.readyQueue) :=
        forall₂_untouched_modifyNode _ processing_untouched _ temp
      have h0 : (0 : Int) < min DEFAULT_TIME_QUANTUM e.backUpBurstTime := by
        unfold DEFAULT_TIME_QUANTUM; omega
      obtain ⟨i1, _, _⟩ := run_selected hw h hget hu _ hq _ (le_of_lt h0) (min_le_right _ _)
      obtain ⟨a1, k1⟩ := run_selected_progress hw h ha0 hget hu _ hq _ h0 (min_le_right _ _)
      refine ⟨_, ?_, i1, a1, k1⟩
      simp only [HybridRoundRobin, c0, if_false, hsel]
    · obtain ⟨temp, e, e1, hget, hsel0, _, _, _, _, hsel⟩ := selectTask_many h (by omega)
      have hu := hsel0.uncompleted
      have hpos := (h.nodes e (List.mem_iff_getElem?.mpr ⟨temp, hget⟩)).uncompleted hu
      have hq : List.Forall₂ Untouched s.readyQueue
          (modifyNode (fun t => { t with processing := true }) temp
            (modifyNode (markStopped s.TIME_ELAPSED) 0 s.readyQueue)) :=
        forall₂_untouched_trans (forall₂_untouched_modifyNode _ (markStopped_untouched _) _ 0)
          (forall₂_untouched_modifyNode _ processing_untouched _ temp)
      obtain ⟨i1, _, _⟩ := run_selected hw h hget hu _ hq e.backUpBurstTime (by omega) (le_refl _)
      obtain ⟨a1, k1⟩ := run_selected_progress hw h ha0 hget hu _ hq e.backUpBurstTime hpos
        (le_refl _)
      refine ⟨_, ?_, i1, a1, k1⟩
      simp only [HybridRoundRobin, c0, if_false, hsel]

theorem driverRound_progress {input : List (Int × Int)} (hw : WellFormed input)
    {s : SimState} (h : Inv input s) (ha : Admitted s)
    (hne : s.processesCompleted ≠ numberOfFiles s) :
    ∃ s1, driverRound s = some s1 ∧ Inv input s1 ∧ Admitted s1 ∧ cost s1 < cost s := by
  have i0 := h.inv_populate hw
  have a0 := Admitted.admitted_populate hw h ha
  have hne0 : (populateQueueIfArrive s).processesCompleted ≠
      numberOfFiles (populateQueueIfArrive s) := by
    rw [numberOfFiles_populate]; exact hne
  obtain ⟨s1, p, i1, a1, k1⟩ := HybridRoundRobin_progress hw i0 a0 hne0
  obtain ⟨f1, _, f3, _, _, _⟩ := UpdateWaitingTimes_fields s1
  refine ⟨UpdateWaitingTimes s1, by simp [driverRound, p], i1.update, ?_, ?_⟩
  · intro t ht hlt
    rw [f3] at ht; rw [f1] at hlt
    exact a1 t ht hlt
  · have : cost (UpdateWaitingTimes s1) = cost s1 := by
      unfold cost
      rw [f1, f3, queueCost_untouched (UpdateWaitingTimes_queue s1)]
    rw [this, ← cost_populate hw h]
    exact k1

/-- The driver loop returns whenever its bound is at least the cost of the
state it starts from. -/
theorem driverLoop_terminates {input : List (Int × Int)} (hw : WellFormed input) :
    ∀ (fuel : Nat) (s : SimState), Inv input s → Admitted s → cost s ≤ fuel →
      ∃ s1, driverLoop fuel s = some s1 ∧ Inv input s1 ∧
        s1.processesCompleted = numberOfFiles s1 := by
  intro fuel
  induction fuel with
  | zero =>
    intro s h ha hc
    by_cases hd : s.processesCompleted = numberOfFiles s
    · exact ⟨s, by simp [driverLoop, hd], h, hd⟩
    · obtain ⟨s1, _, _, _, k⟩ := driverRound_progress hw h ha hd
      omega
  | succ f ih =>
    intro s h ha hc
    by_cases hd : s.processesCompleted = numberOfFiles s
    · exact ⟨s, by simp [driverLoop, hd], h, hd⟩
    · obtain ⟨s1, p, i1, a1, k⟩ := driverRound_progress hw h ha hd
      obtain ⟨s2, p2, i2, d2⟩ := ih s1 i1 a1 (by omega)
      exact ⟨s2, by simp [driverLoop, hd, p, p2], i2, d2⟩

theorem driverLoop_inv {input : List (Int × Int)} (hw : WellFormed input) :
    ∀ (fuel : Nat) (s s1 : SimState), Inv input s → driverLoop fuel s = some s1 →
      Inv input s1 ∧ s1.processesCompleted = numberOfFiles s1 := by
  intro fuel
  induction fuel with
  | zero =>
    intro s s1 h hr
    by_cases hd : s.processesCompleted = numberOfFiles s
    · simp [driverLoop, hd] at hr; subst hr; exact ⟨h, hd⟩
    · simp [driverLoop, hd] at hr
  | succ f ih =>
    intro s s1 h hr
    by_cases hd : s.processesCompleted = numberOfFiles s
    · simp [driverLoop, hd] at hr; subst hr; exact ⟨h, hd⟩
    · simp only [driverLoop, hd, if_false] at hr
      cases hp : driverRound s with
      | none => rw [hp] at hr; cases hr
      | some s2 =>
        rw [hp] at hr
        have i2 : Inv input s2 := by
          unfold driverRound at hp
          cases hh : HybridRoundRobin DEFAULT_TIME_QUANTUM (populateQueueIfArrive s) with
          | none => rw [hh] at hp; cases hp
          | some s3 =>
            rw [hh] at hp
            cases hp
            exact ((h.inv_populate hw).inv_round hw hh).update
        exact ih s2 s1 i2 hr

theorem Admitted.admitted_init (input : List (Int × Int)) (hw : WellFormed input) :
    Admitted (initState input) := by
  intro t ht hlt
  have := (table_entry_fields hw (Inv.inv_init input).table ht).1
  have hc : (initState input).TIME_ELAPSED = 0 := rfl
  rw [hc] at hlt
  omega

/-! ## Steps as sequences of elementary state changes -/

theorem Inv.inv_prim {input : List (Int × Int)} (hw : WellFormed input) {s s1 : SimState}
    (h : Inv input s) (hp : Prim s s1) : Inv input s1 := by
  cases hp with
  | arrive => exact h.inv_populate hw
  | wait => exact h.update
  | mark => exact marked_inv h
  | dispatch temp => exact h.flags _ processing_untouched temp
  | service temp e hget hu => exact h.inv_serviceStep hget hu
  | advance => exact h.advance

/-- A property kept by every elementary state change is kept along a sequence
of them. -/
theorem lift_prims {input : List (Int × Int)} (hw : WellFormed input) (P : SimState → Prop)
    (hP : ∀ a b, Inv input a → P a → Prim a b → P b) {s s1 : SimState}
    (h : Relation.ReflTransGen Prim s s1) (hi : Inv input s) (hp : P s) :
    P s1 ∧ Inv input s1 := by
  induction h with
  | refl => exact ⟨hp, hi⟩
  | tail _ hstep ih => exact ⟨hP _ _ ih.2 ih.1 hstep, ih.2.inv_prim hw hstep⟩

/-- A relation between states that is reflexive, transitive and holds across
every elementary state change holds across a sequence of them. -/
theorem lift_prims_rel {input : List (Int × Int)} (hw : WellFormed input)
    (R : SimState → SimState → Prop) (P : SimState → Prop) (hrefl : ∀ a, R a a)
    (htrans : ∀ a b c, R a b → R b c → R a c)
    (hP : ∀ a b, Inv input a → P a → Prim a b → P b)
    (hR : ∀ a b, Inv input a → P a → Prim a b → R a b) {s s1 : SimState}
    (h : Relation.ReflTransGen Prim s s1) (hi : Inv input s) (hp : P s) : R s s1 := by
  have key : R s s1 ∧ P s1 ∧ Inv input s1 := by
    induction h with
    | refl => exact ⟨hrefl _, hp, hi⟩
    | tail _ hstep ih =>
      exact ⟨htrans _ _ _ ih.1 (hR _ _ ih.2.2 ih.2.1 hstep), hP _ _ ih.2.2 ih.2.1 hstep,
        ih.2.2.inv_prim hw hstep⟩
  exact key.1

theorem waitStep_prims (temp : Nat) (s : SimState) :
    Relation.ReflTransGen Prim s (waitStep temp s) := by
  unfold waitStep
  split
  · split_ifs
    · exact Relation.ReflTransGen.single (Prim.wait s)
    · exact Relation.ReflTransGen.refl
  · exact Relation.ReflTransGen.refl

theorem tick_prims {s : SimState} {temp : Nat} {e : fileAttribute}
    (hget : s.readyQueue[temp]? = some e) (hu : e.hasCompleted = false) :
    Relation.ReflTransGen Prim s (tick temp s) := by
  rw [tick_eq temp s e hget]
  refine Relation.ReflTransGen.tail ?_ (Prim.advance _)
  refine Relation.ReflTransGen.trans ?_ (waitStep_prims temp _)
  exact Relation.ReflTransGen.tail (Relation.ReflTransGen.single (Prim.service s temp e hget hu))
    (Prim.arrive _)

theorem tickLoop_prims {input : List (Int × Int)} (hw : WellFormed input) (temp : Nat) :
    ∀ (k : Nat) (s : SimState) (e : fileAttribute), Inv input s →
      s.readyQueue[temp]? = some e → e.hasCompleted = false → (k : Int) ≤ e.backUpBurstTime →
      Relation.ReflTransGen Prim s (tickLoop temp k s) := by
  intro k
  induction k with
  | zero => intro s e _ _ _ _; exact Relation.ReflTransGen.refl
  | succ k ih =>
    intro s e h hget hu hk
    obtain ⟨i1, v1, _⟩ := tick_spec hw h hget hu
    obtain ⟨e1, p1, _, p3, p4⟩ := v1.node
    show Relation.ReflTransGen Prim s (tickLoop temp k (tick temp s))
    cases k with
    | zero => exact tick_prims hget hu
    | succ k =>
      have hu1 : e1.hasCompleted = false := by
        cases hx : e1.hasCompleted with
        | false => rfl
        | true => have := p4.mp hx; push_cast at hk this; omega
      have hk1 : ((k + 1 : Nat) : Int) ≤ e1.backUpBurstTime := by
        rw [p3]; push_cast at hk ⊢; omega
      exact (tick_prims hget hu).trans (ih (tick temp s) e1 i1 p1 hu1 hk1)

theorem selectTask_prims {input : List (Int × Int)} {s s1 : SimState} (h : Inv input s)
    {temp : Nat} {timejump : Int}
    (hs : selectTask DEFAULT_TIME_QUANTUM s = some (temp, timejump, s1)) :
    Relation.ReflTransGen Prim s s1 := by
  by_cases c1 : CountUncompletedProcessesInQueue s = 1
  · obtain ⟨t, e, _, _, p⟩ := selectTask_one h c1
    rw [p] at hs
    cases hs
    exact Relation.ReflTransGen.single (Prim.dispatch s _)
  · by_cases c2 : 1 < CountUncompletedProcessesInQueue s
    · obtain ⟨t, e, e1, _, _, _, _, _, _, p⟩ := selectTask_many h c2
      rw [p] at hs
      cases hs
      exact Relation.ReflTransGen.tail (Relation.ReflTransGen.single (Prim.mark s))
        (Prim.dispatch _ _)
    · have c3 : ¬ CountUncompletedProcessesInQueue s > 1 := c2
      simp only [selectTask, c1, c3, if_false] at hs
      cases hs
      exact Relation.ReflTransGen.refl

/-- The state after the selection of `HybridRoundRobin`, the selected node and
the number of iterations of the `for` loop, when some node is uncompleted. -/
theorem selectTask_ready {input : List (Int × Int)} {s : SimState} (h : Inv input s)
    (hc : CountUncompletedProcessesInQueue s ≠ 0) :
    ∃ (temp : Nat) (timejump : Int) (s1 : SimState) (e1 : fileAttribute),
      selectTask DEFAULT_TIME_QUANTUM s = some (temp, timejump, s1) ∧ Inv input s1 ∧
      s1.readyQueue[temp]? = some e1 ∧ e1.hasCompleted = false ∧
      0 < timejump ∧ timejump ≤ e1.backUpBurstTime := by
  have hn := count_nonneg s
  by_cases c1 : CountUncompletedProcessesInQueue s = 1
  · obtain ⟨temp, e, hget, hu, p⟩ := selectTask_one h c1
    have hpos := (h.nodes e (List.mem_iff_getElem?.mpr ⟨temp, hget⟩)).uncompleted hu
    refine ⟨temp, _, _, { e with processing := true }, p, h.flags _ processing_untouched temp,
      ?_, hu, ?_, min_le_right _ _⟩
    · show (modifyNode _ temp s.readyQueue)[temp]? = _
      rw [getElem?_modifyNode, if_pos rfl, hget]; rfl
    · unfold DEFAULT_TIME_QUANTUM; omega
  · obtain ⟨temp, e, e1, hget, hsel0, hun, hget1, _, _, p⟩ := selectTask_many h (by omega)
    have hu := hsel0.uncompleted
    have hpos := (h.nodes e (List.mem_iff_getElem?.mpr ⟨temp, hget⟩)).uncompleted hu
    refine ⟨temp, _, _, { e1 with processing := true }, p,
      (marked_inv h).flags _ processing_untouched temp, ?_, ?_, hpos, ?_⟩
    · show (modifyNode _ temp _)[temp]? = _
      rw [getElem?_modifyNode, if_pos rfl, hget1]; rfl
    · show e1.hasCompleted = false
      rw [hun.hasCompleted]; exact hu
    · show e.backUpBurstTime ≤ e1.backUpBurstTime
      rw [hun.backUpBurstTime]

theorem round_prims {input : List (Int × Int)} (hw : WellFormed input) {s s1 : SimState}
    (h : Inv input s) (hr : HybridRoundRobin DEFAULT_TIME_QUANTUM s = some s1) :
    Relation.ReflTransGen Prim s s1 := by
  by_cases c0 : CountUncompletedProcessesInQueue s = 0
  · rw [HybridRoundRobin_idle _ _ c0] at hr
    cases hr
    exact Relation.ReflTransGen.single (Prim.advance s)
  · obtain ⟨temp, tj, s2, e1, p, i2, g, hu, h0, hle⟩ := selectTask_ready h c0
    simp only [HybridRoundRobin, c0, if_false, p] at hr
    cases hr
    exact (selectTask_prims h p).trans
      (tickLoop_prims hw temp tj.toNat s2 e1 i2 g hu (by omega))

theorem Step.prims {input : List (Int × Int)} (hw : WellFormed input) {s s1 : SimState}
    (h : Inv input s) (hs : Step s s1) : Relation.ReflTransGen Prim s s1 := by
  cases hs with
  | arrive => exact Relation.ReflTransGen.single (Prim.arrive s)
  | wait => exact Relation.ReflTransGen.single (Prim.wait s)
  | round _ hr => exact round_prims hw h hr
  | select _ temp timejump hsel => exact selectTask_prims h hsel
  | service temp e hget hu => exact tick_prims hget hu

/-! ## What an elementary state change does to the queue -/

theorem forall₂_refl_of {R : fileAttribute → fileAttribute → Prop} (hR : ∀ e, R e e)
    (q : List fileAttribute) : List.Forall₂ R q q := by
  induction q with
  | nil => exact List.Forall₂.nil
  | cons e r ih => exact List.Forall₂.cons (hR e) ih

theorem forall₂_map_of {R : fileAttribute → fileAttribute → Prop} (g : fileAttribute → fileAttribute)
    (hg : ∀ e, R e (g e)) (q : List fileAttribute) : List.Forall₂ R q (q.map g) := by
  induction q with
  | nil => exact List.Forall₂.nil
  | cons e r ih => exact List.Forall₂.cons (hg e) ih

theorem forall₂_modifyNode_at {R : fileAttribute → fileAttribute → Prop} (hR : ∀ e, R e e)
    (f : fileAttribute → fileAttribute) (q : List fileAttribute) :
    ∀ (i : Nat), (∀ e, q[i]? = some e → R e (f e)) → List.Forall₂ R q (modifyNode f i q) := by
  induction q with
  | nil => intro i _; simp [modifyNode]
  | cons x r ih =>
    intro i h
    cases i with
    | zero => exact List.Forall₂.cons (h x (by simp)) (forall₂_refl_of hR r)
    | succ i => exact List.Forall₂.cons (hR x) (ih i (fun e he => h e (by simpa using he)))

theorem forall₂_getElem?_of {R : fileAttribute → fileAttribute → Prop} {q q1 : List fileAttribute}
    (h : List.Forall₂ R q q1) :
    ∀ (i : Nat) (e : fileAttribute), q[i]? = some e → ∃ e1, q1[i]? = some e1 ∧ R e e1 := by
  induction h with
  | nil => intro i e he; simp at he
  | cons hx _ ih =>
    intro i e he
    cases i with
    | zero => simp at he; subst he; exact ⟨_, by simp, hx⟩
    | succ i => simp at he; simpa using ih i e he

theorem forall₂_mem_of {R : fileAttribute → fileAttribute → Prop} {q q1 : List fileAttribute}
    (h : List.Forall₂ R q q1) : ∀ e1 ∈ q1, ∃ e ∈ q, R e e1 := by
  induction h with
  | nil => intro e1 he; simp at he
  | cons hx _ ih =>
    intro e1 he
    rcases List.mem_cons.mp he with he | he
    · subst he; exact ⟨_, List.mem_cons_self _ _, hx⟩
    · obtain ⟨e, h1, h2⟩ := ih e1 he
      exact ⟨e, List.mem_cons_of_mem _ h1, h2⟩

theorem forall₂_map_eq_of {R : fileAttribute → fileAttribute → Prop} {β : Type}
    (g : fileAttribute → β) (hg : ∀ e e1, R e e1 → g e1 = g e) {q q1 : List fileAttribute}
    (h : List.Forall₂ R q q1) : q1.map g = q.map g := by
  induction h with
  | nil => rfl
  | cons hx _ ih => simp [hg _ _ hx, ih]

/-- The queue after an elementary state change: the nodes that were there,
each moved on its own, followed by the nodes admitted. -/
theorem Prim.moves {input : List (Int × Int)} {s s1 : SimState} (h : Inv input s)
    (hp : Prim s s1) :
    ∃ q1 added, s1.readyQueue = q1 ++ added ∧
      List.Forall₂ (NodeMove s.TIME_ELAPSED) s.readyQueue q1 ∧
      (∀ a ∈ added, ∃ t ∈ s.fileTable, admits s.TIME_ELAPSED t ∧
        a = admitEntry s.TIME_ELAPSED t) ∧
      s.TIME_ELAPSED ≤ s1.TIME_ELAPSED ∧ (added ≠ [] → s1.TIME_ELAPSED = s.TIME_ELAPSED) := by
  cases hp with
  | arrive =>
    obtain ⟨added, h1, _, h3, _, _⟩ := populate_added s h
    exact ⟨s.readyQueue, added, h1, forall₂_refl_of NodeMove.same _,
      fun a ha => added_mem h3 ha, le_refl _, fun _ => rfl⟩
  | wait =>
    refine ⟨(UpdateWaitingTimes s).readyQueue, [], by simp, ?_, by simp,
      le_of_eq (UpdateWaitingTimes_fields s).1.symm, by simp⟩
    unfold UpdateWaitingTimes
    split_ifs
    · exact forall₂_refl_of NodeMove.same _
    · exact forall₂_map_of _ NodeMove.wait _
  | mark =>
    exact ⟨_, [], by simp, forall₂_modifyNode_at NodeMove.same _ _ 0
      (fun e _ => NodeMove.mark e), by simp, le_refl _, by simp⟩
  | dispatch temp =>
    exact ⟨_, [], by simp, forall₂_modifyNode_at NodeMove.same _ _ temp
      (fun e _ => NodeMove.dispatch e), by simp, le_refl _, by simp⟩
  | service temp e hget hu =>
    refine ⟨(serviceStep temp e s).readyQueue, [], by simp, ?_, by simp,
      le_of_eq (serviceStep_fields temp e s).1.symm, by simp⟩
    rw [serviceStep_queue]
    refine forall₂_modifyNode_at NodeMove.same _ _ temp ?_
    intro x hx
    rw [hget] at hx
    cases hx
    exact NodeMove.service e hu
  | advance =>
    exact ⟨s.readyQueue, [], by simp, forall₂_refl_of NodeMove.same _, by simp,
      by simp, by simp⟩

theorem NodeMove.ids {clock : Int} {e e1 : fileAttribute} (h : NodeMove clock e e1) :
    e1.fileID = e.fileID ∧ e1.arrivalTime = e.arrivalTime := by
  cases h with
  | same => exact ⟨rfl, rfl⟩
  | wait => exact ⟨(updateWaitingNode_untouched clock e).fileID,
      (updateWaitingNode_untouched clock e).arrivalTime⟩
  | mark => exact ⟨(markStopped_untouched clock e).fileID,
      (markStopped_untouched clock e).arrivalTime⟩
  | dispatch => exact ⟨rfl, rfl⟩
  | service hu =>
    exact ⟨(nodeAfterService_serviced clock e hu).fileID,
      (nodeAfterService_serviced clock e hu).arrivalTime⟩

/-! ## The bookkeeping of waiting time -/

theorem WaitOk.mono {clock c1 : Int} {e : fileAttribute} (h : WaitOk clock e)
    (hc : clock ≤ c1) : WaitOk c1 e := by
  refine ⟨h.nonneg, by have := h.bound; omega, h.flags, h.pending, ?_⟩
  intro hs
  have := h.stopped hs
  exact ⟨by omega, this.2⟩

theorem NodeMove.waitOk {clock : Int} {e e1 : fileAttribute} (hm : NodeMove clock e e1)
    (hn : NodeOk clock e) (h : WaitOk clock e) :
    WaitOk clock e1 ∧ e.waitingTime ≤ e1.waitingTime := by
  have harr := hn.arrived
  obtain ⟨w1, w2, w3, w4, w5⟩ := h
  cases hm with
  | same => exact ⟨⟨w1, w2, w3, w4, w5⟩, le_refl _⟩
  | wait =>
    unfold updateWaitingNode
    split_ifs with hc
    · refine ⟨⟨?_, ?_, w3, w4, ?_⟩, ?_⟩
      · show 0 ≤ clock - e.arrivalTime
        omega
      · show clock - e.arrivalTime ≤ clock - e.arrivalTime
        omega
      · intro hs
        have hs' : e.saved = true := hs
        rw [← w4, hc.2.2] at hs'
        cases hs'
      · show e.waitingTime ≤ clock - e.arrivalTime
        exact w2
    · exact ⟨⟨w1, w2, w3, w4, w5⟩, le_refl _⟩
  | mark =>
    simp only [markStopped]
    split_ifs with hs
    · refine ⟨⟨w1, w2, ?_, ?_, ?_⟩, le_refl _⟩
      · show false = false ↔ true = true
        simp
      · show true = true
        rfl
      · intro _
        exact ⟨le_refl _, w2⟩
    · have hs' : e.saved = true := by simpa using hs
      refine ⟨⟨w1, w2, ?_, w4, w5⟩, le_refl _⟩
      show false = false ↔ e.saved = true
      simp [hs']
  | dispatch => exact ⟨⟨w1, w2, w3, w4, w5⟩, le_refl _⟩
  | service hu =>
    have hf : (serviceNode clock e).waitingTime = e.waitingTime ∧
        (serviceNode clock e).arrivalTime = e.arrivalTime ∧
        (serviceNode clock e).calculated = e.calculated ∧
        (serviceNode clock e).saved = e.saved ∧
        (serviceNode clock e).startedButNotComp = e.startedButNotComp ∧
        (serviceNode clock e).timeStopped = e.timeStopped := by
      simp only [serviceNode]
      split_ifs <;> exact ⟨rfl, rfl, rfl, rfl, rfl, rfl⟩
    obtain ⟨f1, f2, f3, f4, f5, f6⟩ := hf
    have hbase : WaitOk clock (serviceNode clock e) :=
      ⟨by rw [f1]; exact w1, by rw [f1, f2]; exact w2, by rw [f3, f4]; exact w3,
        by rw [f5, f4]; exact w4, by rw [f4, f6, f1, f2]; exact w5⟩
    unfold nodeAfterService
    simp only
    split_ifs with c1 c2
    · refine ⟨⟨?_, ?_, ?_, ?_, ?_⟩, ?_⟩
      · show 0 ≤ (serviceNode clock e).waitingTime
        exact hbase.nonneg
      · show (serviceNode clock e).waitingTime ≤ clock - (serviceNode clock e).arrivalTime
        exact hbase.bound
      · show (serviceNode clock e).calculated = false ↔ (serviceNode clock e).saved = true
        exact hbase.flags
      · show (serviceNode clock e).startedButNotComp = (serviceNode clock e).saved
        exact hbase.pending
      · show (serviceNode clock e).saved = true → _
        exact hbase.stopped
      · show e.waitingTime ≤ (serviceNode clock e).waitingTime
        rw [f1]
    · have hsv : e.saved = true := by
        have := c2.2
        rw [f3] at this
        exact w3.mp this
      obtain ⟨s1, s2⟩ := w5 hsv
      refine ⟨⟨?_, ?_, ?_, ?_, ?_⟩, ?_⟩
      · show 0 ≤ (serviceNode clock e).waitingTime + (clock - (serviceNode clock e).timeStopped)
        rw [f1, f6]; omega
      · show (serviceNode clock e).waitingTime + (clock - (serviceNode clock e).timeStopped) ≤
          clock - (serviceNode clock e).arrivalTime
        rw [f1, f6, f2]; omega
      · show true = false ↔ false = true
        simp
      · show false = false
        rfl
      · intro hx
        have hx' : false = true := hx
        cases hx'
      · show e.waitingTime ≤
          (serviceNode clock e).waitingTime + (clock - (serviceNode clock e).timeStopped)
        rw [f1, f6]; omega
    · exact ⟨hbase, by rw [f1]⟩

theorem table_entry_wait {input : List (Int × Int)} {tbl : List fileAttribute}
    (h : tbl.map tableCore = initFileTable input) {t : fileAttribute} (ht : t ∈ tbl) :
    t.waitingTime = 0 ∧ t.saved = false ∧ t.calculated = true ∧ t.startedButNotComp = false := by
  obtain ⟨i, r, _, he⟩ := table_entry h ht
  have e1 : (tableCore t).waitingTime = 0 := by rw [he]; rfl
  have e2 : (tableCore t).saved = false := by rw [he]; rfl
  have e3 : (tableCore t).calculated = true := by rw [he]; rfl
  have e4 : (tableCore t).startedButNotComp = false := by rw [he]; rfl
  exact ⟨e1, e2, e3, e4⟩

theorem WaitInv.wait_prim {input : List (Int × Int)} {s s1 : SimState} (h : Inv input s)
    (hwt : WaitInv s) (hp : Prim s s1) : WaitInv s1 := by
  obtain ⟨q1, added, h1, h2, h3, h4, h5⟩ := hp.moves h
  intro e1 he1
  rw [h1] at he1
  rcases List.mem_append.mp he1 with he1 | he1
  · obtain ⟨e, he, hm⟩ := forall₂_mem_of h2 e1 he1
    exact (hm.waitOk (h.nodes e he) (hwt e he)).1.mono h4
  · obtain ⟨t, ht, hta, hte⟩ := h3 e1 he1
    obtain ⟨g1, g2, g3, g4⟩ := table_entry_wait h.table ht
    have hc := h5 (List.ne_nil_of_mem he1)
    rw [hc, hte]
    refine ⟨?_, ?_, ?_, ?_, ?_⟩
    · show 0 ≤ t.waitingTime
      omega
    · show t.waitingTime ≤ s.TIME_ELAPSED - t.arrivalTime
      have := hta.2.2
      omega
    · show t.calculated = false ↔ t.saved = true
      rw [g2, g3]; simp
    · show t.startedButNotComp = t.saved
      rw [g2, g4]
    · intro hx
      have hx' : t.saved = true := hx
      rw [g2] at hx'; cases hx'

theorem WaitGrows.grows_prim {input : List (Int × Int)} {s s1 : SimState} (h : Inv input s)
    (hwt : WaitInv s) (hp : Prim s s1) : WaitGrows s s1 := by
  obtain ⟨q1, added, h1, h2, _, _, _⟩ := hp.moves h
  intro i e he
  have hmem : e ∈ s.readyQueue := List.mem_iff_getElem?.mpr ⟨i, he⟩
  obtain ⟨e1, g1, g2⟩ := forall₂_getElem?_of h2 i e he
  refine ⟨e1, ?_, (g2.waitOk (h.nodes e hmem) (hwt e hmem)).2⟩
  rw [h1, List.getElem?_append_left (List.getElem?_eq_some.mp g1).1]
  exact g1

theorem WaitGrows.grows_refl (s : SimState) : WaitGrows s s :=
  fun _ e he => ⟨e, he, le_refl _⟩

theorem WaitGrows.grows_trans {a b c : SimState} (h1 : WaitGrows a b) (h2 : WaitGrows b c) :
    WaitGrows a c := by
  intro i e he
  obtain ⟨e1, p1, p2⟩ := h1 i e he
  obtain ⟨e2, r1, r2⟩ := h2 i e1 p1
  exact ⟨e2, r1, le_trans p2 r2⟩

theorem WaitInv.wait_init (input : List (Int × Int)) : WaitInv (initState input) := by
  intro e he
  simp [initState] at he

theorem WaitInv.wait_step {input : List (Int × Int)} (hw : WellFormed input) {s s1 : SimState}
    (h : Inv input s) (hwt : WaitInv s) (hs : Step s s1) : WaitInv s1 :=
  (lift_prims hw WaitInv (fun _ _ hi hp hprim => WaitInv.wait_prim hi hp hprim)
    (hs.prims hw h) h hwt).1

theorem WaitGrows.grows_step {input : List (Int × Int)} (hw : WellFormed input) {s s1 : SimState}
    (h : Inv input s) (hwt : WaitInv s) (hs : Step s s1) : WaitGrows s s1 :=
  lift_prims_rel hw WaitGrows WaitInv WaitGrows.grows_refl (fun _ _ _ => WaitGrows.grows_trans)
    (fun _ _ hi hp hprim => WaitInv.wait_prim hi hp hprim)
    (fun _ _ hi hp hprim => WaitGrows.grows_prim hi hp hprim) (hs.prims hw h) h hwt

theorem Reachable.waitInv {input : List (Int × Int)} (hw : WellFormed input) {s : SimState}
    (h : Reachable input s) : WaitInv s := by
  induction h with
  | init => exact WaitInv.wait_init input
  | step _ _ hr hs ih => exact ih.wait_step hw (hr.inv hw) hs

/-! ## Admission order -/

theorem table_ids {input : List (Int × Int)} {tbl : List fileAttribute}
    (h : tbl.map tableCore = initFileTable input) :
    tbl.map (fun e => e.fileID) = (List.range input.length).map (fun i : Nat => (i : Int)) := by
  have h1 : tbl.map (fun e => e.fileID) = (initFileTable input).map (fun e => e.fileID) := by
    rw [← h, List.map_map]; rfl
  rw [h1]
  unfold initFileTable
  rw [List.map_map]
  have : ((fun e : fileAttribute => e.fileID) ∘ fun p : Nat × (Int × Int) => initFileEntry p.1 p.2)
      = (fun i : Nat => (i : Int)) ∘ Prod.fst := by
    funext p; rfl
  rw [this, ← List.map_map, List.enum_map_fst]

theorem table_ids_ascending {input : List (Int × Int)} {tbl : List fileAttribute}
    (h : tbl.map tableCore = initFileTable input) :
    tbl.Pairwise (fun a b => a.fileID < b.fileID) := by
  have h1 : (tbl.map (fun e => e.fileID)).Pairwise (fun a b => a < b) := by
    rw [table_ids h, List.pairwise_map]
    exact (List.pairwise_lt_range _).imp (fun hab => by exact_mod_cast hab)
  rw [List.pairwise_map] at h1
  exact h1

/-- When the admission loop is done, every entry that arrives at the current
clock value is flagged as in the queue. -/
theorem populateLoop_batch (n clock : Int) (tbl : List fileAttribute) :
    ∀ (q : List fileAttribute) (items : Int),
      ((tbl.filter (fun t => !t.inQueue)).length : Int) ≤ n - items →
      (∀ t ∈ tbl, t.hasCompleted = false) →
      ∀ t ∈ (populateLoop n clock tbl q items).1, t.arrivalTime = clock → t.inQueue = true := by
  induction tbl with
  | nil => intro q items _ _ t ht; simp [populateLoop] at ht
  | cons e rest ih =>
    intro q items hcnt hcomp
    have hrest_comp : ∀ t ∈ rest, t.hasCompleted = false :=
      fun t ht => hcomp t (List.mem_cons_of_mem _ ht)
    by_cases h0 : items = n
    · subst h0
      rw [populateLoop_full]
      intro t ht _
      have hz : (List.filter (fun t => !t.inQueue) (e :: rest)).length = 0 := by omega
      have hnil := List.length_eq_zero.mp hz
      rw [List.filter_eq_nil_iff] at hnil
      have := hnil t ht
      simpa using this
    · by_cases ha : admits clock e
      · rw [populateLoop_admitted _ _ _ _ _ _ ha]
        simp only [h0, if_false]
        have hcnt1 : ((rest.filter (fun t => !t.inQueue)).length : Int) ≤
            n - (AddToReadyQueue (admitEntry clock e) items q).2 := by
          rw [AddToReadyQueue_items]
          simp only [List.filter_cons, ha.1, Bool.not_false, if_true, List.length_cons] at hcnt
          push_cast at hcnt
          omega
        intro t ht hle
        rcases List.mem_cons.mp ht with ht | ht
        · subst ht; rfl
        · exact ih _ _ hcnt1 hrest_comp t ht hle
      · rw [populateLoop_skip _ _ _ _ _ _ ha]
        simp only [h0, if_false]
        have hcnt1 : ((rest.filter (fun t => !t.inQueue)).length : Int) ≤ n - items := by
          simp only [List.filter_cons] at hcnt
          split_ifs at hcnt
          · simp only [List.length_cons] at hcnt
            push_cast at hcnt
            omega
          · exact hcnt
        intro t ht hle
        rcases List.mem_cons.mp ht with ht | ht
        · subst ht
          by_contra hq
          have hq' : t.inQueue = false := by simpa using hq
          exact ha ⟨hq', hcomp t (List.mem_cons_self _ _), hle⟩
        · exact ih _ _ hcnt1 hrest_comp t ht hle

theorem populate_batch {input : List (Int × Int)} (hw : WellFormed input) {s : SimState}
    (h : Inv input s) :
    ∀ t ∈ (populateQueueIfArrive s).fileTable, t.arrivalTime = s.TIME_ELAPSED →
      t.inQueue = true := by
  have hcnt : ((s.fileTable.filter (fun t => !t.inQueue)).length : Int) ≤
      numberOfFiles s - s.ITEMS_IN_QUEUE := by
    have h1 := length_filter_not (fun t => t.inQueue) s.fileTable
    have h2 := h.ids.length_eq
    simp only [List.length_map] at h2
    rw [h.items]
    unfold numberOfFiles
    omega
  exact populateLoop_batch (numberOfFiles s) s.TIME_ELAPSED s.fileTable s.readyQueue
    s.ITEMS_IN_QUEUE hcnt (fun t ht => (table_entry_fields hw h.table ht).2.2.2.2)

theorem admissionOrdered_of_moves {clock : Int} {q q1 : List fileAttribute}
    (h : List.Forall₂ (NodeMove clock) q q1) (ho : AdmissionOrdered q) :
    AdmissionOrdered q1 := by
  unfold AdmissionOrdered at ho ⊢
  have hmap : q1.map (fun e => (e.arrivalTime, e.fileID)) =
      q.map (fun e => (e.arrivalTime, e.fileID)) :=
    forall₂_map_eq_of (fun e => (e.arrivalTime, e.fileID))
      (fun e e1 hm => by simp only [hm.ids.1, hm.ids.2]) h
  have h1 : (q.map (fun e => (e.arrivalTime, e.fileID))).Pairwise
      (fun a b => a.1 < b.1 ∨ (a.1 = b.1 ∧ a.2 < b.2)) := by
    rw [List.pairwise_map]; exact ho
  rw [← hmap, List.pairwise_map] at h1
  exact h1

/-- A state change that keeps the clock and the table and moves the queue
nodes on their own keeps the admission order and the batch property. -/
theorem order_of_moves {s s1 : SimState}
    (h : List.Forall₂ (NodeMove s.TIME_ELAPSED) s.readyQueue s1.readyQueue)
    (hc : s1.TIME_ELAPSED = s.TIME_ELAPSED) (ht : s1.fileTable = s.fileTable)
    (ho : AdmissionOrdered s.readyQueue ∧ BatchAdmitted s) :
    AdmissionOrdered s1.readyQueue ∧ BatchAdmitted s1 := by
  refine ⟨admissionOrdered_of_moves h ho.1, ?_⟩
  intro hex t htm hta
  rw [ht] at htm
  rw [hc] at hta
  obtain ⟨e1, he1, hea⟩ := hex
  obtain ⟨e, he, hm⟩ := forall₂_mem_of h e1 he1
  exact ho.2 ⟨e, he, by rw [← hm.ids.2, hea, hc]⟩ t htm hta

theorem order_prim {input : List (Int × Int)} (hw : WellFormed input) {s s1 : SimState}
    (h : Inv input s) (ho : AdmissionOrdered s.readyQueue ∧ BatchAdmitted s)
    (hp : Prim s s1) : AdmissionOrdered s1.readyQueue ∧ BatchAdmitted s1 := by
  cases hp with
  | arrive =>
    obtain ⟨added, h1, _, h3, _, _⟩ := populate_added s h
    refine ⟨?_, fun _ t ht hta => populate_batch hw h t ht hta⟩
    rw [h1]
    unfold AdmissionOrdered
    rw [List.pairwise_append]
    refine ⟨ho.1, ?_, ?_⟩
    · refine List.Pairwise.sublist h3 ?_
      rw [List.pairwise_map]
      refine List.Pairwise.imp_of_mem ?_ ((table_ids_ascending h.table).filter _)
      intro a b ha hb hab
      rw [List.mem_filter] at ha hb
      have ha2 : admits s.TIME_ELAPSED a := by simpa using ha.2
      have hb2 : admits s.TIME_ELAPSED b := by simpa using hb.2
      right
      exact ⟨by show a.arrivalTime = b.arrivalTime; rw [ha2.2.2, hb2.2.2], hab⟩
    · intro e he a ha
      obtain ⟨t, ht, hta, hte⟩ := added_mem h3 ha
      have harr := (h.nodes e he).arrived
      left
      rw [hte]
      show e.arrivalTime < t.arrivalTime
      rw [hta.2.2]
      by_contra hc
      have heq : e.arrivalTime = s.TIME_ELAPSED := by omega
      have := ho.2 ⟨e, he, heq⟩ t ht hta.2.2
      rw [hta.1] at this
      cases this
  | wait =>
    obtain ⟨f1, _, f3, _, _, _⟩ := UpdateWaitingTimes_fields s
    refine order_of_moves ?_ f1 f3 ho
    unfold UpdateWaitingTimes
    split_ifs
    · exact forall₂_refl_of NodeMove.same _
    · exact forall₂_map_of _ NodeMove.wait _
  | mark =>
    exact order_of_moves (forall₂_modifyNode_at NodeMove.same _ _ 0
      (fun e _ => NodeMove.mark e)) rfl rfl ho
  | dispatch temp =>
    exact order_of_moves (forall₂_modifyNode_at NodeMove.same _ _ temp
      (fun e _ => NodeMove.dispatch e)) rfl rfl ho
  | service temp e hget hu =>
    obtain ⟨f1, _, f3⟩ := serviceStep_fields temp e s
    refine order_of_moves ?_ f1 f3 ho
    rw [serviceStep_queue]
    refine forall₂_modifyNode_at NodeMove.same _ _ temp ?_
    intro x hx
    rw [hget] at hx
    cases hx
    exact NodeMove.service e hu
  | advance =>
    refine ⟨ho.1, ?_⟩
    intro hex
    obtain ⟨e, he, hea⟩ := hex
    have harr := (h.nodes e he).arrived
    have hea' : e.arrivalTime = s.TIME_ELAPSED + 1 := hea
    omega

theorem order_step {input : List (Int × Int)} (hw : WellFormed input) {s s1 : SimState}
    (h : Inv input s) (ho : AdmissionOrdered s.readyQueue ∧ BatchAdmitted s)
    (hs : Step s s1) : AdmissionOrdered s1.readyQueue ∧ BatchAdmitted s1 :=
  (lift_prims hw (fun s => AdmissionOrdered s.readyQueue ∧ BatchAdmitted s)
    (fun _ _ hi hp hprim => order_prim hw hi hp hprim) (hs.prims hw h) h ho).1

theorem Reachable.order {input : List (Int × Int)} (hw : WellFormed input) {s : SimState}
    (h : Reachable input s) : AdmissionOrdered s.readyQueue ∧ BatchAdmitted s := by
  induction h with
  | init =>
    refine ⟨by simp [AdmissionOrdered, initState], ?_⟩
    intro hex
    obtain ⟨e, he, _⟩ := hex
    simp [initState] at he
  | step _ _ hr hs ih => exact order_step hw (hr.inv hw) ih hs

/-! ## A run on a single task -/

theorem solo_tick_continue (a b c r : Int) (hr : 1 < r) :
    tick 0 (soloRunning a b c r 0) = soloRunning a b (c + 1) (r - 1) 0 := by
  have h1 : ¬ (r - 1 = 0) := by omega
  have h2 : r - 1 > 0 := by omega
  simp [tick, soloRunning, soloNode, serviceStep, serviceNode, populateQueueIfArrive,
    populateLoop, numberOfFiles, soloTable, waitStep, UpdateWaitingTimes, updateWaitingNode,
    modifyNode, h1]

theorem solo_tick_complete (a b c : Int) :
    tick 0 (soloRunning a b c 1 0) = soloDone a b (c + 1) := by
  simp [tick, soloRunning, soloNode, serviceStep, serviceNode, completeNode,
    populateQueueIfArrive, populateLoop, numberOfFiles, soloTable, waitStep,
    UpdateWaitingTimes, updateWaitingNode, modifyNode, soloDone, soloDoneNode]

theorem solo_tick_first (a b : Int) (hb : 1 < b) :
    tick 0 (soloRunning a b a b (-1)) = soloRunning a b (a + 1) (b - 1) 0 := by
  have h1 : ¬ (b - 1 = 0) := by omega
  simp [tick, soloRunning, soloNode, serviceStep, serviceNode, populateQueueIfArrive,
    populateLoop, numberOfFiles, soloTable, waitStep, UpdateWaitingTimes, updateWaitingNode,
    modifyNode, h1]

theorem solo_tick_first_complete (a : Int) :
    tick 0 (soloRunning a 1 a 1 (-1)) = soloDone a 1 (a + 1) := by
  simp [tick, soloRunning, soloNode, serviceStep, serviceNode, completeNode,
    populateQueueIfArrive, populateLoop, numberOfFiles, soloTable, waitStep,
    UpdateWaitingTimes, updateWaitingNode, modifyNode, soloDone, soloDoneNode]

theorem solo_tickLoop_continue (a b : Int) :
    ∀ (k : Nat) (c r : Int), (k : Int) < r →
      tickLoop 0 k (soloRunning a b c r 0) = soloRunning a b (c + k) (r - k) 0 := by
  intro k
  induction k with
  | zero => intro c r _; simp [tickLoop]
  | succ k ih =>
    intro c r hk
    show tickLoop 0 k (tick 0 (soloRunning a b c r 0)) = _
    rw [solo_tick_continue a b c r (by push_cast at hk; omega),
      ih (c + 1) (r - 1) (by push_cast at hk; omega)]
    congr 1 <;> push_cast <;> ring

theorem solo_tickLoop_complete (a b : Int) :
    ∀ (k : Nat) (c : Int), 0 < k →
      tickLoop 0 k (soloRunning a b c k 0) = soloDone a b (c + k) := by
  intro k
  induction k with
  | zero => intro c hk; omega
  | succ k ih =>
    intro c _
    show tickLoop 0 k (tick 0 (soloRunning a b c ((k + 1 : Nat) : Int) 0)) = _
    cases k with
    | zero =>
      have : ((0 + 1 : Nat) : Int) = 1 := by norm_num
      rw [this, solo_tick_complete]
      simp [tickLoop]
    | succ k =>
      rw [solo_tick_continue a b c _ (by push_cast; omega)]
      have e1 : (((k + 1 + 1 : Nat) : Int) - 1) = ((k + 1 : Nat) : Int) := by push_cast; ring
      rw [e1, ih (c + 1) (by omega)]
      congr 1
      push_cast
      ring

theorem solo_tickLoop_first (a b : Int) (k : Nat) (hk : 0 < k) (hb : (k : Int) < b) :
    tickLoop 0 k (soloRunning a b a b (-1)) = soloRunning a b (a + k) (b - k) 0 := by
  cases k with
  | zero => omega
  | succ k =>
    show tickLoop 0 k (tick 0 (soloRunning a b a b (-1))) = _
    rw [solo_tick_first a b (by push_cast at hb; omega),
      solo_tickLoop_continue a b k (a + 1) (b - 1) (by push_cast at hb; omega)]
    congr 1 <;> push_cast <;> ring

theorem solo_tickLoop_first_complete (a : Int) (k : Nat) (hk : 0 < k) :
    tickLoop 0 k (soloRunning a k a k (-1)) = soloDone a k (a + k) := by
  cases k with
  | zero => omega
  | succ k =>
    show tickLoop 0 k (tick 0 (soloRunning a ((k + 1 : Nat) : Int) a ((k + 1 : Nat) : Int) (-1))) = _
    cases k with
    | zero =>
      have : ((0 + 1 : Nat) : Int) = 1 := by norm_num
      rw [this, solo_tick_first_complete]
      simp [tickLoop]
    | succ k =>
      rw [solo_tick_first a _ (by push_cast; omega)]
      have e1 : (((k + 1 + 1 : Nat) : Int) - 1) = ((k + 1 : Nat) : Int) := by push_cast; ring
      rw [e1, solo_tickLoop_complete a _ (k + 1) (a + 1) (by omega)]
      congr 1
      push_cast
      ring

theorem solo_update_running (a b c r resp : Int) :
    UpdateWaitingTimes (soloRunning a b c r resp) = soloRunning a b c r resp := by
  simp [UpdateWaitingTimes, soloRunning, soloNode, updateWaitingNode]

theorem solo_update_done (a b c : Int) :
    UpdateWaitingTimes (soloDone a b c) = soloDone a b c := by
  simp [UpdateWaitingTimes, soloDone, soloDoneNode, updateWaitingNode]

theorem solo_round_running (a b c r : Int) (hr : 0 < r) :
    HybridRoundRobin DEFAULT_TIME_QUANTUM (populateQueueIfArrive (soloRunning a b c r 0)) =
      some (tickLoop 0 (min 5 r).toNat (soloRunning a b c r 0)) := by
  have hp : populateQueueIfArrive (soloRunning a b c r 0) = soloRunning a b c r 0 := by
    simp [populateQueueIfArrive, populateLoop, soloRunning, numberOfFiles, soloTable]
  rw [hp]
  have hc : CountUncompletedProcessesInQueue (soloRunning a b c r 0) = 1 := by
    simp [CountUncompletedProcessesInQueue, soloRunning, soloNode]
  have hs : selectTask DEFAULT_TIME_QUANTUM (soloRunning a b c r 0) =
      some (0, min 5 r, soloRunning a b c r 0) := by
    simp only [selectTask, hc, if_true]
    have hf : findNode (fun e => decide (e.hasCompleted = false))
        (soloRunning a b c r 0).readyQueue = some 0 := by
      simp [findNode, soloRunning, soloNode]
    have hg : (soloRunning a b c r 0).readyQueue[0]? = some (soloNode a b r 0) := by
      simp [soloRunning]
    simp only [hf, hg]
    have hq : ({ soloRunning a b c r 0 with
        readyQueue := modifyNode (fun t => { t with processing := true }) 0
          (soloRunning a b c r 0).readyQueue } : SimState) = soloRunning a b c r 0 := by
      simp [soloRunning, soloNode, modifyNode]
    rw [hq]
    congr 2
    refine Prod.ext ?_ rfl
    show (if DEFAULT_TIME_QUANTUM ≥ r then r
      else if DEFAULT_TIME_QUANTUM ≤ r then DEFAULT_TIME_QUANTUM else 0) = _
    unfold DEFAULT_TIME_QUANTUM
    split_ifs <;> omega
  simp only [HybridRoundRobin, hc, hs]
  simp

theorem solo_round_first (a b : Int) (hb : 0 < b) :
    HybridRoundRobin DEFAULT_TIME_QUANTUM (populateQueueIfArrive (soloIdle a b a)) =
      some (tickLoop 0 (min 5 b).toNat (soloRunning a b a b (-1))) := by
  have hp : populateQueueIfArrive (soloIdle a b a) =
      { soloRunning a b a b (-1) with
        readyQueue := [{ soloNode a b b (-1) with processing := false }] } := by
    have hr1 : List.range 1 = [0] := rfl
    simp [populateQueueIfArrive, populateLoop, soloIdle, initState, initFileTable, List.enum,
      List.enumFrom, initFileEntry, numberOfFiles, AddToReadyQueue, soloRunning, soloNode,
      soloTable, admitEntry, hr1]
  rw [hp]
  have hc : CountUncompletedProcessesInQueue ({ soloRunning a b a b (-1) with
      readyQueue := [{ soloNode a b b (-1) with processing := false }] } : SimState) = 1 := by
    simp [CountUncompletedProcessesInQueue, soloRunning, soloNode]
  have hs : selectTask DEFAULT_TIME_QUANTUM ({ soloRunning a b a b (-1) with
      readyQueue := [{ soloNode a b b (-1) with processing := false }] } : SimState) =
      some (0, min 5 b, soloRunning a b a b (-1)) := by
    simp only [selectTask, hc, if_true]
    have hf : findNode (fun e => decide (e.hasCompleted = false))
        [{ soloNode a b b (-1) with processing := false }] = some 0 := by
      simp [findNode, soloNode]
    simp only [hf, List.getElem?_cons_zero]
    have hq : ({ ({ soloRunning a b a b (-1) with
          readyQueue := [{ soloNode a b b (-1) with processing := false }] } : SimState) with
        readyQueue := modifyNode (fun t => { t with processing := true }) 0
          [{ soloNode a b b (-1) with processing := false }] } : SimState) =
        soloRunning a b a b (-1) := by
      simp [soloRunning, soloNode, modifyNode]
    rw [hq]
    congr 2
    refine Prod.ext ?_ rfl
    show (if DEFAULT_TIME_QUANTUM ≥ b then b
      else if DEFAULT_TIME_QUANTUM ≤ b then DEFAULT_TIME_QUANTUM else 0) = _
    unfold DEFAULT_TIME_QUANTUM
    split_ifs <;> omega
  simp only [HybridRoundRobin, hc, hs]
  simp

theorem solo_round_idle (a b c : Int) (hc : c < a) :
    driverRound (soloIdle a b c) = some (soloIdle a b (c + 1)) := by
  have h1 : ¬ (c > a) := by omega
  have h2 : ¬ (a ≤ c) := by omega
  have hp : populateQueueIfArrive (soloIdle a b c) = soloIdle a b c := by
    simp [populateQueueIfArrive, populateLoop, soloIdle, initState, initFileTable, List.enum,
      List.enumFrom, initFileEntry, numberOfFiles, h1, h2]
  have hcnt : CountUncompletedProcessesInQueue (soloIdle a b c) = 0 := by
    simp [CountUncompletedProcessesInQueue, soloIdle, initState]
  simp only [driverRound, hp, HybridRoundRobin, hcnt, if_true]
  simp [UpdateWaitingTimes, soloIdle, initState]

theorem driverLoop_done (fuel : Nat) (s : SimState)
    (h : s.processesCompleted = numberOfFiles s) : driverLoop fuel s = some s := by
  cases fuel <;> simp [driverLoop, h]

theorem solo_done_exit (a b c : Int) :
    (soloDone a b c).processesCompleted = numberOfFiles (soloDone a b c) := by
  simp [soloDone, numberOfFiles, soloTable]

theorem solo_running_continue (a b c r resp : Int) :
    ¬ (soloRunning a b c r resp).processesCompleted = numberOfFiles (soloRunning a b c r resp) := by
  simp [soloRunning, numberOfFiles, soloTable]

theorem solo_idle_continue (a b c : Int) :
    ¬ (soloIdle a b c).processesCompleted = numberOfFiles (soloIdle a b c) := by
  simp [soloIdle, initState, numberOfFiles, initFileTable]

theorem solo_driverRound_short (a b c : Int) (k : Nat) (hk : 0 < k) (h5 : k ≤ 5) :
    driverRound (soloRunning a b c k 0) = some (soloDone a b (c + k)) := by
  have hm : (min 5 (k : Int)).toNat = k := by
    rw [min_eq_right (by exact_mod_cast h5)]; simp
  simp only [driverRound, solo_round_running a b c k (by exact_mod_cast hk), hm,
    solo_tickLoop_complete a b k c hk, solo_update_done]

theorem solo_driverRound_long (a b c : Int) (k : Nat) (h5 : 5 < k) :
    driverRound (soloRunning a b c k 0) = some (soloRunning a b (c + 5) (k - 5) 0) := by
  have hm : (min 5 (k : Int)).toNat = 5 := by
    rw [min_eq_left (by exact_mod_cast (le_of_lt h5))]; rfl
  have hlt : ((5 : Nat) : Int) < (k : Int) := by exact_mod_cast h5
  simp only [driverRound, solo_round_running a b c k (by omega), hm,
    solo_tickLoop_continue a b 5 c k hlt, solo_update_running]
  rfl

theorem solo_driverRound_first_short (a : Int) (k : Nat) (hk : 0 < k) (h5 : k ≤ 5) :
    driverRound (soloIdle a k a) = some (soloDone a k (a + k)) := by
  have hm : (min 5 (k : Int)).toNat = k := by
    rw [min_eq_right (by exact_mod_cast h5)]; simp
  simp only [driverRound, solo_round_first a k (by exact_mod_cast hk), hm,
    solo_tickLoop_first_complete a k hk, solo_update_done]

theorem solo_driverRound_first_long (a : Int) (k : Nat) (h5 : 5 < k) :
    driverRound (soloIdle a k a) = some (soloRunning a k (a + 5) (k - 5) 0) := by
  have hm : (min 5 (k : Int)).toNat = 5 := by
    rw [min_eq_left (by exact_mod_cast (le_of_lt h5))]; rfl
  have hlt : ((5 : Nat) : Int) < (k : Int) := by exact_mod_cast h5
  simp only [driverRound, solo_round_first a k (by omega), hm,
    solo_tickLoop_first a k 5 (by norm_num) hlt, solo_update_running]
  rfl

theorem solo_driverLoop_running (a b : Int) :
    ∀ (fuel k : Nat) (c : Int), 0 < k → k ≤ fuel →
      driverLoop fuel (soloRunning a b c k 0) = some (soloDone a b (c + k)) := by
  intro fuel
  induction fuel with
  | zero => intro k c hk hf; omega
  | succ f ih =>
    intro k c hk hf
    simp only [driverLoop, solo_running_continue, if_false]
    by_cases h5 : k ≤ 5
    · rw [solo_driverRound_short a b c k hk h5]
      exact driverLoop_done f _ (solo_done_exit a b _)
    · rw [solo_driverRound_long a b c k (by omega)]
      have e1 : ((k : Int) - 5) = ((k - 5 : Nat) : Int) := by omega
      rw [e1]
      show driverLoop f (soloRunning a b (c + 5) ((k - 5 : Nat) : Int) 0) = _
      rw [ih (k - 5) (c + 5) (by omega) (by omega)]
      congr 2
      omega

theorem solo_driverLoop_idle (k : Nat) (hk : 0 < k) :
    ∀ (d fuel : Nat) (a c : Int), c + d = a → d + k ≤ fuel →
      driverLoop fuel (soloIdle a k c) = some (soloDone a k (a + k)) := by
  intro d
  induction d with
  | zero =>
    intro fuel a c hc hf
    have hca : c = a := by simpa using hc
    subst hca
    cases fuel with
    | zero => omega
    | succ f =>
      simp only [driverLoop, solo_idle_continue, if_false]
      by_cases h5 : k ≤ 5
      · rw [solo_driverRound_first_short c k hk h5]
        exact driverLoop_done f _ (solo_done_exit c k _)
      · rw [solo_driverRound_first_long c k (by omega)]
        have e1 : ((k : Int) - 5) = ((k - 5 : Nat) : Int) := by omega
        rw [e1]
        show driverLoop f (soloRunning c k (c + 5) ((k - 5 : Nat) : Int) 0) = _
        rw [solo_driverLoop_running c k f (k - 5) (c + 5) (by omega) (by omega)]
        congr 2
        omega
  | succ d ih =>
    intro fuel a c hc hf
    cases fuel with
    | zero => omega
    | succ f =>
      simp only [driverLoop, solo_idle_continue, if_false]
      rw [solo_round_idle a k c (by push_cast at hc; omega)]
      show driverLoop f (soloIdle a k (c + 1)) = _
      exact ih f a (c + 1) (by push_cast at hc; omega) (by omega)

/-! ## The driver loop and the reachable states -/

theorem Reachable.reach_round {input : List (Int × Int)} {s s1 : SimState}
    (h : Reachable input s) (hr : driverRound s = some s1) : Reachable input s1 := by
  unfold driverRound at hr
  cases hh : HybridRoundRobin DEFAULT_TIME_QUANTUM (populateQueueIfArrive s) with
  | none => rw [hh] at hr; cases hr
  | some s2 =>
    rw [hh] at hr
    cases hr
    exact Reachable.step _ _
      (Reachable.step _ _ (Reachable.step _ _ h (Step.arrive s)) (Step.round _ _ hh))
      (Step.wait s2)

theorem reachable_of_driverRounds {input : List (Int × Int)} :
    ∀ (k : Nat) (s0 s : SimState), Reachable input s0 → driverRounds k s0 = some s →
      Reachable input s := by
  intro k
  induction k with
  | zero => intro s0 s h hr; simp [driverRounds] at hr; subst hr; exact h
  | succ k ih =>
    intro s0 s h hr
    simp only [driverRounds] at hr
    cases hd : driverRound s0 with
    | none => rw [hd] at hr; cases hr
    | some s1 => rw [hd] at hr; exact ih s1 s (h.reach_round hd) hr

theorem selectTask_table {input : List (Int × Int)} {s s1 : SimState} (h : Inv input s)
    {temp : Nat} {timejump : Int}
    (hs : selectTask DEFAULT_TIME_QUANTUM s = some (temp, timejump, s1)) :
    s1.fileTable = s.fileTable ∧ s1.TIME_ELAPSED = s.TIME_ELAPSED := by
  by_cases c1 : CountUncompletedProcessesInQueue s = 1
  · obtain ⟨t, e, _, _, p⟩ := selectTask_one h c1
    rw [p] at hs
    cases hs
    exact ⟨rfl, rfl⟩
  · by_cases c2 : 1 < CountUncompletedProcessesInQueue s
    · obtain ⟨t, e, e1, _, _, _, _, _, _, p⟩ := selectTask_many h c2
      rw [p] at hs
      cases hs
      exact ⟨rfl, rfl⟩
    · have c3 : ¬ CountUncompletedProcessesInQueue s > 1 := c2
      simp only [selectTask, c1, c3, if_false] at hs
      cases hs
      exact ⟨rfl, rfl⟩

/-- A scheduling round entered with every arrived task in the queue ends with
every task that arrived before the new clock value in the queue. -/
theorem HybridRoundRobin_admitted {input : List (Int × Int)} (hw : WellFormed input)
    {s s1 : SimState} (h : Inv input s) (ha : AdmittedNow s)
    (hr : HybridRoundRobin DEFAULT_TIME_QUANTUM s = some s1) : Admitted s1 := by
  by_cases c0 : CountUncompletedProcessesInQueue s = 0
  · rw [HybridRoundRobin_idle _ _ c0] at hr
    cases hr
    intro t ht hlt
    have hlt' : t.arrivalTime < s.TIME_ELAPSED + 1 := hlt
    exact ha t ht (by omega)
  · obtain ⟨temp, tj, s2, e1, p, i2, g, hu, h0, hle⟩ := selectTask_ready h c0
    obtain ⟨t1, t2⟩ := selectTask_table h p
    simp only [HybridRoundRobin, c0, if_false, p] at hr
    cases hr
    have ha2 : Admitted s2 := by
      intro t ht hlt
      rw [t1] at ht; rw [t2] at hlt
      exact ha t ht (le_of_lt hlt)
    exact (tickLoop_progress hw temp tj.toNat s2 e1 i2 ha2 g hu (by omega)).1

theorem driverRound_admitted {input : List (Int × Int)} (hw : WellFormed input)
    {s s1 : SimState} (h : Inv input s) (ha : Admitted s) (hr : driverRound s = some s1) :
    Inv input s1 ∧ Admitted s1 := by
  unfold driverRound at hr
  cases hh : HybridRoundRobin DEFAULT_TIME_QUANTUM (populateQueueIfArrive s) with
  | none => rw [hh] at hr; cases hr
  | some s2 =>
    rw [hh] at hr
    cases hr
    have i0 := h.inv_populate hw
    have a2 := HybridRoundRobin_admitted hw i0 (Admitted.admitted_populate hw h ha) hh
    obtain ⟨f1, _, f3, _, _, _⟩ := UpdateWaitingTimes_fields s2
    refine ⟨(i0.inv_round hw hh).update, ?_⟩
    intro t ht hlt
    rw [f3] at ht; rw [f1] at hlt
    exact a2 t ht hlt

theorem driverRounds_admitted {input : List (Int × Int)} (hw : WellFormed input) :
    ∀ (k : Nat) (s0 s : SimState), Inv input s0 → Admitted s0 → driverRounds k s0 = some s →
      Inv input s ∧ Admitted s := by
  intro k
  induction k with
  | zero => intro s0 s h ha hr; simp [driverRounds] at hr; subst hr; exact ⟨h, ha⟩
  | succ k ih =>
    intro s0 s h ha hr
    simp only [driverRounds] at hr
    cases hd : driverRound s0 with
    | none => rw [hd] at hr; cases hr
    | some s1 =>
      rw [hd] at hr
      obtain ⟨i1, a1⟩ := driverRound_admitted hw h ha hd
      exact ih s1 s i1 a1 hr

/-! ## Facts about the selection and the final state -/

theorem IsSelection.unique {q : List fileAttribute} {i j : Nat} {e x : fileAttribute}
    (h1 : IsSelection q i e) (h2 : IsSelection q j x) : i = j ∧ e = x := by
  have m1 := h1.minimal x (List.mem_iff_getElem?.mpr ⟨j, h2.at_pos⟩) h2.uncompleted
  have m2 := h2.minimal e (List.mem_iff_getElem?.mpr ⟨i, h1.at_pos⟩) h1.uncompleted
  have hb : x.backUpBurstTime = e.backUpBurstTime := by omega
  have f1 := (h1.first j x h2.at_pos h2.uncompleted hb).1
  have f2 := (h2.first i e h1.at_pos h1.uncompleted hb.symm).1
  have hij : i = j := by omega
  subst hij
  have := h1.at_pos
  rw [h2.at_pos] at this
  cases this
  exact ⟨rfl, rfl⟩

theorem uncompletedCount_cons (z : fileAttribute) (r : List fileAttribute) :
    uncompletedCount (z :: r) =
      (if z.hasCompleted = false then 1 else 0) + uncompletedCount r := by
  unfold uncompletedCount
  simp only [List.filter_cons]
  cases hz : z.hasCompleted <;> simp
  all_goals omega

theorem uncompletedCount_pos {q : List fileAttribute} {k : Nat} {w : fileAttribute}
    (hk : q[k]? = some w) (hw : w.hasCompleted = false) : 0 < uncompletedCount q := by
  unfold uncompletedCount
  exact List.length_pos_of_mem
    (List.mem_filter.mpr ⟨List.mem_iff_getElem?.mpr ⟨k, hk⟩, by simp [hw]⟩)

theorem uncompleted_unique (q : List fileAttribute) (h : uncompletedCount q = 1) :
    ∀ (i j : Nat) (x y : fileAttribute), q[i]? = some x → q[j]? = some y →
      x.hasCompleted = false → y.hasCompleted = false → i = j := by
  induction q with
  | nil => intro i j x y hi; simp at hi
  | cons z r ih =>
    intro i j x y hi hj hx hy
    rw [uncompletedCount_cons] at h
    cases i with
    | zero =>
      cases j with
      | zero => rfl
      | succ j =>
        exfalso
        simp at hi hj
        subst hi
        have := uncompletedCount_pos hj hy
        rw [if_pos hx] at h
        omega
    | succ i =>
      cases j with
      | zero =>
        exfalso
        simp at hi hj
        subst hj
        have := uncompletedCount_pos hi hx
        rw [if_pos hy] at h
        omega
      | succ j =>
        simp at hi hj
        have hz : uncompletedCount r = 1 := by
          have := uncompletedCount_pos hi hx
          split_ifs at h <;> omega
        rw [ih hz i j x y hi hj hx hy]

/-- In a state in which the driver loop exits, every task is in the queue and
completed, and the completion records list every task once. -/
theorem final_state {input : List (Int × Int)} {s : SimState} (h : Inv input s)
    (hd : s.processesCompleted = numberOfFiles s) :
    s.readyQueue.length = input.length ∧ (∀ e ∈ s.readyQueue, e.hasCompleted = true) ∧
    (s.completedFileTable.map (fun e => e.fileID)).Perm
      ((List.range input.length).map (fun i : Nat => (i : Int))) ∧
    s.completedIndex = input.length := by
  have h1 := table_length h
  have h2 := queue_length_le h
  have h3 := h.done_count
  have h4 := h.done_eq
  have h5 := List.length_filter_le (fun e : fileAttribute => e.hasCompleted) s.readyQueue
  unfold numberOfFiles at hd
  have hlen : s.readyQueue.length = input.length := by omega
  have hfl : (s.readyQueue.filter (fun e => e.hasCompleted)).length = s.readyQueue.length := by
    omega
  have hfe : s.readyQueue.filter (fun e => e.hasCompleted) = s.readyQueue :=
    (List.filter_sublist _).eq_of_length hfl
  have hall : ∀ e ∈ s.readyQueue, e.hasCompleted = true := List.filter_eq_self.mp hfe
  have hci : s.completedIndex = input.length := by omega
  refine ⟨hlen, hall, ?_, hci⟩
  have ho := h.order
  rw [hfe] at ho
  have htake : s.completedFileTable.take s.completedIndex.toNat = s.completedFileTable := by
    apply List.take_of_length_le
    have := h.records_len
    omega
  rw [htake] at ho
  have hids := h.ids
  have hfl2 : (s.fileTable.filter (fun e => e.inQueue)).length = s.fileTable.length := by
    have := hids.length_eq
    simp only [List.length_map] at this
    omega
  have hfe2 : s.fileTable.filter (fun e => e.inQueue) = s.fileTable :=
    (List.filter_sublist _).eq_of_length hfl2
  rw [hfe2, table_ids h.table] at hids
  exact ho.trans hids

/-! ## A task with burst time 0 -/

theorem findNode_only (p : fileAttribute → Bool) (q : List fileAttribute) (e : fileAttribute)
    (h : q.filter p = [e]) :
    ∃ temp, findNode p q = some temp ∧ q[temp]? = some e := by
  have he : e ∈ q.filter p := by rw [h]; exact List.mem_singleton.mpr rfl
  obtain ⟨i, x, h1, h2, h3, _⟩ :=
    findNode_first p q ⟨e, (List.mem_filter.mp he).1, (List.mem_filter.mp he).2⟩
  have hx : x ∈ q.filter p :=
    List.mem_filter.mpr ⟨List.mem_iff_getElem?.mpr ⟨i, h2⟩, h3⟩
  rw [h] at hx
  rw [List.mem_singleton.mp hx] at h2
  exact ⟨i, h1, h2⟩

theorem stalled_round (s : SimState) (e : fileAttribute) (hitems : s.ITEMS_IN_QUEUE ≠ 0)
    (honly : s.readyQueue.filter (fun x => x.hasCompleted = false) = [e])
    (hb : e.backUpBurstTime = 0) :
    ∃ temp, HybridRoundRobin DEFAULT_TIME_QUANTUM s =
      some { s with
        readyQueue := modifyNode (fun t => { t with processing := true }) temp s.readyQueue } := by
  have hc : CountUncompletedProcessesInQueue s = 1 := by
    unfold CountUncompletedProcessesInQueue
    rw [if_neg hitems, honly]; rfl
  obtain ⟨temp, hf, hget⟩ := findNode_only _ _ _ honly
  refine ⟨temp, ?_⟩
  have hsel : selectTask DEFAULT_TIME_QUANTUM s =
      some (temp, 0, { s with
        readyQueue := modifyNode (fun t => { t with processing := true }) temp s.readyQueue }) := by
    simp only [selectTask, hc, if_true, hf, hget, hb]
    have h5 : DEFAULT_TIME_QUANTUM ≥ 0 := by unfold DEFAULT_TIME_QUANTUM; omega
    rw [if_pos h5]
  unfold HybridRoundRobin
  rw [if_neg (by rw [hc]; decide), hsel]
  rfl

theorem zero_task_first_round :
    driverRound (initState [(0, 0)]) = some (soloRunning 0 0 0 0 (-1)) := by
  decide

theorem zero_task_fixed_point :
    driverRound (soloRunning 0 0 0 0 (-1)) = some (soloRunning 0 0 0 0 (-1)) := by
  decide

theorem zero_task_stuck : ∀ fuel : Nat, driverLoop fuel (soloRunning 0 0 0 0 (-1)) = none := by
  intro fuel
  induction fuel with
  | zero => decide
  | succ f ih =>
    rw [driverLoop, if_neg (by decide), zero_task_fixed_point]
    exact ih

theorem zero_task_never_done : ∀ fuel : Nat, driverLoop fuel (initState [(0, 0)]) = none := by
  intro fuel
  cases fuel with
  | zero => decide
  | succ f =>
    rw [driverLoop, if_neg (by decide), zero_task_first_round]
    exact zero_task_stuck f

/-! ## Runs on tasks that all arrive at clock 0 -/

theorem ZeroArrival.wellFormed {input : List (Int × Int)} (h0 : ZeroArrival input) :
    WellFormed input := by
  intro r hr
  have := h0 r hr
  exact ⟨by omega, this.2⟩

/-- When every entry of the table is admitted, the loop of
`populateQueueIfArrive` appends the whole table to the queue. -/
theorem populateLoop_all (n clock : Int) (tbl : List fileAttribute) :
    ∀ (q : List fileAttribute) (items : Int), items = q.length →
      (∀ x ∈ q, x.inQueue = true) → (∀ t ∈ tbl, admits clock t) →
      items + tbl.length ≤ n →
      populateLoop n clock tbl q items =
        (tbl.map (admitEntry clock), q ++ tbl.map (admitEntry clock), items + tbl.length) := by
  induction tbl with
  | nil => intro q items _ _ _ _; simp [populateLoop]
  | cons e rest ih =>
    intro q items hi hq ha hn
    have hlen : ((e :: rest).length : Int) = rest.length + 1 := by simp
    rw [populateLoop_admitted _ _ _ _ _ _ (ha e (List.mem_cons_self _ _))]
    rw [if_neg (by omega)]
    have hadd := AddToReadyQueue_eq (admitEntry clock e) items q hi hq rfl
    rw [hadd]
    have hrec := ih (q ++ [admitEntry clock e]) (items + 1) (by simp [hi])
      (by
        intro x hx
        rcases List.mem_append.mp hx with hx | hx
        · exact hq x hx
        · rw [List.mem_singleton.mp hx]; rfl)
      (fun t ht => ha t (List.mem_cons_of_mem _ ht)) (by omega)
    rw [hrec]
    simp only [List.map_cons, List.append_assoc, List.singleton_append, List.length_cons]
    refine Prod.ext rfl (Prod.ext rfl ?_)
    show items + 1 + (rest.length : Int) = items + ((rest.length + 1 : Nat) : Int)
    push_cast
    ring

theorem initFileTable_admits {input : List (Int × Int)} (h0 : ZeroArrival input) :
    ∀ t ∈ initFileTable input, admits 0 t := by
  intro t ht
  unfold initFileTable at ht
  obtain ⟨p, hp, rfl⟩ := List.mem_map.mp ht
  have hmem : p.2 ∈ input := by
    obtain ⟨i, hi⟩ := List.mem_iff_getElem?.mp hp
    rw [List.getElem?_enum] at hi
    cases hin : input[i]? with
    | none => rw [hin] at hi; cases hi
    | some r =>
      rw [hin] at hi
      simp only [Option.map_some'] at hi
      cases hi
      exact List.mem_iff_getElem?.mpr ⟨i, hin⟩
  exact ⟨rfl, rfl, (h0 p.2 hmem).1⟩

theorem length_initFileTable (input : List (Int × Int)) :
    (initFileTable input).length = input.length := by
  simp [initFileTable]

/-- The first admission of a run on tasks that all arrive at clock 0 puts the
whole table into the queue. -/
theorem populate_init {input : List (Int × Int)} (h0 : ZeroArrival input) :
    populateQueueIfArrive (initState input) =
      { initState input with
        fileTable := (initFileTable input).map (admitEntry 0),
        readyQueue := (initFileTable input).map (admitEntry 0),
        ITEMS_IN_QUEUE := input.length } := by
  have h := populateLoop_all (numberOfFiles (initState input)) 0 (initFileTable input) [] 0 rfl
    (by simp) (initFileTable_admits h0)
    (by unfold numberOfFiles initState; simp)
  unfold populateQueueIfArrive
  show ({ initState input with
    fileTable := (populateLoop (numberOfFiles (initState input)) 0 (initFileTable input) [] 0).1,
    readyQueue := (populateLoop (numberOfFiles (initState input)) 0 (initFileTable input) [] 0).2.1,
    ITEMS_IN_QUEUE :=
      (populateLoop (numberOfFiles (initState input)) 0 (initFileTable input) [] 0).2.2 } :
      SimState) = _
  rw [h]
  simp [length_initFileTable]

/-- Once every task is in the queue, `populateQueueIfArrive` changes nothing. -/
theorem populate_full {s : SimState} (h : Full s) : populateQueueIfArrive s = s := by
  apply populateQueueIfArrive_eq_self
  apply populateLoop_inert
  intro e he ha
  have := h e he
  rw [ha.1] at this
  cases this

/-! ### What a tick does to a node -/

theorem updateWaitingNode_completed (clock : Int) (e : fileAttribute)
    (h : e.hasCompleted = true) : updateWaitingNode clock e = e := by
  unfold updateWaitingNode
  rw [if_neg]
  rw [h]; simp

theorem updateWaitingNode_processing (clock : Int) (e : fileAttribute)
    (h : e.processing = true) : updateWaitingNode clock e = e := by
  unfold updateWaitingNode
  rw [if_neg]
  rw [h]; simp

theorem updateWaitingNode_task (clock : Int) (e : fileAttribute) :
    taskOf (updateWaitingNode clock e) = taskOf e := by
  unfold updateWaitingNode
  split_ifs <;> rfl

theorem updateWaitingNode_hasCompleted (clock : Int) (e : fileAttribute) :
    (updateWaitingNode clock e).hasCompleted = e.hasCompleted := by
  unfold updateWaitingNode
  split_ifs <;> rfl

theorem Idle.idle_update {e : fileAttribute} (h : Idle e) (clock : Int) :
    Idle (updateWaitingNode clock e) := by
  unfold updateWaitingNode
  split_ifs
  · exact ⟨h.uncompleted, h.full, h.unanswered, h.waiting, by
      rcases h.state with hs | hs
      · exact Or.inl hs
      · rename_i hc
        rw [hs.1] at hc
        simp at hc⟩
  · exact h

/-- After `UpdateWaitingTimes` at `clock` an idle node that arrived at clock 0
is ready. -/
theorem Idle.ready {e : fileAttribute} (h : Idle e) (clock : Int) (ha : e.arrivalTime = 0) :
    Ready clock (updateWaitingNode clock e) := by
  refine ⟨h.idle_update clock, ?_⟩
  intro hs
  unfold updateWaitingNode at hs ⊢
  split_ifs at hs ⊢ with hc
  · show clock - e.arrivalTime = clock
    rw [ha]; ring
  · exfalso
    apply hc
    exact ⟨h.waiting, h.uncompleted, hs⟩

theorem serviceNode_fields (clock : Int) (e : fileAttribute) :
    (serviceNode clock e).processing = e.processing ∧
    (serviceNode clock e).calculated = e.calculated ∧
    (serviceNode clock e).waitingTime = e.waitingTime ∧
    (serviceNode clock e).burstTime = e.burstTime ∧
    (serviceNode clock e).timeStopped = e.timeStopped ∧
    taskOf (serviceNode clock e) = taskOf e := by
  unfold serviceNode
  split_ifs <;> exact ⟨rfl, rfl, rfl, rfl, rfl, rfl⟩

theorem serviceNode_responseTime (clock : Int) (e : fileAttribute) :
    (serviceNode clock e).responseTime =
      if e.responseTime = -1 ∧ e.hasCompleted = false then clock - e.arrivalTime
      else e.responseTime := by
  unfold serviceNode
  split_ifs <;> rfl

theorem nodeAfterService_task (clock : Int) (e : fileAttribute) :
    taskOf (nodeAfterService clock e) = taskOf e := by
  have h := (serviceNode_fields clock e).2.2.2.2.2
  unfold nodeAfterService
  dsimp only
  split_ifs
  · exact h
  · exact h
  · exact h

/-- One tick of service on the node being serviced: with one unit of burst
left it completes, with the waiting and response time equal to the clock value
at which its service started; otherwise it stays the node being serviced. -/
theorem Serving.serving_tick {c clock : Int} {e : fileAttribute} (h : Serving c clock e)
    (ha : e.arrivalTime = 0) :
    (e.backUpBurstTime = 1 →
      DoneAt c (nodeAfterService clock e) ∧ clock + 1 = c + e.burstTime) ∧
    (e.backUpBurstTime ≠ 1 → Serving c (clock + 1) (nodeAfterService clock e)) := by
  have hu := h.uncompleted
  have hp := h.processing
  have hc0 := h.start_nonneg
  have hpos := h.remaining_pos
  have hclock := h.clock_eq
  have hle : e.backUpBurstTime ≤ e.burstTime := by
    rcases h.state with ⟨h1, _⟩ | ⟨h1, _⟩
    · omega
    · omega
  obtain ⟨f1, f2, f3, f4, f5, _⟩ := serviceNode_fields clock e
  have f6 := serviceNode_responseTime clock e
  have f7 := serviceNode_backUp clock e
  have f8 := serviceNode_hasCompleted clock e
  constructor
  · intro hb
    have hcomp : (nodeAfterService clock e) = completeNode (serviceNode clock e) := by
      unfold nodeAfterService
      rw [if_pos]
      rw [f7, f8]
      exact ⟨by omega, hu⟩
    rw [hcomp]
    refine ⟨?_, by omega⟩
    have g1 : (completeNode (serviceNode clock e)).waitingTime = e.waitingTime := f3
    have g2 : (completeNode (serviceNode clock e)).responseTime =
        (serviceNode clock e).responseTime := rfl
    have g3 : (completeNode (serviceNode clock e)).turnAroundTime =
        e.burstTime + e.waitingTime := by
      show (serviceNode clock e).burstTime + (serviceNode clock e).waitingTime = _
      rw [f3, f4]
    have g4 : (completeNode (serviceNode clock e)).burstTime = e.burstTime := f4
    rcases h.state with ⟨h1, h2, h3⟩ | ⟨h1, h2, h3, h4⟩
    · have hbt : e.burstTime = 1 := by omega
      have hw : e.waitingTime = c := by
        rcases h3 with ⟨_, h5⟩ | ⟨_, h5, h6⟩
        · exact h5
        · rcases h6 with h6 | h6
          · omega
          · omega
      rw [if_pos ⟨h2, hu⟩] at f6
      exact ⟨rfl, by rw [g1]; exact hw, by rw [g2, f6]; omega, by rw [g3, g4]; omega⟩
    · rw [if_neg (by intro hx; omega)] at f6
      exact ⟨rfl, by rw [g1]; exact h3, by rw [g2, f6]; exact h2, by rw [g3, g4]; omega⟩
  · intro hb
    have hnc : ¬ ((serviceNode clock e).backUpBurstTime = 0 ∧
        (serviceNode clock e).hasCompleted = false) := by
      rw [f7]
      intro hx; omega
    have hgt : (serviceNode clock e).backUpBurstTime > 0 := by
      rw [f7]; omega
    by_cases hcal : e.calculated = true
    · have he : nodeAfterService clock e = serviceNode clock e := by
        unfold nodeAfterService
        rw [if_neg hnc, if_neg]
        rw [f2, hcal]
        intro hx
        cases hx.2
      rw [he]
      refine ⟨by rw [f8]; exact hu, by rw [f1]; exact hp, hc0, by rw [f7]; omega,
        by rw [f4, f7]; omega, Or.inr ⟨by rw [f7, f4]; omega, ?_, ?_, by rw [f2]; exact hcal⟩⟩
      · rw [f6]
        rcases h.state with ⟨h1, h2, h3⟩ | ⟨h1, h2, h3, h4⟩
        · rw [if_pos ⟨h2, hu⟩]; omega
        · rw [if_neg (by intro hx; omega)]; exact h2
      · rw [f3]
        rcases h.state with ⟨h1, h2, h3⟩ | ⟨h1, h2, h3, h4⟩
        · rcases h3 with ⟨_, h5⟩ | ⟨h4, _, _⟩
          · exact h5
          · rw [hcal] at h4; cases h4
        · exact h3
    · have hcf : e.calculated = false := by
        cases hx : e.calculated with
        | true => exact absurd hx hcal
        | false => rfl
      have he : nodeAfterService clock e = reconcileNode clock (serviceNode clock e) := by
        unfold nodeAfterService
        rw [if_neg hnc, if_pos]
        exact ⟨hgt, by rw [f2]; exact hcf⟩
      rw [he]
      have g1 : (reconcileNode clock (serviceNode clock e)).waitingTime =
          e.waitingTime + (clock - e.timeStopped) := by
        show (serviceNode clock e).waitingTime + (clock - (serviceNode clock e).timeStopped) = _
        rw [f3, f5]
      have g2 : (reconcileNode clock (serviceNode clock e)).responseTime =
          (serviceNode clock e).responseTime := rfl
      have g3 : (reconcileNode clock (serviceNode clock e)).backUpBurstTime =
          e.backUpBurstTime - 1 := f7
      have g4 : (reconcileNode clock (serviceNode clock e)).burstTime = e.burstTime := f4
      have g5 : (reconcileNode clock (serviceNode clock e)).hasCompleted = e.hasCompleted := f8
      have g6 : (reconcileNode clock (serviceNode clock e)).processing = e.processing := f1
      rcases h.state with ⟨h1, h2, h3⟩ | ⟨h1, h2, h3, h4⟩
      · rcases h3 with ⟨h4, _⟩ | ⟨_, h5, _⟩
        · rw [hcf] at h4; cases h4
        · rw [if_pos ⟨h2, hu⟩] at f6
          exact ⟨by rw [g5]; exact hu, by rw [g6]; exact hp, hc0, by rw [g3]; omega,
            by rw [g4, g3]; omega,
            Or.inr ⟨by rw [g3, g4]; omega, by rw [g2, f6]; omega, by rw [g1]; omega, rfl⟩⟩
      · rw [hcf] at h4; cases h4

/-! ### A tick once every task is in the queue -/

/-- Once every task is in the queue, one iteration of the `for` loop writes
the serviced node back and then, at most, recomputes waiting times. -/
theorem tick_full {s : SimState} (hf : Full s) {temp : Nat} {e : fileAttribute}
    (hget : s.readyQueue[temp]? = some e) :
    ∃ g : fileAttribute → fileAttribute, (g = id ∨ g = updateWaitingNode s.TIME_ELAPSED) ∧
      (tick temp s).readyQueue =
        (modifyNode (fun _ => nodeAfterService s.TIME_ELAPSED e) temp s.readyQueue).map g ∧
      (tick temp s).fileTable = s.fileTable ∧
      (tick temp s).completedFileTable = (serviceStep temp e s).completedFileTable ∧
      (tick temp s).completedIndex = (serviceStep temp e s).completedIndex := by
  obtain ⟨a1, a2, a3⟩ := serviceStep_fields temp e s
  have hf2 : Full (serviceStep temp e s) := by
    intro t ht
    rw [a3] at ht
    exact hf t ht
  have hq := serviceStep_queue temp e s
  rw [tick_eq temp s e hget, populate_full hf2]
  unfold waitStep
  cases hn : (serviceStep temp e s).readyQueue[temp]? with
  | none =>
    refine ⟨id, Or.inl rfl, ?_, a3, rfl, rfl⟩
    show (serviceStep temp e s).readyQueue = _
    rw [hq, List.map_id]
  | some t =>
    by_cases hs : t.startedButNotComp = false
    · simp only [hs, if_true]
      unfold UpdateWaitingTimes
      by_cases hi : (serviceStep temp e s).ITEMS_IN_QUEUE = 0
      · rw [if_pos hi]
        refine ⟨id, Or.inl rfl, ?_, a3, rfl, rfl⟩
        show (serviceStep temp e s).readyQueue = _
        rw [hq, List.map_id]
      · rw [if_neg hi]
        refine ⟨updateWaitingNode s.TIME_ELAPSED, Or.inr rfl, ?_, a3, rfl, rfl⟩
        show (serviceStep temp e s).readyQueue.map
          (updateWaitingNode (serviceStep temp e s).TIME_ELAPSED) = _
        rw [hq, a1]
    · simp only [hs, if_false]
      refine ⟨id, Or.inl rfl, ?_, a3, rfl, rfl⟩
      show (serviceStep temp e s).readyQueue = _
      rw [hq, List.map_id]

theorem completedIndex_lt {input : List (Int × Int)} {s : SimState} (h : Inv input s)
    {e : fileAttribute} (he : e ∈ s.readyQueue) (hu : e.hasCompleted = false) :
    0 ≤ s.completedIndex ∧ s.completedIndex.toNat < s.completedFileTable.length := by
  have h1 := h.done_count
  have h2 := completed_lt_length he hu
  have h3 := queue_length_le h
  have h4 := h.records_len
  constructor
  · omega
  · omega

/-- One iteration of the `for` loop on the node being serviced, in a state in
which all other uncompleted nodes are idle. -/
theorem serve_tick {input : List (Int × Int)} (hw : WellFormed input) {s : SimState}
    (h : Inv input s) (hf : Full s) {temp : Nat} {e : fileAttribute} {c : Int}
    (hget : s.readyQueue[temp]? = some e) (hs : Serving c s.TIME_ELAPSED e)
    (ha : e.arrivalTime = 0)
    (ho : ∀ (j : Nat) (x : fileAttribute), j ≠ temp → s.readyQueue[j]? = some x →
      x.hasCompleted = false → Idle x) :
    Inv input (tick temp s) ∧ Full (tick temp s) ∧
    (tick temp s).TIME_ELAPSED = s.TIME_ELAPSED + 1 ∧
    (tick temp s).readyQueue[temp]? = some (nodeAfterService s.TIME_ELAPSED e) ∧
    (tick temp s).readyQueue.map taskOf = s.readyQueue.map taskOf ∧
    (∀ (j : Nat) (x : fileAttribute), j ≠ temp → (tick temp s).readyQueue[j]? = some x →
      x.hasCompleted = false → Idle x) ∧
    (e.backUpBurstTime = 1 →
      completedRecords (tick temp s) =
        completedRecords s ++ [nodeAfterService s.TIME_ELAPSED e]) ∧
    (e.backUpBurstTime ≠ 1 → completedRecords (tick temp s) = completedRecords s) := by
  have hu := hs.uncompleted
  obtain ⟨i1, _, t1⟩ := tick_spec hw h hget hu
  obtain ⟨g, hg, q1, f1, r1, r2⟩ := tick_full hf hget
  obtain ⟨d1, d2⟩ := hs.serving_tick ha
  have hgtask : ∀ x, taskOf (g x) = taskOf x := by
    intro x
    rcases hg with hg | hg
    · rw [hg]; rfl
    · rw [hg]; exact updateWaitingNode_task _ _
  have hgnode : g (nodeAfterService s.TIME_ELAPSED e) = nodeAfterService s.TIME_ELAPSED e := by
    rcases hg with hg | hg
    · rw [hg]; rfl
    · rw [hg]
      by_cases hb : e.backUpBurstTime = 1
      · exact updateWaitingNode_completed _ _ (d1 hb).1.completed
      · exact updateWaitingNode_processing _ _ (d2 hb).processing
  refine ⟨i1, ?_, t1, ?_, ?_, ?_, ?_, ?_⟩
  · intro t ht
    rw [f1] at ht
    exact hf t ht
  · rw [q1, List.getElem?_map, getElem?_modifyNode, if_pos rfl, hget]
    simp only [Option.map_some']
    rw [hgnode]
  · rw [q1, List.map_map]
    have : (taskOf ∘ g) = taskOf := funext hgtask
    rw [this]
    exact map_modifyNode _ _ _ _ (fun x hx => by
      rw [hget] at hx
      cases hx
      exact nodeAfterService_task _ _)
  · intro j x hj hx hxu
    rw [q1, List.getElem?_map, getElem?_modifyNode, if_neg hj] at hx
    cases hy : s.readyQueue[j]? with
    | none => rw [hy] at hx; cases hx
    | some y =>
      rw [hy] at hx
      simp only [Option.map_some'] at hx
      cases hx
      rcases hg with hg | hg
      · rw [hg] at hxu ⊢
        exact ho j y hj hy hxu
      · rw [hg] at hxu ⊢
        rw [updateWaitingNode_hasCompleted] at hxu
        exact (ho j y hj hy hxu).idle_update _
  · intro hb
    obtain ⟨c1, _, c3⟩ := serviceStep_completing temp e s hu hb
    obtain ⟨n1, n2⟩ := completedIndex_lt h (List.mem_iff_getElem?.mpr ⟨temp, hget⟩) hu
    unfold completedRecords
    rw [r1, r2, c1, c3]
    have : (s.completedIndex + 1).toNat = s.completedIndex.toNat + 1 := by omega
    rw [this]
    exact take_succ_set _ _ _ n2
  · intro hb
    obtain ⟨c1, _, c3⟩ := serviceStep_continuing temp e s hb
    unfold completedRecords
    rw [r1, r2, c1, c3]

/-- The `for` loop on the node being serviced: the node stays the one being
serviced until its remaining burst is used up, and then is completed, with the
waiting and response time equal to the clock value at which its service
started, and is appended to the completion records; no other node is
serviced. -/
theorem serve_run {input : List (Int × Int)} (hw : WellFormed input) (temp : Nat) :
    ∀ (k : Nat) (s : SimState) (e : fileAttribute) (c : Int),
      Inv input s → Full s → s.readyQueue[temp]? = some e → Serving c s.TIME_ELAPSED e →
      e.arrivalTime = 0 → (k : Int) ≤ e.backUpBurstTime →
      (∀ (j : Nat) (x : fileAttribute), j ≠ temp → s.readyQueue[j]? = some x →
        x.hasCompleted = false → Idle x) →
      ∃ e1, (tickLoop temp k s).readyQueue[temp]? = some e1 ∧ taskOf e1 = taskOf e ∧
        Full (tickLoop temp k s) ∧
        (tickLoop temp k s).readyQueue.map taskOf = s.readyQueue.map taskOf ∧
        (∀ (j : Nat) (x : fileAttribute), j ≠ temp →
          (tickLoop temp k s).readyQueue[j]? = some x → x.hasCompleted = false → Idle x) ∧
        ((k : Int) < e.backUpBurstTime →
          Serving c (s.TIME_ELAPSED + k) e1 ∧
          completedRecords (tickLoop temp k s) = completedRecords s) ∧
        ((k : Int) = e.backUpBurstTime →
          DoneAt c e1 ∧ completedRecords (tickLoop temp k s) = completedRecords s ++ [e1] ∧
          s.TIME_ELAPSED + k = c + e.burstTime) := by
  intro k
  induction k with
  | zero =>
    intro s e c _ hf hget hs _ _ ho
    refine ⟨e, hget, rfl, hf, rfl, ho, ?_, ?_⟩
    · intro _
      refine ⟨?_, rfl⟩
      have : s.TIME_ELAPSED + ((0 : Nat) : Int) = s.TIME_ELAPSED := by simp
      rw [this]
      exact hs
    · intro hk
      have := hs.remaining_pos
      simp at hk
      omega
  | succ k ih =>
    intro s e c h hf hget hs ha hk ho
    obtain ⟨i1, f1, t1, g1, m1, o1, r1, r2⟩ := serve_tick hw h hf hget hs ha ho
    obtain ⟨d1, d2⟩ := hs.serving_tick ha
    have htask := nodeAfterService_task s.TIME_ELAPSED e
    show ∃ e1, (tickLoop temp k (tick temp s)).readyQueue[temp]? = some e1 ∧ _
    by_cases hb : e.backUpBurstTime = 1
    · have hk0 : k = 0 := by omega
      subst hk0
      refine ⟨_, g1, htask, f1, m1, o1, ?_, ?_⟩
      · intro hlt
        simp at hlt
        omega
      · intro _
        refine ⟨(d1 hb).1, r1 hb, ?_⟩
        have := (d1 hb).2
        push_cast
        omega
    · have hserv := d2 hb
      rw [← t1] at hserv
      have hback : (nodeAfterService s.TIME_ELAPSED e).backUpBurstTime =
          e.backUpBurstTime - 1 :=
        (nodeAfterService_serviced s.TIME_ELAPSED e hs.uncompleted).backUpBurstTime
      have harr : (nodeAfterService s.TIME_ELAPSED e).arrivalTime = 0 := by
        have := congrArg (fun p => p.2.1) htask
        simp only [taskOf] at this
        rw [this]; exact ha
      have hbt : (nodeAfterService s.TIME_ELAPSED e).burstTime = e.burstTime := by
        have := congrArg (fun p => p.2.2) htask
        simpa only [taskOf] using this
      obtain ⟨e1, p1, p2, p3, p4, p5, p6, p7⟩ := ih (tick temp s) _ c i1 f1 g1 hserv harr
        (by rw [hback]; push_cast at hk; omega) o1
      refine ⟨e1, p1, p2.trans htask, p3, p4.trans m1, p5, ?_, ?_⟩
      · intro hlt
        obtain ⟨q1, q2⟩ := p6 (by rw [hback]; push_cast at hlt; omega)
        refine ⟨?_, q2.trans (r2 hb)⟩
        rw [t1] at q1
        have : s.TIME_ELAPSED + ((k + 1 : Nat) : Int) = s.TIME_ELAPSED + 1 + (k : Int) := by
          push_cast; ring
        rw [this]
        exact q1
      · intro heq
        obtain ⟨q1, q2, q3⟩ := p7 (by rw [hback]; push_cast at heq; omega)
        refine ⟨q1, ?_, ?_⟩
        · show completedRecords (tickLoop temp k (tick temp s)) = _
          rw [q2, r2 hb]
        · rw [t1, hbt] at q3
          push_cast
          omega

/-! ### The scheduling decision on idle nodes -/

theorem markStopped_task (clock : Int) (e : fileAttribute) :
    taskOf (markStopped clock e) = taskOf e := by
  unfold markStopped
  dsimp only
  split_ifs <;> rfl

theorem markStopped_fresh (clock : Int) (e : fileAttribute) (h : e.saved = false) :
    markStopped clock e =
      { e with processing := false, timeStopped := clock, startedButNotComp := true,
               saved := true, calculated := false } := by
  unfold markStopped
  dsimp only
  rw [if_pos h]

theorem markStopped_saved (clock : Int) (e : fileAttribute) (h : e.saved = true) :
    markStopped clock e = { e with processing := false, calculated := false } := by
  unfold markStopped
  dsimp only
  rw [if_neg (by rw [h]; simp)]

/-- Dispatching a ready node makes it the node being serviced from now on. -/
theorem Ready.ready_dispatch {clock : Int} {e : fileAttribute} (h : Ready clock e)
    (h0 : 0 ≤ clock) (hpos : 0 < e.backUpBurstTime) :
    Serving clock clock { e with processing := true } := by
  have hi := h.idle
  refine ⟨hi.uncompleted, rfl, h0, hpos, ?_, Or.inl ⟨hi.full, hi.unanswered, ?_⟩⟩
  · show clock = clock + (e.burstTime - e.backUpBurstTime)
    rw [hi.full]; ring
  · rcases hi.state with ⟨s1, s2, _⟩ | ⟨_, s2, _, s4, s5⟩
    · exact Or.inl ⟨s2, h.waited s1⟩
    · exact Or.inr ⟨s2, s4, Or.inl s5⟩

/-- Dispatching the ready head of the queue after the preemption bookkeeping
has been applied to it. -/
theorem Ready.mark_dispatch {clock : Int} {e : fileAttribute} (h : Ready clock e)
    (h0 : 0 ≤ clock) (hpos : 0 < e.backUpBurstTime) :
    Serving clock clock { markStopped clock e with processing := true } := by
  have hi := h.idle
  rcases hi.state with ⟨s1, s2, s3⟩ | ⟨s1, s2, s3, s4, s5⟩
  · rw [markStopped_fresh clock e s3]
    refine ⟨hi.uncompleted, rfl, h0, hpos, ?_, Or.inl ⟨hi.full, hi.unanswered, ?_⟩⟩
    · show clock = clock + (e.burstTime - e.backUpBurstTime)
      rw [hi.full]; ring
    · exact Or.inr ⟨rfl, h.waited s1, Or.inr rfl⟩
  · rw [markStopped_saved clock e s3]
    refine ⟨hi.uncompleted, rfl, h0, hpos, ?_, Or.inl ⟨hi.full, hi.unanswered, ?_⟩⟩
    · show clock = clock + (e.burstTime - e.backUpBurstTime)
      rw [hi.full]; ring
    · exact Or.inr ⟨rfl, s4, Or.inl s5⟩

/-- The ready head of the queue stays idle under the preemption bookkeeping
when its burst time is more than one unit. -/
theorem Ready.mark_idle {clock : Int} {e : fileAttribute} (h : Ready clock e)
    (hb : 1 < e.burstTime) : Idle (markStopped clock e) := by
  have hi := h.idle
  rcases hi.state with ⟨s1, s2, s3⟩ | ⟨s1, s2, s3, s4, s5⟩
  · rw [markStopped_fresh clock e s3]
    exact ⟨hi.uncompleted, hi.full, hi.unanswered, rfl,
      Or.inr ⟨rfl, rfl, rfl, h.waited s1, hb⟩⟩
  · rw [markStopped_saved clock e s3]
    exact ⟨hi.uncompleted, hi.full, hi.unanswered, rfl, Or.inr ⟨s1, rfl, s3, s4, s5⟩⟩

theorem Serving.serving_dispatch {c clock : Int} {e : fileAttribute} (h : Serving c clock e) :
    Serving c clock { e with processing := true } :=
  ⟨h.uncompleted, rfl, h.start_nonneg, h.remaining_pos, h.clock_eq, h.state⟩

theorem shape_length {input : List (Int × Int)} {q : List fileAttribute}
    (hs : q.map taskOf = input.enum.map taskOfInput) : q.length = input.length := by
  have := congrArg List.length hs
  simpa using this

/-- In a queue that holds the tasks in table order, the node at position `j`
has file id `j` and, in a table of tasks arriving at clock 0, arrival time 0. -/
theorem shape_at {input : List (Int × Int)} (h0 : ZeroArrival input) {q : List fileAttribute}
    (hs : q.map taskOf = input.enum.map taskOfInput) {j : Nat} {x : fileAttribute}
    (hx : q[j]? = some x) :
    x.fileID = j ∧ x.arrivalTime = 0 ∧ 0 < x.burstTime ∧
      taskOf x ∈ input.enum.map taskOfInput := by
  have h1 : (q.map taskOf)[j]? = some (taskOf x) := by
    rw [List.getElem?_map, hx]; rfl
  rw [hs, List.getElem?_map, List.getElem?_enum] at h1
  cases hr : input[j]? with
  | none => rw [hr] at h1; cases h1
  | some r =>
    rw [hr] at h1
    simp only [Option.map_some', Option.some.injEq] at h1
    have hmem : r ∈ input := List.mem_iff_getElem?.mpr ⟨j, hr⟩
    have hz := h0 r hmem
    have hf : (taskOf x).1 = (j : Int) := by rw [← h1]; rfl
    have ha : (taskOf x).2.1 = r.1 := by rw [← h1]; rfl
    have hb : (taskOf x).2.2 = r.2 := by rw [← h1]; rfl
    refine ⟨hf, by rw [← hz.1]; exact ha, ?_, ?_⟩
    · have : x.burstTime = r.2 := hb
      rw [this]; exact hz.2
    · have hm : taskOf x ∈ q.map taskOf :=
        List.mem_map_of_mem _ (List.mem_iff_getElem?.mpr ⟨j, hx⟩)
      rw [hs] at hm
      exact hm

/-- A queue in which exactly the node at position `temp` is uncompleted. -/
theorem uncompletedCount_one {q : List fileAttribute} {temp : Nat} {e : fileAttribute}
    (hget : q[temp]? = some e) (hu : e.hasCompleted = false)
    (honly : ∀ (j : Nat) (x : fileAttribute), q[j]? = some x → x.hasCompleted = false →
      j = temp) : uncompletedCount q = 1 := by
  obtain ⟨l1, l2, h1, h2, _⟩ := modifyNode_split q temp e hget
  have hl1 : ∀ x ∈ l1, x.hasCompleted = true := by
    intro x hx
    obtain ⟨j, hj⟩ := List.mem_iff_getElem?.mp hx
    have hjlt : j < l1.length := by
      by_contra hge
      rw [List.getElem?_eq_none (by omega)] at hj
      cases hj
    have hq : q[j]? = some x := by
      rw [h1, List.getElem?_append_left hjlt]; exact hj
    cases hc : x.hasCompleted with
    | true => rfl
    | false =>
      have := honly j x hq hc
      omega
  have hl2 : ∀ x ∈ l2, x.hasCompleted = true := by
    intro x hx
    obtain ⟨j, hj⟩ := List.mem_iff_getElem?.mp hx
    have hq : q[l1.length + 1 + j]? = some x := by
      rw [h1, List.getElem?_append_right (by omega)]
      have : l1.length + 1 + j - l1.length = j + 1 := by omega
      rw [this]
      simpa using hj
    cases hc : x.hasCompleted with
    | true => rfl
    | false =>
      have := honly _ x hq hc
      omega
  have f1 : l1.filter (fun e => decide (e.hasCompleted = false)) = [] := by
    rw [List.filter_eq_nil_iff]
    intro x hx
    simp [hl1 x hx]
  have f2 : l2.filter (fun e => decide (e.hasCompleted = false)) = [] := by
    rw [List.filter_eq_nil_iff]
    intro x hx
    simp [hl2 x hx]
  unfold uncompletedCount
  rw [h1, List.filter_append, f1, List.filter_cons, f2]
  simp [hu]

/-! ### One round of the driver loop -/

theorem sjf_count_pos {input : List (Int × Int)} {s : SimState} (hi : SjfInv input s)
    (hne : s.processesCompleted ≠ numberOfFiles s) : 0 < uncompletedCount s.readyQueue := by
  have h := hi.inv
  have h1 := length_filter_completed s.readyQueue
  have h2 := h.done_count
  have h3 := h.done_eq
  have h4 := shape_length hi.shape
  have h5 := table_length h
  unfold numberOfFiles at hne
  by_contra hc
  apply hne
  omega

/-- The scheduling decision at the head of a round: the node selected is
dispatched as the node being serviced from the clock value given by the
completion records, it comes before every other uncompleted node in
shortest-job-first order, and all other uncompleted nodes are idle. -/
theorem sjf_select {input : List (Int × Int)} (h0 : ZeroArrival input) {s : SimState}
    (hi : SjfInv input s) (hne : s.processesCompleted ≠ numberOfFiles s) :
    ∃ (temp k : Nat) (s1 : SimState) (e e1 : fileAttribute),
      HybridRoundRobin DEFAULT_TIME_QUANTUM s = some (tickLoop temp k s1) ∧
      Inv input s1 ∧ Full s1 ∧ s1.TIME_ELAPSED = s.TIME_ELAPSED ∧
      completedRecords s1 = completedRecords s ∧
      s1.readyQueue.map taskOf = s.readyQueue.map taskOf ∧
      s.readyQueue[temp]? = some e ∧ e.hasCompleted = false ∧
      s1.readyQueue[temp]? = some e1 ∧ taskOf e1 = taskOf e ∧
      Serving (sumBurst (completedRecords s)) s.TIME_ELAPSED e1 ∧
      1 ≤ k ∧ (k : Int) ≤ e1.backUpBurstTime ∧
      ((k : Int) < e1.backUpBurstTime → uncompletedCount s.readyQueue = 1) ∧
      (∀ (j : Nat) (x : fileAttribute), j ≠ temp → s1.readyQueue[j]? = some x →
        x.hasCompleted = false → Idle x) ∧
      (∀ (j : Nat) (x : fileAttribute), j ≠ temp → s.readyQueue[j]? = some x →
        x.hasCompleted = false → Before (taskOf e) (taskOf x)) := by
  have hw := h0.wellFormed
  have h := hi.inv
  have hcnt := count_eq h
  have hpos := sjf_count_pos hi hne
  have hne0 : ¬ CountUncompletedProcessesInQueue s = 0 := by omega
  by_cases c1 : CountUncompletedProcessesInQueue s = 1
  · obtain ⟨temp, e, hget, hu, hsel⟩ := selectTask_one h c1
    have hone : uncompletedCount s.readyQueue = 1 := by omega
    have hmem : e ∈ s.readyQueue := List.mem_iff_getElem?.mpr ⟨temp, hget⟩
    have hbpos := (h.nodes e hmem).uncompleted hu
    have hclock : 0 ≤ s.TIME_ELAPSED := by
      have a1 := (h.nodes e hmem).arrived
      have a2 := (h.nodes e hmem).arrival_nonneg
      omega
    have hget1 : (modifyNode (fun t => { t with processing := true }) temp s.readyQueue)[temp]? =
        some { e with processing := true } := by
      rw [getElem?_modifyNode, if_pos rfl, hget]; rfl
    have hothers : ∀ (j : Nat) (x : fileAttribute), j ≠ temp → s.readyQueue[j]? = some x →
        x.hasCompleted = false → False := by
      intro j x hj hx hxu
      exact hj (uncompleted_unique _ hone j temp x e hx hget hxu hu)
    refine ⟨temp, (min DEFAULT_TIME_QUANTUM e.backUpBurstTime).toNat,
      { s with
        readyQueue := modifyNode (fun t => { t with processing := true }) temp s.readyQueue },
      e, { e with processing := true }, ?_, h.flags _ processing_untouched temp,
      hi.full, rfl, rfl, map_modifyNode _ _ _ _ (fun _ _ => rfl), hget, hu, hget1, rfl, ?_,
      ?_, ?_, fun _ => hone, ?_, ?_⟩
    · simp only [HybridRoundRobin, hne0, if_false, hsel]
    · rcases hi.nodes with ⟨hT, hready⟩ | ⟨_, hserv⟩
      · rw [← hT]
        exact (hready e hmem hu).ready_dispatch hclock hbpos
      · exact (hserv e hmem hu).serving_dispatch
    · unfold DEFAULT_TIME_QUANTUM; omega
    · show ((min DEFAULT_TIME_QUANTUM e.backUpBurstTime).toNat : Int) ≤ e.backUpBurstTime
      unfold DEFAULT_TIME_QUANTUM; omega
    · intro j x hj hx hxu
      rw [getElem?_modifyNode, if_neg hj] at hx
      exact (hothers j x hj hx hxu).elim
    · intro j x hj hx hxu
      exact (hothers j x hj hx hxu).elim
  · have hmany : 1 < CountUncompletedProcessesInQueue s := by omega
    obtain ⟨temp, e, e1m, hget, hsel0, hun, hget1, _, _, hsel⟩ := selectTask_many h hmany
    have hu := hsel0.uncompleted
    have hmem : e ∈ s.readyQueue := List.mem_iff_getElem?.mpr ⟨temp, hget⟩
    have hbpos := (h.nodes e hmem).uncompleted hu
    have hclock : 0 ≤ s.TIME_ELAPSED := by
      have a1 := (h.nodes e hmem).arrived
      have a2 := (h.nodes e hmem).arrival_nonneg
      omega
    obtain ⟨hT, hready⟩ : s.TIME_ELAPSED = sumBurst (completedRecords s) ∧
        ∀ x ∈ s.readyQueue, x.hasCompleted = false → Ready s.TIME_ELAPSED x := by
      rcases hi.nodes with hl | ⟨hone, _⟩
      · exact hl
      · omega
    have hre := hready e hmem hu
    have hmark : e1m = if temp = 0 then markStopped s.TIME_ELAPSED e else e := by
      rw [getElem?_modifyNode, hget] at hget1
      by_cases ht : temp = 0
      · rw [if_pos ht] at hget1 ⊢
        simp only [Option.map_some', Option.some.injEq] at hget1
        exact hget1.symm
      · rw [if_neg ht] at hget1 ⊢
        simp only [Option.some.injEq] at hget1
        exact hget1.symm
    have hget2 : (modifyNode (fun t => { t with processing := true }) temp
        (modifyNode (markStopped s.TIME_ELAPSED) 0 s.readyQueue))[temp]? =
        some { e1m with processing := true } := by
      rw [getElem?_modifyNode, if_pos rfl, hget1]; rfl
    have hbefore : ∀ (j : Nat) (x : fileAttribute), j ≠ temp → s.readyQueue[j]? = some x →
        x.hasCompleted = false →
        e.burstTime < x.burstTime ∨ (e.burstTime = x.burstTime ∧ temp < j) := by
      intro j x hj hx hxu
      have hxm : x ∈ s.readyQueue := List.mem_iff_getElem?.mpr ⟨j, hx⟩
      have m1 := hsel0.minimal x hxm hxu
      have f1 := hre.idle.full
      have f2 := (hready x hxm hxu).idle.full
      rcases lt_or_eq_of_le m1 with hlt | heq
      · left; omega
      · right
        have := (hsel0.first j x hx hxu heq.symm).1
        exact ⟨by omega, by omega⟩
    refine ⟨temp, e.backUpBurstTime.toNat,
      { s with
        readyQueue :=
          modifyNode (fun t => { t with processing := true }) temp
            (modifyNode (markStopped s.TIME_ELAPSED) 0 s.readyQueue) },
      e, { e1m with processing := true }, ?_,
      (marked_inv h).flags _ processing_untouched temp, hi.full, rfl, rfl, ?_, hget, hu, hget2,
      ?_, ?_, by omega, ?_, ?_, ?_, ?_⟩
    · simp only [HybridRoundRobin, hne0, if_false, hsel]
    · show (modifyNode (fun t => { t with processing := true }) temp
        (modifyNode (markStopped s.TIME_ELAPSED) 0 s.readyQueue)).map taskOf = _
      exact (map_modifyNode taskOf (fun t => { t with processing := true })
        (modifyNode (markStopped s.TIME_ELAPSED) 0 s.readyQueue) temp (fun _ _ => rfl)).trans
        (map_modifyNode taskOf (markStopped s.TIME_ELAPSED) s.readyQueue 0
          (fun _ _ => markStopped_task _ _))
    · show taskOf e1m = taskOf e
      rw [hmark]
      split_ifs
      · exact markStopped_task _ _
      · rfl
    · rw [← hT, hmark]
      by_cases ht : temp = 0
      · rw [if_pos ht]
        exact hre.mark_dispatch hclock hbpos
      · rw [if_neg ht]
        exact hre.ready_dispatch hclock hbpos
    · show (e.backUpBurstTime.toNat : Int) ≤ e1m.backUpBurstTime
      rw [hun.backUpBurstTime]
      omega
    · intro hlt
      exfalso
      have : (e.backUpBurstTime.toNat : Int) < e1m.backUpBurstTime := hlt
      rw [hun.backUpBurstTime] at this
      omega
    · intro j x hj hx hxu
      rw [getElem?_modifyNode, if_neg hj, getElem?_modifyNode] at hx
      by_cases hj0 : j = 0
      · rw [if_pos hj0] at hx
        cases hy : s.readyQueue[j]? with
        | none => rw [hy] at hx; cases hx
        | some y =>
          rw [hy] at hx
          simp only [Option.map_some', Option.some.injEq] at hx
          subst hx
          have hyu : y.hasCompleted = false := by
            have := (markStopped_untouched s.TIME_ELAPSED y).hasCompleted
            rw [this] at hxu; exact hxu
          have hym : y ∈ s.readyQueue := List.mem_iff_getElem?.mpr ⟨j, hy⟩
          have hb := hbefore j y hj hy hyu
          have hep := hre.idle.full
          have hbig : 1 < y.burstTime := by
            rcases hb with hb | ⟨_, hb⟩
            · omega
            · omega
          exact (hready y hym hyu).mark_idle hbig
      · rw [if_neg hj0] at hx
        exact (hready x (List.mem_iff_getElem?.mpr ⟨j, hx⟩) hxu).idle
    · intro j x hj hx hxu
      have hb := hbefore j x hj hx hxu
      have i1 := (shape_at h0 hi.shape hget).1
      have i2 := (shape_at h0 hi.shape hx).1
      rcases hb with hb | ⟨hb1, hb2⟩
      · exact Or.inl hb
      · refine Or.inr ⟨hb1, ?_⟩
        show e.fileID < x.fileID
        rw [i1, i2]
        exact_mod_cast hb2

theorem sumBurst_append (l : List fileAttribute) (r : fileAttribute) :
    sumBurst (l ++ [r]) = sumBurst l + r.burstTime := by
  simp [sumBurst]

theorem chained_append (l : List fileAttribute) (r : fileAttribute) :
    ∀ c : Int, Chained c l → DoneAt (c + sumBurst l) r → Chained c (l ++ [r]) := by
  induction l with
  | nil =>
    intro c _ hd
    have h0 : c + sumBurst [] = c := by simp [sumBurst]
    rw [h0] at hd
    exact ⟨hd.waitingTime, hd.responseTime, hd.turnAroundTime, trivial⟩
  | cons a rest ih =>
    intro c hc hd
    obtain ⟨h1, h2, h3, h4⟩ := hc
    refine ⟨h1, h2, h3, ih (c + a.burstTime) h4 ?_⟩
    have : c + a.burstTime + sumBurst rest = c + sumBurst (a :: rest) := by
      simp [sumBurst]; ring
    rw [this]
    exact hd

/-- An uncompleted node after a step was at the same position, uncompleted
and belonging to the same task, before the step. -/
theorem origin_of_frame {s s1 : SimState} (hf : Frame s s1)
    (hl : s1.readyQueue.length = s.readyQueue.length) {j : Nat} {x : fileAttribute}
    (hx : s1.readyQueue[j]? = some x) (hu : x.hasCompleted = false) :
    ∃ y, s.readyQueue[j]? = some y ∧ y.hasCompleted = false ∧ taskOf x = taskOf y := by
  have hj : j < s.readyQueue.length := by
    rw [← hl]
    by_contra hge
    rw [List.getElem?_eq_none (by omega)] at hx
    cases hx
  have hy : s.readyQueue[j]? = some (s.readyQueue.get ⟨j, hj⟩) := by
    rw [List.getElem?_eq_getElem hj]; rfl
  obtain ⟨y1, g1, g2⟩ := hf.queue j _ hy
  rw [hx] at g1
  cases g1
  refine ⟨_, hy, ?_, ?_⟩
  · cases hc : (s.readyQueue.get ⟨j, hj⟩).hasCompleted with
    | false => rfl
    | true =>
      have := (g2.completed hc).1
      rw [hu] at this
      cases this
  · unfold taskOf
    rw [g2.fileID, g2.arrivalTime, g2.burstTime]

/-- One round of the driver loop keeps the shortest-job-first invariant. -/
theorem sjf_round {input : List (Int × Int)} (h0 : ZeroArrival input) {s : SimState}
    (hi : SjfInv input s) (hne : s.processesCompleted ≠ numberOfFiles s) :
    ∃ s3, driverRound s = some s3 ∧ SjfInv input s3 := by
  have hw := h0.wellFormed
  have h := hi.inv
  obtain ⟨temp, k, s1, e, e1, hrr, i1, f1, t1, r1, m1, hget, hu, hget1, htask1, hserv, hk1, hk2,
    hk3, hoth, hbef⟩ := sjf_select h0 hi hne
  have hmem : e ∈ s.readyQueue := List.mem_iff_getElem?.mpr ⟨temp, hget⟩
  have hshape1 : s1.readyQueue.map taskOf = input.enum.map taskOfInput := m1.trans hi.shape
  rw [← t1] at hserv
  have harr1 := (shape_at h0 hshape1 hget1).2.1
  obtain ⟨e2, p1, p2, p3, p4, p5, p6, p7⟩ :=
    serve_run hw temp k s1 e1 _ i1 f1 hget1 hserv harr1 hk2 hoth
  obtain ⟨i2, _, t2⟩ := tickLoop_spec hw temp k s1 e1 i1 hget1 hserv.uncompleted hk2
  have hshape2 : (tickLoop temp k s1).readyQueue.map taskOf = input.enum.map taskOfInput :=
    p4.trans hshape1
  have hround : driverRound s = some (UpdateWaitingTimes (tickLoop temp k s1)) := by
    unfold driverRound
    rw [populate_full hi.full, hrr]
  obtain ⟨u1, u2, u3, u4, u5, u6⟩ := UpdateWaitingTimes_fields (tickLoop temp k s1)
  have hitems : (tickLoop temp k s1).ITEMS_IN_QUEUE ≠ 0 := by
    have a1 := i2.items
    have a2 : temp < (tickLoop temp k s1).readyQueue.length := by
      by_contra hge
      rw [List.getElem?_eq_none (by omega)] at p1
      cases p1
    omega
  have hq3 : (UpdateWaitingTimes (tickLoop temp k s1)).readyQueue =
      (tickLoop temp k s1).readyQueue.map
        (updateWaitingNode (tickLoop temp k s1).TIME_ELAPSED) := by
    unfold UpdateWaitingTimes
    rw [if_neg hitems]
  have hshape3 : (UpdateWaitingTimes (tickLoop temp k s1)).readyQueue.map taskOf =
      input.enum.map taskOfInput := by
    rw [hq3, List.map_map]
    have : (taskOf ∘ updateWaitingNode (tickLoop temp k s1).TIME_ELAPSED) = taskOf :=
      funext (fun x => updateWaitingNode_task _ x)
    rw [this]
    exact hshape2
  have hrec3 : completedRecords (UpdateWaitingTimes (tickLoop temp k s1)) =
      completedRecords (tickLoop temp k s1) := by
    unfold completedRecords
    rw [u4, u6]
  have hfull3 : Full (UpdateWaitingTimes (tickLoop temp k s1)) := by
    intro t ht
    rw [u3] at ht
    exact p3 t ht
  have hframe : Frame s (UpdateWaitingTimes (tickLoop temp k s1)) :=
    (Frame.of_step hw h (Step.round _ _ hrr)).frame_trans
      (Frame.of_step hw i2 (Step.wait _))
  have hlen : (UpdateWaitingTimes (tickLoop temp k s1)).readyQueue.length =
      s.readyQueue.length := by
    rw [shape_length hshape3, shape_length hi.shape]
  have hget3 : (UpdateWaitingTimes (tickLoop temp k s1)).readyQueue[temp]? =
      some (updateWaitingNode (tickLoop temp k s1).TIME_ELAPSED e2) := by
    rw [hq3, List.getElem?_map, p1]; rfl
  have htask2 : taskOf e2 = taskOf e := p2.trans htask1
  have hbt2 : e2.burstTime = e1.burstTime := by
    have := congrArg (fun p => p.2.2) p2
    simpa only [taskOf] using this
  refine ⟨_, hround, ?_⟩
  by_cases hkc : (k : Int) = e1.backUpBurstTime
  · obtain ⟨d1, rec2, tm⟩ := p7 hkc
    have hget3c : (UpdateWaitingTimes (tickLoop temp k s1)).readyQueue[temp]? = some e2 := by
      rw [hget3, updateWaitingNode_completed _ _ d1.completed]
    have hR : completedRecords (UpdateWaitingTimes (tickLoop temp k s1)) =
        completedRecords s ++ [e2] := by
      rw [hrec3, rec2, r1]
    have hclock3 : (UpdateWaitingTimes (tickLoop temp k s1)).TIME_ELAPSED =
        sumBurst (completedRecords s ++ [e2]) := by
      rw [u1, t2, sumBurst_append, hbt2]
      omega
    refine ⟨i2.update, hfull3, hshape3, ?_, ?_, ?_, ?_, Or.inl ⟨?_, ?_⟩⟩
    · rw [hR]
      refine chained_append _ _ 0 hi.chain ?_
      have : (0 : Int) + sumBurst (completedRecords s) = sumBurst (completedRecords s) := by
        ring
      rw [this]
      exact d1
    · rw [hR]
      refine List.pairwise_append.mpr ⟨hi.sorted, List.pairwise_singleton _ _, ?_⟩
      intro a ha b hb
      rw [List.mem_singleton.mp hb, htask2]
      exact hi.below a ha e hmem hu
    · rw [hR]
      intro r hr x hx hxu
      obtain ⟨j, hj⟩ := List.mem_iff_getElem?.mp hx
      obtain ⟨y, y1, y2, y3⟩ := origin_of_frame hframe hlen hj hxu
      rw [y3]
      rcases List.mem_append.mp hr with hr | hr
      · exact hi.below r hr y (List.mem_iff_getElem?.mpr ⟨j, y1⟩) y2
      · rw [List.mem_singleton.mp hr, htask2]
        have hjt : j ≠ temp := by
          intro hjt
          rw [hjt, hget3c] at hj
          cases hj
          rw [d1.completed] at hxu
          cases hxu
        exact hbef j y hjt y1 y2
    · rw [hR]
      intro r hr
      rcases List.mem_append.mp hr with hr | hr
      · exact hi.known r hr
      · rw [List.mem_singleton.mp hr, htask2]
        exact (shape_at h0 hi.shape hget).2.2.2
    · rw [hR]; exact hclock3
    · intro x hx hxu
      obtain ⟨j, hj⟩ := List.mem_iff_getElem?.mp hx
      rw [hq3, List.getElem?_map] at hj
      cases hy : (tickLoop temp k s1).readyQueue[j]? with
      | none => rw [hy] at hj; cases hj
      | some y =>
        rw [hy] at hj
        simp only [Option.map_some', Option.some.injEq] at hj
        subst hj
        rw [updateWaitingNode_hasCompleted] at hxu
        have hjt : j ≠ temp := by
          intro hjt
          rw [hjt, p1] at hy
          cases hy
          rw [d1.completed] at hxu
          cases hxu
        rw [u1]
        exact (p5 j y hjt hy hxu).ready _ (shape_at h0 hshape2 hy).2.1
  · have hlt : (k : Int) < e1.backUpBurstTime := by omega
    obtain ⟨sv, rec2⟩ := p6 hlt
    have hone := hk3 hlt
    have hget3c : (UpdateWaitingTimes (tickLoop temp k s1)).readyQueue[temp]? = some e2 := by
      rw [hget3, updateWaitingNode_processing _ _ sv.processing]
    have hR : completedRecords (UpdateWaitingTimes (tickLoop temp k s1)) =
        completedRecords s := by
      rw [hrec3, rec2, r1]
    have honly : ∀ (j : Nat) (x : fileAttribute),
        (UpdateWaitingTimes (tickLoop temp k s1)).readyQueue[j]? = some x →
        x.hasCompleted = false → j = temp := by
      intro j x hj hxu
      obtain ⟨y, y1, y2, _⟩ := origin_of_frame hframe hlen hj hxu
      exact uncompleted_unique _ hone j temp y e y1 hget y2 hu
    refine ⟨i2.update, hfull3, hshape3, ?_, ?_, ?_, ?_, Or.inr ⟨?_, ?_⟩⟩
    · rw [hR]; exact hi.chain
    · rw [hR]; exact hi.sorted
    · rw [hR]
      intro r hr x hx hxu
      obtain ⟨j, hj⟩ := List.mem_iff_getElem?.mp hx
      obtain ⟨y, y1, y2, y3⟩ := origin_of_frame hframe hlen hj hxu
      rw [y3]
      exact hi.below r hr y (List.mem_iff_getElem?.mpr ⟨j, y1⟩) y2
    · rw [hR]; exact hi.known
    · exact uncompletedCount_one hget3c sv.uncompleted honly
    · intro x hx hxu
      obtain ⟨j, hj⟩ := List.mem_iff_getElem?.mp hx
      have hjt := honly j x hj hxu
      rw [hjt, hget3c] at hj
      cases hj
      rw [hR, u1, t2]
      exact sv

/-! ### The run as a whole -/

/-- After the first admission every task is in the queue, idle, and no record
is written. -/
theorem sjf_start {input : List (Int × Int)} (h0 : ZeroArrival input) :
    SjfInv input (populateQueueIfArrive (initState input)) := by
  have hw := h0.wellFormed
  have hinv := (Inv.inv_init input).inv_populate hw
  have hp := populate_init h0
  have hq : (populateQueueIfArrive (initState input)).readyQueue =
      (initFileTable input).map (admitEntry 0) := by rw [hp]
  have ht : (populateQueueIfArrive (initState input)).fileTable =
      (initFileTable input).map (admitEntry 0) := by rw [hp]
  have hc : (populateQueueIfArrive (initState input)).TIME_ELAPSED = 0 := by rw [hp]; rfl
  have hr : completedRecords (populateQueueIfArrive (initState input)) = [] := by
    rw [hp]; rfl
  refine ⟨hinv, ?_, ?_, ?_, ?_, ?_, ?_, Or.inl ⟨?_, ?_⟩⟩
  · intro t hmem
    rw [ht] at hmem
    obtain ⟨t0, _, rfl⟩ := List.mem_map.mp hmem
    rfl
  · rw [hq]
    unfold initFileTable
    rw [List.map_map, List.map_map]
    rfl
  · rw [hr]; trivial
  · rw [hr]; exact List.Pairwise.nil
  · rw [hr]; intro r hmem; cases hmem
  · rw [hr]; intro r hmem; cases hmem
  · rw [hr, hc]; rfl
  · intro x hx _
    rw [hq] at hx
    obtain ⟨t0, ht0, rfl⟩ := List.mem_map.mp hx
    unfold initFileTable at ht0
    obtain ⟨p, _, rfl⟩ := List.mem_map.mp ht0
    rw [hc]
    exact ⟨⟨rfl, rfl, rfl, rfl, Or.inl ⟨rfl, rfl, rfl⟩⟩, fun _ => rfl⟩

/-- The driver loop keeps the shortest-job-first invariant up to its exit. -/
theorem sjf_loop {input : List (Int × Int)} (h0 : ZeroArrival input) :
    ∀ (fuel : Nat) (s s1 : SimState), SjfInv input s → driverLoop fuel s = some s1 →
      SjfInv input s1 ∧ s1.processesCompleted = numberOfFiles s1 := by
  intro fuel
  induction fuel with
  | zero =>
    intro s s1 hi hd
    rw [driverLoop] at hd
    split_ifs at hd with hc
    cases hd
    exact ⟨hi, hc⟩
  | succ f ih =>
    intro s s1 hi hd
    rw [driverLoop] at hd
    split_ifs at hd with hc
    · cases hd
      exact ⟨hi, hc⟩
    · obtain ⟨s3, hr, hi3⟩ := sjf_round h0 hi hc
      rw [hr] at hd
      exact ih s3 s1 hi3 hd

/-- Every state the driver loop returns from the initial state satisfies the
shortest-job-first invariant. -/
theorem sjf_final {input : List (Int × Int)} (h0 : ZeroArrival input) (fuel : Nat)
    (s : SimState) (hd : driverLoop fuel (initState input) = some s) :
    SjfInv input s ∧ s.processesCompleted = numberOfFiles s := by
  have hstart := sjf_start h0
  have hexit : (initState input).processesCompleted = numberOfFiles (initState input) →
      populateQueueIfArrive (initState input) = initState input := by
    intro hc
    apply populate_full
    intro t ht
    have hlen : (initState input).fileTable.length = 0 := by
      unfold numberOfFiles at hc
      have : (initState input).processesCompleted = 0 := rfl
      omega
    rw [List.length_eq_zero.mp hlen] at ht
    cases ht
  have hround : driverRound (initState input) =
      driverRound (populateQueueIfArrive (initState input)) := by
    unfold driverRound
    rw [populate_full hstart.full]
  cases fuel with
  | zero =>
    rw [driverLoop] at hd
    split_ifs at hd with hc
    cases hd
    rw [hexit hc] at hstart
    exact ⟨hstart, hc⟩
  | succ f =>
    rw [driverLoop] at hd
    split_ifs at hd with hc
    · cases hd
      rw [hexit hc] at hstart
      exact ⟨hstart, hc⟩
    · have hc1 : (populateQueueIfArrive (initState input)).processesCompleted ≠
          numberOfFiles (populateQueueIfArrive (initState input)) := by
        rw [numberOfFiles_populate, (populate_fields _).2.2.1]
        exact hc
      obtain ⟨s3, hr, hi3⟩ := sjf_round h0 hstart hc1
      rw [hround, hr] at hd
      exact sjf_loop h0 f s3 s hi3 hd

/-! ### Shortest job first as a sorted order -/

theorem Before.irrefl (a : Int × Int × Int) : ¬ Before a a := by
  intro h
  rcases h with h | ⟨_, h⟩
  · omega
  · omega

theorem Before.asymm {a b : Int × Int × Int} (h1 : Before a b) (h2 : Before b a) : False := by
  rcases h1 with h1 | ⟨h1, h3⟩
  · rcases h2 with h2 | ⟨h2, _⟩
    · omega
    · omega
  · rcases h2 with h2 | ⟨_, h4⟩
    · omega
    · omega

/-- Inserting a task whose id is smaller than all ids of a list in
shortest-job-first order, at the place insertion sort by burst time gives it,
keeps the list in shortest-job-first order. -/
theorem orderedInsert_before (a : Nat × Int × Int) :
    ∀ l : List (Nat × Int × Int),
      l.Pairwise (fun x y => Before (taskOfInput x) (taskOfInput y)) →
      (∀ b ∈ l, a.1 < b.1) →
      (l.orderedInsert (fun x y => x.2.2 ≤ y.2.2) a).Pairwise
        (fun x y => Before (taskOfInput x) (taskOfInput y)) := by
  intro l
  induction l with
  | nil => intro _ _; simp
  | cons b rest ih =>
    intro hp hlt
    obtain ⟨hb, hrest⟩ := List.pairwise_cons.mp hp
    have hab : a.1 < b.1 := hlt b (List.mem_cons_self _ _)
    by_cases hle : a.2.2 ≤ b.2.2
    · have hins : (b :: rest).orderedInsert (fun x y => x.2.2 ≤ y.2.2) a = a :: b :: rest := by
        simp only [List.orderedInsert, hle, if_true]
      rw [hins]
      refine List.pairwise_cons.mpr ⟨?_, hp⟩
      intro x hx
      rcases List.mem_cons.mp hx with hx | hx
      · rw [hx]
        rcases lt_or_eq_of_le hle with h1 | h1
        · exact Or.inl h1
        · exact Or.inr ⟨h1, by show (a.1 : Int) < (b.1 : Int); exact_mod_cast hab⟩
      · have hbx := hb x hx
        have hax : a.1 < x.1 := hlt x (List.mem_cons_of_mem _ hx)
        have hbx2 : b.2.2 ≤ x.2.2 := by
          rcases hbx with h1 | ⟨h1, _⟩
          · exact le_of_lt h1
          · exact le_of_eq h1
        rcases lt_or_eq_of_le (le_trans hle hbx2) with h1 | h1
        · exact Or.inl h1
        · exact Or.inr ⟨h1, by show (a.1 : Int) < (x.1 : Int); exact_mod_cast hax⟩
    · have hins : (b :: rest).orderedInsert (fun x y => x.2.2 ≤ y.2.2) a =
          b :: rest.orderedInsert (fun x y => x.2.2 ≤ y.2.2) a := by
        simp only [List.orderedInsert, hle, if_false]
      rw [hins]
      refine List.pairwise_cons.mpr ⟨?_, ih hrest (fun x hx => hlt x (List.mem_cons_of_mem _ hx))⟩
      intro x hx
      rcases (List.mem_orderedInsert _).mp hx with hx | hx
      · rw [hx]
        exact Or.inl (by
          show b.2.2 < a.2.2
          omega)
      · exact hb x hx

/-- Insertion sort by burst time of tasks listed by ascending id yields the
shortest-job-first order with FIFO ties. -/
theorem insertionSort_before :
    ∀ l : List (Nat × Int × Int), l.Pairwise (fun x y => x.1 < y.1) →
      (l.insertionSort (fun x y => x.2.2 ≤ y.2.2)).Pairwise
        (fun x y => Before (taskOfInput x) (taskOfInput y)) := by
  intro l
  induction l with
  | nil => intro _; simp
  | cons a rest ih =>
    intro hp
    obtain ⟨ha, hrest⟩ := List.pairwise_cons.mp hp
    rw [List.insertionSort]
    exact orderedInsert_before a _ (ih hrest)
      (fun b hb => ha b ((List.mem_insertionSort _).mp hb))

theorem enum_ascending (input : List (Int × Int)) :
    input.enum.Pairwise (fun x y => x.1 < y.1) := by
  have h := List.pairwise_lt_range input.length
  rw [← List.enum_map_fst input, List.pairwise_map] at h
  exact h

theorem sjfOrder_sorted (input : List (Int × Int)) :
    ((sjfOrder input).map taskOfInput).Pairwise Before := by
  rw [List.pairwise_map]
  exact insertionSort_before _ (enum_ascending input)

/-- Records in shortest-job-first order that cover every task of the table
once list the tasks in the order `sjfOrder`. -/
theorem sjfOrder_unique {input : List (Int × Int)} {l : List fileAttribute}
    (hs : l.Pairwise (fun a b => Before (taskOf a) (taskOf b)))
    (hk : ∀ r ∈ l, taskOf r ∈ input.enum.map taskOfInput) (hlen : l.length = input.length) :
    l.map taskOf = (sjfOrder input).map taskOfInput := by
  have hs1 : (l.map taskOf).Pairwise Before := List.pairwise_map.mpr hs
  have hnd : (l.map taskOf).Nodup := by
    unfold List.Nodup
    refine hs1.imp ?_
    intro a b hab heq
    rw [heq] at hab
    exact Before.irrefl b hab
  have hsub : l.map taskOf ⊆ input.enum.map taskOfInput := by
    intro x hx
    obtain ⟨r, hr, rfl⟩ := List.mem_map.mp hx
    exact hk r hr
  have hp1 : (l.map taskOf).Perm (input.enum.map taskOfInput) :=
    (List.subperm_of_subset hnd hsub).perm_of_length_le (by simp [hlen])
  have hp2 : ((sjfOrder input).map taskOfInput).Perm (input.enum.map taskOfInput) :=
    (List.perm_insertionSort _ _).map _
  haveI : IsAntisymm (Int × Int × Int) Before :=
    ⟨fun a b h1 h2 => (Before.asymm h1 h2).elim⟩
  exact List.eq_of_perm_of_sorted (hp1.trans hp2.symm) hs1 (sjfOrder_sorted input)

/-- Chained records of the tasks `l` are the records of the back-to-back
schedule of `l`. -/
theorem chained_records :
    ∀ (rs : List fileAttribute) (l : List (Nat × Int × Int)) (c : Int), Chained c rs →
      rs.map taskOf = l.map taskOfInput →
      rs.map (fun r => (r.fileID, r.waitingTime, r.turnAroundTime, r.responseTime)) =
        sjfRecords c l := by
  intro rs
  induction rs with
  | nil =>
    intro l c _ hm
    cases l with
    | nil => rfl
    | cons p rest => simp at hm
  | cons r rest ih =>
    intro l c hc hm
    cases l with
    | nil => simp at hm
    | cons p tl =>
      simp only [List.map_cons, List.cons.injEq] at hm
      obtain ⟨h1, h2, h3, h4⟩ := hc
      have hid : r.fileID = (p.1 : Int) := congrArg (fun t => t.1) hm.1
      have hb : r.burstTime = p.2.2 := congrArg (fun t => t.2.2) hm.1
      rw [hb] at h3 h4
      simp only [List.map_cons, sjfRecords, hid, h1, h2, h3]
      rw [ih tl (c + p.2.2) h4 hm.2]

/-- The burst times of records that list the tasks in the order `sjfOrder`
add up to the sum of the burst times of the table. -/
theorem sumBurst_sjf {input : List (Int × Int)} {l : List fileAttribute}
    (h : l.map taskOf = (sjfOrder input).map taskOfInput) :
    sumBurst l = (input.map (fun r => r.2)).sum := by
  have h1 : sumBurst l = ((l.map taskOf).map (fun t => t.2.2)).sum := by
    unfold sumBurst
    rw [List.map_map]
    rfl
  have hp : ((sjfOrder input).map taskOfInput).Perm (input.enum.map taskOfInput) :=
    (List.perm_insertionSort _ _).map _
  have h2 : (input.enum.map taskOfInput).map (fun t => t.2.2) = input.map (fun r => r.2) := by
    rw [List.map_map]
    have : input.map (fun r => r.2) = (input.enum.map Prod.snd).map (fun r => r.2) := by
      rw [List.enum_map_snd]
    rw [this, List.map_map]
    rfl
  rw [h1, h, (hp.map _).sum_eq, h2]

/-! ### What one call of `populateQueueIfArrive` admits -/

/-- C1 (fails on the code). On the task table `[(0, 1), (1, 7), (2, 1)]` the
second task (file id 1) is serviced from clock 1, loses the CPU to the third
task at clock 6 and resumes at clock 7 with 2 units left, so it completes at
clock 9; its record carries `turnAroundTime = 7` and `waitingTime = 0`, not
`9 - 1 = 8` and `1`. -/
theorem turnaround_misses_preemption_gap :
    (driverRounds 3 (initState [(0, 1), (1, 7), (2, 1)])).map
        (fun s => (s.TIME_ELAPSED, s.processesCompleted,
          s.readyQueue.map (fun r => [r.fileID, r.backUpBurstTime]))) =
      some (7, 2, [[0, 0], [1, 2], [2, 0]]) ∧
    (driverLoop 20 (initState [(0, 1), (1, 7), (2, 1)])).map
        (fun s => (s.TIME_ELAPSED, s.completedFileTable.map
          (fun r => [r.fileID, r.arrivalTime, r.burstTime, r.waitingTime, r.turnAroundTime]))) =
      some (9, [[0, 0, 1, 0, 1], [2, 2, 1, 4, 5], [1, 1, 7, 0, 7]]) := by
  constructor <;> decide

/-- C2. In every reachable state a completed queue node has remaining burst 0
and `turnAroundTime = burstTime + waitingTime`, and so has its record in
`completedFileTable`, which carries the same values; and every step (admission,
waiting-time update, selection, tick, whole scheduling round) leaves a
completed node at its position with these fields unchanged and every record
written so far as it is. -/
theorem completed_results_are_final (input : List (Int × Int)) (hw : WellFormed input)
    (s : SimState) (hr : Reachable input s) :
    (∀ e ∈ s.readyQueue, e.hasCompleted = true →
      e.backUpBurstTime = 0 ∧ e.turnAroundTime = e.burstTime + e.waitingTime ∧
      ∃ (k : Nat) (r : fileAttribute), (k : Int) < s.completedIndex ∧
        s.completedFileTable[k]? = some r ∧ RecordOf e r ∧
        r.backUpBurstTime = 0 ∧ r.turnAroundTime = r.burstTime + r.waitingTime) ∧
    (∀ s1, Step s s1 →
      (∀ (i : Nat) (e : fileAttribute), s.readyQueue[i]? = some e → e.hasCompleted = true →
        ∃ e1, s1.readyQueue[i]? = some e1 ∧ e1.hasCompleted = true ∧
          e1.backUpBurstTime = e.backUpBurstTime ∧ e1.turnAroundTime = e.turnAroundTime ∧
          e1.waitingTime = e.waitingTime ∧ e1.burstTime = e.burstTime) ∧
      (∀ (k : Nat) (r : fileAttribute), (k : Int) < s.completedIndex →
        s.completedFileTable[k]? = some r → s1.completedFileTable[k]? = some r)) := by
  have h := hr.inv hw
  constructor
  · intro e he hc
    obtain ⟨c1, c2⟩ := (h.nodes e he).completed hc
    obtain ⟨k, r, hk, hget, hro⟩ := h.records e he hc
    refine ⟨c1, c2, k, r, hk, hget, hro, by rw [hro.backUpBurstTime, c1], ?_⟩
    rw [hro.turnAroundTime, hro.burstTime, hro.waitingTime, c2]
  · intro s1 hs
    have hf := Frame.of_step hw h hs
    refine ⟨?_, hf.records⟩
    intro i e he hc
    obtain ⟨e1, g1, g2⟩ := hf.queue i e he
    obtain ⟨d1, d2, d3, d4, _⟩ := g2.completed hc
    exact ⟨e1, g1, d1, d2, d3, d4, g2.burstTime⟩

theorem solo_reachable : Reachable [(0, 1)] (soloDone 0 1 1) :=
  reachable_of_driverRounds 1 _ _ Reachable.init (by decide)

theorem completed_results_are_final_witness :
    WellFormed [(0, 1)] ∧ Reachable [(0, 1)] (soloDone 0 1 1) ∧
      (soloDoneNode 0 1).backUpBurstTime = 0 ∧
      (soloDoneNode 0 1).turnAroundTime =
        (soloDoneNode 0 1).burstTime + (soloDoneNode 0 1).waitingTime :=
  ⟨by decide, solo_reachable,
    ((completed_results_are_final [(0, 1)] (by decide) (soloDone 0 1 1) solo_reachable).1
      (soloDoneNode 0 1) (List.mem_singleton.mpr rfl) rfl).1,
    ((completed_results_are_final [(0, 1)] (by decide) (soloDone 0 1 1) solo_reachable).1
      (soloDoneNode 0 1) (List.mem_singleton.mpr rfl) rfl).2.1⟩

/-- C3. On a well-formed task table the driver loop returns, and in the state
it returns the file ids in `completedFileTable` are a permutation of
`0 .. N-1`, with `completedIndex = processesCompleted = N`. -/
theorem completion_order_is_permutation (input : List (Int × Int)) (hw : WellFormed input) :
    (∃ s, driverLoop (cost (initState input)) (initState input) = some s) ∧
    ∀ (fuel : Nat) (s : SimState), driverLoop fuel (initState input) = some s →
      (s.completedFileTable.map (fun e => e.fileID)).Perm
        ((List.range input.length).map (fun i : Nat => (i : Int))) ∧
      s.completedIndex = input.length ∧ s.processesCompleted = input.length := by
  constructor
  · obtain ⟨s, hs, _, _⟩ := driverLoop_terminates hw (cost (initState input)) (initState input)
      (Inv.inv_init input) (Admitted.admitted_init input hw) (le_refl _)
    exact ⟨s, hs⟩
  · intro fuel s hs
    obtain ⟨hi, hd⟩ := driverLoop_inv hw fuel (initState input) s (Inv.inv_init input) hs
    obtain ⟨_, _, hp, hci⟩ := final_state hi hd
    exact ⟨hp, hci, by rw [hi.done_eq, hci]⟩

theorem completion_order_is_permutation_witness :
    WellFormed [(0, 10), (1, 4)] ∧
      ∃ s, driverLoop (cost (initState [(0, 10), (1, 4)])) (initState [(0, 10), (1, 4)]) =
        some s :=
  ⟨by decide, (completion_order_is_permutation [(0, 10), (1, 4)] (by decide)).1⟩

/-- C4. On a well-formed task table the driver loop terminates: with a bound
of at least the sum of all burst and arrival times (`cost` of the initial
state) on the number of rounds it returns a state in which
`processesCompleted = numberOfFiles`, every task is in the queue and every
queue node is completed. -/
theorem driver_loop_terminates (input : List (Int × Int)) (hw : WellFormed input)
    (fuel : Nat) (hf : cost (initState input) ≤ fuel) :
    ∃ s, driverLoop fuel (initState input) = some s ∧
      s.processesCompleted = numberOfFiles s ∧
      s.readyQueue.length = input.length ∧
      ∀ e ∈ s.readyQueue, e.hasCompleted = true ∧ e.backUpBurstTime = 0 := by
  obtain ⟨s, hs, hi, hd⟩ := driverLoop_terminates hw fuel (initState input)
    (Inv.inv_init input) (Admitted.admitted_init input hw) hf
  obtain ⟨hlen, hall, _, _⟩ := final_state hi hd
  exact ⟨s, hs, hd, hlen, fun e he => ⟨hall e he, ((hi.nodes e he).completed (hall e he)).1⟩⟩

theorem driver_loop_terminates_witness :
    WellFormed [(0, 10), (1, 4)] ∧ cost (initState [(0, 10), (1, 4)]) ≤ 15 ∧
      ∃ s, driverLoop 15 (initState [(0, 10), (1, 4)]) = some s ∧
        s.processesCompleted = numberOfFiles s ∧
        s.readyQueue.length = [((0 : Int), (10 : Int)), (1, 4)].length ∧
        ∀ e ∈ s.readyQueue, e.hasCompleted = true ∧ e.backUpBurstTime = 0 :=
  ⟨by decide, by decide, driver_loop_terminates [(0, 10), (1, 4)] (by decide) 15 (by decide)⟩

/-- C5. In every reachable state whose queue holds more than one uncompleted
node, `getLowestRemainingBurstTime` returns the file id of an uncompleted node
of minimal remaining burst, the first in queue order and of smallest
`timeAddedToQueue` among the uncompleted nodes of that remaining burst; it
returns the same on the queue as `HybridRoundRobin` passes it, after the
bookkeeping on the head. -/
theorem lowest_remaining_burst_selected (input : List (Int × Int)) (hw : WellFormed input)
    (s : SimState) (hr : Reachable input s) (hc : 1 < uncompletedCount s.readyQueue) :
    ∃ (i : Nat) (e : fileAttribute), IsSelection s.readyQueue i e ∧
      getLowestRemainingBurstTime s.readyQueue = some e.fileID ∧
      getLowestRemainingBurstTime
        (modifyNode (markStopped s.TIME_ELAPSED) 0 s.readyQueue) = some e.fileID := by
  have h := hr.inv hw
  have hcnt : 1 < CountUncompletedProcessesInQueue s := by
    rw [count_eq h]; exact_mod_cast hc
  obtain ⟨i, e, hsel, hlow⟩ := getLowest_selection h (exists_uncompleted (by omega))
  obtain ⟨temp, x, _, _, hsel0, _, _, _, hlow0, _⟩ := selectTask_many h hcnt
  obtain ⟨_, hex⟩ := hsel.unique hsel0
  subst hex
  exact ⟨i, e, hsel, hlow, hlow0⟩

theorem lowest_remaining_burst_selected_witness :
    WellFormed [(0, 3), (0, 2)] ∧
      Reachable [(0, 3), (0, 2)] (populateQueueIfArrive (initState [(0, 3), (0, 2)])) ∧
      1 < uncompletedCount (populateQueueIfArrive (initState [(0, 3), (0, 2)])).readyQueue ∧
      ∃ (i : Nat) (e : fileAttribute),
        IsSelection (populateQueueIfArrive (initState [(0, 3), (0, 2)])).readyQueue i e ∧
        getLowestRemainingBurstTime
          (populateQueueIfArrive (initState [(0, 3), (0, 2)])).readyQueue = some e.fileID ∧
        getLowestRemainingBurstTime
          (modifyNode (markStopped (populateQueueIfArrive (initState [(0, 3), (0, 2)])).TIME_ELAPSED)
            0 (populateQueueIfArrive (initState [(0, 3), (0, 2)])).readyQueue) = some e.fileID :=
  ⟨by decide, Reachable.step _ _ Reachable.init (Step.arrive _), by decide,
    lowest_remaining_burst_selected [(0, 3), (0, 2)] (by decide) _
      (Reachable.step _ _ Reachable.init (Step.arrive _)) (by decide)⟩

/-- C6. In every reachable state whose queue holds more than one uncompleted
node, one call of `HybridRoundRobin` selects the node of
`getLowestRemainingBurstTime` and runs the `for` loop on it for exactly its
remaining burst (whatever its size): the clock grows by that amount, the node
is completed with remaining burst 0 at the end of the call, and every other
node keeps its remaining burst and completion flag. -/
theorem contended_round_runs_selected_to_completion (input : List (Int × Int))
    (hw : WellFormed input) (s : SimState) (hr : Reachable input s)
    (hc : 1 < uncompletedCount s.readyQueue) :
    ∃ (temp : Nat) (e : fileAttribute) (s0 s1 : SimState),
      IsSelection s.readyQueue temp e ∧
      selectTask DEFAULT_TIME_QUANTUM s = some (temp, e.backUpBurstTime, s0) ∧
      HybridRoundRobin DEFAULT_TIME_QUANTUM s = some s1 ∧
      s1 = tickLoop temp e.backUpBurstTime.toNat s0 ∧
      s1.TIME_ELAPSED = s.TIME_ELAPSED + e.backUpBurstTime ∧
      (∃ e1, s1.readyQueue[temp]? = some e1 ∧ e1.hasCompleted = true ∧
        e1.backUpBurstTime = 0) ∧
      ∀ (j : Nat) (x : fileAttribute), j ≠ temp → s.readyQueue[j]? = some x →
        ∃ x1, s1.readyQueue[j]? = some x1 ∧ x1.backUpBurstTime = x.backUpBurstTime ∧
          x1.hasCompleted = x.hasCompleted := by
  have h := hr.inv hw
  have hcnt : 1 < CountUncompletedProcessesInQueue s := by
    rw [count_eq h]; exact_mod_cast hc
  obtain ⟨temp, e, e1, hget, hsel0, _, _, _, _, hsel⟩ := selectTask_many h hcnt
  have hu := hsel0.uncompleted
  have hpos := (h.nodes e (List.mem_iff_getElem?.mpr ⟨temp, hget⟩)).uncompleted hu
  have hq : List.Forall₂ Untouched s.readyQueue
      (modifyNode (fun t => { t with processing := true }) temp
        (modifyNode (markStopped s.TIME_ELAPSED) 0 s.readyQueue)) :=
    forall₂_untouched_trans (forall₂_untouched_modifyNode _ (markStopped_untouched _) _ 0)
      (forall₂_untouched_modifyNode _ processing_untouched _ temp)
  obtain ⟨_, v1, c1⟩ := run_selected hw h hget hu _ hq e.backUpBurstTime (by omega) (le_refl _)
  have hne : ¬ CountUncompletedProcessesInQueue s = 0 := by omega
  refine ⟨temp, e, _, _, hsel0, hsel, ?_, rfl, c1, ?_, ?_⟩
  · simp only [HybridRoundRobin, hne, if_false, hsel]
  · obtain ⟨e2, p1, _, p3, p4⟩ := v1.node
    refine ⟨e2, p1, p4.mpr (by omega), ?_⟩
    rw [p3]; omega
  · intro j x hj hx
    obtain ⟨x1, p1, p2⟩ := v1.others j x hj hx
    exact ⟨x1, p1, p2.backUpBurstTime, p2.hasCompleted⟩

theorem contended_round_runs_selected_to_completion_witness :
    WellFormed [(0, 3), (0, 2)] ∧
      1 < uncompletedCount (populateQueueIfArrive (initState [(0, 3), (0, 2)])).readyQueue ∧
      ∃ (temp : Nat) (e : fileAttribute) (s0 s1 : SimState),
        IsSelection (populateQueueIfArrive (initState [(0, 3), (0, 2)])).readyQueue temp e ∧
        selectTask DEFAULT_TIME_QUANTUM (populateQueueIfArrive (initState [(0, 3), (0, 2)])) =
          some (temp, e.backUpBurstTime, s0) ∧
        HybridRoundRobin DEFAULT_TIME_QUANTUM
          (populateQueueIfArrive (initState [(0, 3), (0, 2)])) = some s1 ∧
        s1 = tickLoop temp e.backUpBurstTime.toNat s0 ∧
        s1.TIME_ELAPSED =
          (populateQueueIfArrive (initState [(0, 3), (0, 2)])).TIME_ELAPSED + e.backUpBurstTime ∧
        (∃ e1, s1.readyQueue[temp]? = some e1 ∧ e1.hasCompleted = true ∧
          e1.backUpBurstTime = 0) ∧
        ∀ (j : Nat) (x : fileAttribute), j ≠ temp →
          (populateQueueIfArrive (initState [(0, 3), (0, 2)])).readyQueue[j]? = some x →
          ∃ x1, s1.readyQueue[j]? = some x1 ∧ x1.backUpBurstTime = x.backUpBurstTime ∧
            x1.hasCompleted = x.hasCompleted :=
  ⟨by decide, by decide,
    contended_round_runs_selected_to_completion [(0, 3), (0, 2)] (by decide) _
      (Reachable.step _ _ Reachable.init (Step.arrive _)) (by decide)⟩

/-- C7. In every reachable state whose queue holds exactly one uncompleted
node, one call of `HybridRoundRobin` services that node for exactly
`min(5, remaining burst)` ticks: the clock grows and its remaining burst
shrinks by that amount, and no other node is serviced. For the single task
`(0, 20)` the remaining burst is 15, 10, 5, 0 at clock 5, 10, 15, 20. -/
theorem lone_task_gets_bounded_slice (input : List (Int × Int)) (hw : WellFormed input)
    (s : SimState) (hr : Reachable input s) (hc : uncompletedCount s.readyQueue = 1) :
    (∃ (temp : Nat) (e : fileAttribute) (s1 : SimState),
      s.readyQueue[temp]? = some e ∧ e.hasCompleted = false ∧
      (∀ (j : Nat) (x : fileAttribute), s.readyQueue[j]? = some x →
        x.hasCompleted = false → j = temp) ∧
      HybridRoundRobin DEFAULT_TIME_QUANTUM s = some s1 ∧
      s1.TIME_ELAPSED = s.TIME_ELAPSED + min 5 e.backUpBurstTime ∧
      (∃ e1, s1.readyQueue[temp]? = some e1 ∧
        e1.backUpBurstTime = e.backUpBurstTime - min 5 e.backUpBurstTime) ∧
      ∀ (j : Nat) (x : fileAttribute), j ≠ temp → s.readyQueue[j]? = some x →
        ∃ x1, s1.readyQueue[j]? = some x1 ∧ x1.backUpBurstTime = x.backUpBurstTime) ∧
    (List.range 5).map (fun k => (driverRounds k (initState [(0, 20)])).map
        (fun s => (s.TIME_ELAPSED, s.readyQueue.map (fun r => r.backUpBurstTime)))) =
      [some (0, []), some (5, [15]), some (10, [10]), some (15, [5]), some (20, [0])] := by
  have h := hr.inv hw
  have hcnt : CountUncompletedProcessesInQueue s = 1 := by
    rw [count_eq h]; exact_mod_cast hc
  refine ⟨?_, by decide⟩
  obtain ⟨temp, e, s1, hget, hu, hrr, _, v1, c1⟩ := HybridRoundRobin_one hw h hcnt
  have hpos := (h.nodes e (List.mem_iff_getElem?.mpr ⟨temp, hget⟩)).uncompleted hu
  have hm : ((min DEFAULT_TIME_QUANTUM e.backUpBurstTime).toNat : Int) =
      min 5 e.backUpBurstTime := by
    unfold DEFAULT_TIME_QUANTUM; omega
  refine ⟨temp, e, s1, hget, hu, ?_, hrr, c1, ?_, ?_⟩
  · intro j x hj hx
    exact uncompleted_unique _ hc j temp x e hj hget hx hu
  · obtain ⟨e2, p1, _, p3, _⟩ := v1.node
    exact ⟨e2, p1, by rw [p3, hm]⟩
  · intro j x hj hx
    obtain ⟨x1, p1, p2⟩ := v1.others j x hj hx
    exact ⟨x1, p1, p2.backUpBurstTime⟩

theorem lone_task_gets_bounded_slice_witness :
    WellFormed [(0, 20)] ∧
      uncompletedCount (populateQueueIfArrive (initState [(0, 20)])).readyQueue = 1 ∧
      (List.range 5).map (fun k => (driverRounds k (initState [(0, 20)])).map
          (fun s => (s.TIME_ELAPSED, s.readyQueue.map (fun r => r.backUpBurstTime)))) =
        [some (0, []), some (5, [15]), some (10, [10]), some (15, [5]), some (20, [0])] :=
  ⟨by decide, by decide,
    (lone_task_gets_bounded_slice [(0, 20)] (by decide) _
      (Reachable.step _ _ Reachable.init (Step.arrive _)) (by decide)).2⟩

/-- C10. In every reachable state: a queue node has `responseTime = -1`
exactly as long as it has never been serviced (remaining burst equal to burst
time), and otherwise a response time `≥ 0`; the tick that services such a node
for the first time writes `TIME_ELAPSED - arrivalTime`, which is `≥ 0`; no step
changes a response time that has been written; and the record of a completed
node in `completedFileTable` carries the node's response time. -/
theorem response_time_written_once (input : List (Int × Int)) (hw : WellFormed input)
    (s : SimState) (hr : Reachable input s) :
    (∀ e ∈ s.readyQueue,
      (e.responseTime = -1 ↔ e.backUpBurstTime = e.burstTime) ∧
      (e.responseTime ≠ -1 → 0 ≤ e.responseTime)) ∧
    (∀ (temp : Nat) (e : fileAttribute), s.readyQueue[temp]? = some e →
      e.hasCompleted = false → e.responseTime = -1 →
      ∃ e1, (tick temp s).readyQueue[temp]? = some e1 ∧
        e1.responseTime = s.TIME_ELAPSED - e.arrivalTime ∧ 0 ≤ e1.responseTime) ∧
    (∀ s1, Step s s1 → ∀ (i : Nat) (e : fileAttribute), s.readyQueue[i]? = some e →
      e.responseTime ≠ -1 → ∃ e1, s1.readyQueue[i]? = some e1 ∧
        e1.responseTime = e.responseTime) ∧
    (∀ e ∈ s.readyQueue, e.hasCompleted = true →
      ∃ (k : Nat) (r : fileAttribute), (k : Int) < s.completedIndex ∧
        s.completedFileTable[k]? = some r ∧ r.fileID = e.fileID ∧
        r.responseTime = e.responseTime ∧ 0 ≤ r.responseTime) := by
  have h := hr.inv hw
  refine ⟨?_, ?_, ?_, ?_⟩
  · intro e he
    have hn := h.nodes e he
    refine ⟨hn.response_unset, ?_⟩
    intro hne
    have := hn.response_ge
    omega
  · intro temp e hget hu hresp
    obtain ⟨e1, e2, hs, g1, g2⟩ := tick_node h hget hu
    have harr := (h.nodes e (List.mem_iff_getElem?.mpr ⟨temp, hget⟩)).arrived
    have hv : e2.responseTime = s.TIME_ELAPSED - e.arrivalTime := by
      rw [g2.responseTime, hs.responseTime, if_pos hresp]
    exact ⟨e2, g1, hv, by rw [hv]; omega⟩
  · intro s1 hs i e he hne
    obtain ⟨e1, g1, g2⟩ := (Frame.of_step hw h hs).queue i e he
    exact ⟨e1, g1, g2.response hne⟩
  · intro e he hc
    have hn := h.nodes e he
    obtain ⟨k, r, hk, hget, hro⟩ := h.records e he hc
    refine ⟨k, r, hk, hget, hro.fileID, hro.responseTime, ?_⟩
    rw [hro.responseTime]
    have h0 := (hn.completed hc).1
    have hb := hn.burst_pos
    have hge := hn.response_ge
    have hne : e.responseTime ≠ -1 := fun hx => by
      have := hn.response_unset.mp hx
      omega
    omega

theorem response_time_written_once_witness :
    WellFormed [(0, 1)] ∧ Reachable [(0, 1)] (soloDone 0 1 1) ∧
      ((soloDoneNode 0 1).responseTime = -1 ↔
        (soloDoneNode 0 1).backUpBurstTime = (soloDoneNode 0 1).burstTime) :=
  ⟨by decide, solo_reachable,
    ((response_time_written_once [(0, 1)] (by decide) (soloDone 0 1 1) solo_reachable).1
      (soloDoneNode 0 1) (List.mem_singleton.mpr rfl)).1⟩

/-- C9. `populateQueueIfArrive` is idempotent at a fixed clock: from every
state (task table, ready queue, `ITEMS_IN_QUEUE`, `TIME_ELAPSED`, whether
consistent or not) a second call in a row changes nothing. -/
theorem populateQueueIfArrive_idempotent (s : SimState) :
    populateQueueIfArrive (populateQueueIfArrive s) = populateQueueIfArrive s := by
  apply populateQueueIfArrive_eq_self
  have hn := numberOfFiles_populate s
  rcases populateLoop_settled (numberOfFiles s) s.TIME_ELAPSED s.fileTable s.readyQueue
      s.ITEMS_IN_QUEUE with h | h
  · have h2 : (populateQueueIfArrive s).ITEMS_IN_QUEUE = numberOfFiles (populateQueueIfArrive s) := by
      rw [hn]; exact h
    rw [h2]
    exact populateLoop_full _ _ _ _
  · have h3 : ∀ e ∈ (populateQueueIfArrive s).fileTable,
        ¬ admits (populateQueueIfArrive s).TIME_ELAPSED e := h
    exact populateLoop_inert _ _ _ _ _ h3

/-- C11. For the task table of a single task `(a, b)` with `a ≥ 0` and
`b > 0` the driver loop, given a bound of at least `a + b` rounds, returns with
`TIME_ELAPSED = a + b` and the task recorded with `waitingTime = 0`,
`turnAroundTime = b` and `responseTime = 0`. -/
theorem single_task_run (a b : Int) (ha : 0 ≤ a) (hb : 0 < b) (fuel : Nat)
    (hf : a + b ≤ fuel) :
    ∃ s, driverLoop fuel (initState [(a, b)]) = some s ∧ s.TIME_ELAPSED = a + b ∧
      s.processesCompleted = 1 ∧
      s.completedFileTable.map
          (fun r => (r.fileID, r.waitingTime, r.turnAroundTime, r.responseTime)) =
        [(0, 0, b, 0)] := by
  obtain ⟨d, rfl⟩ := Int.eq_ofNat_of_zero_le ha
  obtain ⟨k, rfl⟩ := Int.eq_ofNat_of_zero_le (le_of_lt hb)
  have hk : 0 < k := by exact_mod_cast hb
  have hrun := solo_driverLoop_idle k hk d fuel (d : Int) 0 (by simp) (by omega)
  refine ⟨soloDone d k (d + k), hrun, rfl, rfl, ?_⟩
  simp [soloDone, soloDoneNode]

theorem single_task_run_witness :
    (0 : Int) ≤ 0 ∧ (0 : Int) < 3 ∧ (0 : Int) + 3 ≤ (3 : Nat) ∧
      ∃ s, driverLoop 3 (initState [(0, 3)]) = some s ∧ s.TIME_ELAPSED = 0 + 3 ∧
        s.processesCompleted = 1 ∧
        s.completedFileTable.map
            (fun r => (r.fileID, r.waitingTime, r.turnAroundTime, r.responseTime)) =
          [(0, 0, 3, 0)] :=
  ⟨by decide, by decide, by decide, single_task_run 0 3 (by decide) (by decide) 3 (by decide)⟩

/-- C12 (counterexample). On the task table `[(0, 10), (1, 4)]` the driver
loop does not produce the second task with `waitingTime = 0`,
`turnAroundTime = 4` followed by the first task with `waitingTime = 5`,
`turnAroundTime = 15`, and it does not end at clock 15; after the first round
the clock is 5 and no task is completed. -/
theorem scenario_b_values_not_produced :
    (driverLoop 20 (initState [(0, 10), (1, 4)])).map
        (fun s => s.completedFileTable.map
          (fun r => [r.fileID, r.waitingTime, r.turnAroundTime])) ≠
      some [[1, 0, 4], [0, 5, 15]] ∧
    (driverLoop 20 (initState [(0, 10), (1, 4)])).map (fun s => s.TIME_ELAPSED) ≠ some 15 ∧
    (driverRounds 1 (initState [(0, 10), (1, 4)])).map
        (fun s => (s.TIME_ELAPSED, s.processesCompleted)) = some (5, 0) := by
  refine ⟨by decide, by decide, by decide⟩

/-- C12 (amended). On the task table `[(0, 10), (1, 4)]` the first task is
serviced alone for the default quantum, up to clock 5; the second task is then
selected and completed first, at clock 9, with `waitingTime = 4` and
`turnAroundTime = 8`; the first task is completed at clock 14 with
`waitingTime = 4` and `turnAroundTime = 14`. -/
theorem scenario_b_run :
    (List.range 4).map (fun k => (driverRounds k (initState [(0, 10), (1, 4)])).map
        (fun s => (s.TIME_ELAPSED, s.processesCompleted,
          s.readyQueue.map (fun r => [r.fileID, r.backUpBurstTime])))) =
      [some (0, 0, []), some (5, 0, [[0, 5], [1, 4]]), some (9, 1, [[0, 5], [1, 0]]),
        some (14, 2, [[0, 0], [1, 0]])] ∧
    (driverLoop 20 (initState [(0, 10), (1, 4)])).map
        (fun s => (s.TIME_ELAPSED, s.completedFileTable.map
          (fun r => [r.fileID, r.waitingTime, r.turnAroundTime]))) =
      some (14, [[1, 4, 8], [0, 4, 14]]) := by
  constructor <;> decide

/-- C13. In every reachable state every queue node has remaining burst `≥ 0`,
and its remaining burst is 0 exactly if its `hasCompleted` flag is set. -/
theorem remaining_burst_zero_iff_completed (input : List (Int × Int))
    (hw : WellFormed input) (s : SimState) (hr : Reachable input s) :
    ∀ e ∈ s.readyQueue,
      0 ≤ e.backUpBurstTime ∧ (e.backUpBurstTime = 0 ↔ e.hasCompleted = true) := by
  intro e he
  have hn := (hr.inv hw).nodes e he
  cases hc : e.hasCompleted with
  | true =>
    have := (hn.completed hc).1
    exact ⟨by omega, fun _ => rfl, fun _ => this⟩
  | false =>
    have := hn.uncompleted hc
    exact ⟨by omega, fun h0 => by omega, fun hx => by cases hx⟩

theorem remaining_burst_zero_iff_completed_witness :
    WellFormed [(0, 1)] ∧ Reachable [(0, 1)] (soloDone 0 1 1) ∧
      0 ≤ (soloDoneNode 0 1).backUpBurstTime ∧
      ((soloDoneNode 0 1).backUpBurstTime = 0 ↔ (soloDoneNode 0 1).hasCompleted = true) :=
  ⟨by decide, solo_reachable,
    remaining_burst_zero_iff_completed [(0, 1)] (by decide) (soloDone 0 1 1) solo_reachable
      (soloDoneNode 0 1) (List.mem_singleton.mpr rfl)⟩

/-- C14. In every reachable state every queue node has `waitingTime ≥ 0`; no
step (admission, waiting-time update, selection, tick, whole scheduling round)
lowers the waiting time of a queue node; and neither the recomputation of
`UpdateWaitingTimes` nor the write-back of a tick of service, with its
reconciliation `waitingTime += TIME_ELAPSED - timeStopped`, lowers it. -/
theorem waiting_time_never_decreases (input : List (Int × Int)) (hw : WellFormed input)
    (s : SimState) (hr : Reachable input s) :
    (∀ e ∈ s.readyQueue, 0 ≤ e.waitingTime) ∧
    (∀ s1, Step s s1 → WaitGrows s s1) ∧
    (∀ e ∈ s.readyQueue,
      e.waitingTime ≤ (updateWaitingNode s.TIME_ELAPSED e).waitingTime) ∧
    (∀ e ∈ s.readyQueue, e.hasCompleted = false →
      e.waitingTime ≤ (nodeAfterService s.TIME_ELAPSED e).waitingTime) := by
  have h := hr.inv hw
  have hwt := hr.waitInv hw
  refine ⟨fun e he => (hwt e he).nonneg, fun s1 hs => WaitGrows.grows_step hw h hwt hs, ?_, ?_⟩
  · intro e he
    exact ((NodeMove.wait e).waitOk (h.nodes e he) (hwt e he)).2
  · intro e he hu
    exact ((NodeMove.service e hu).waitOk (h.nodes e he) (hwt e he)).2

theorem waiting_time_never_decreases_witness :
    WellFormed [(0, 1)] ∧ Reachable [(0, 1)] (soloDone 0 1 1) ∧
      0 ≤ (soloDoneNode 0 1).waitingTime :=
  ⟨by decide, solo_reachable,
    (waiting_time_never_decreases [(0, 1)] (by decide) (soloDone 0 1 1) solo_reachable).1
      (soloDoneNode 0 1) (List.mem_singleton.mpr rfl)⟩

/-- C15 (fails on the code). `validate` returns 1 on the empty string, which
is not a sequence of decimal digits of positive length; in general it returns 1
exactly on the strings all of whose characters are decimal digits. -/
theorem validate_accepts_empty_string :
    validate [] = 1 ∧ validate "".toList = 1 ∧
    ∀ str : List Char, validate str = 1 ↔ ∀ c ∈ str, c.isDigit = true := by
  refine ⟨rfl, rfl, ?_⟩
  intro str
  induction str with
  | nil => simp [validate]
  | cons c rest ih =>
    simp only [validate, List.mem_cons, forall_eq_or_imp]
    cases hc : c.isDigit with
    | true => simpa using ih
    | false => simp

/-- C16 (fails on the code). On the task table `[(0, 1), (1, 7), (2, 1)]`,
at the scheduling decision of the third round (clock 6) the queue holds two
uncompleted tasks and the task serviced in the round before, file id 1, is
uncompleted with `processing = true`. The selection picks file id 2 and applies
the preemption bookkeeping to the head of the queue, the completed file id 0:
afterwards file id 1 still has `processing = true` and is not in the
pending-reconciliation state, so that two nodes have `processing = true`. -/
theorem preemption_marks_head_not_running_task :
    (driverRounds 2 (initState [(0, 1), (1, 7), (2, 1)])).map
        (fun s => ((populateQueueIfArrive s).TIME_ELAPSED,
          CountUncompletedProcessesInQueue (populateQueueIfArrive s),
          (populateQueueIfArrive s).readyQueue.map
            (fun r => (r.fileID, r.hasCompleted, r.processing)))) =
      some (6, 2, [(0, true, false), (1, false, true), (2, false, false)]) ∧
    (driverRounds 2 (initState [(0, 1), (1, 7), (2, 1)])).bind
        (fun s => (selectTask DEFAULT_TIME_QUANTUM (populateQueueIfArrive s)).map
          (fun r => (r.1, r.2.1))) = some (2, 1) ∧
    (driverRounds 2 (initState [(0, 1), (1, 7), (2, 1)])).bind
        (fun s => (selectTask DEFAULT_TIME_QUANTUM (populateQueueIfArrive s)).map
          (fun r => r.2.2.readyQueue.map (fun e => (e.fileID, e.processing)))) =
      some [(0, false), (1, true), (2, true)] ∧
    (driverRounds 2 (initState [(0, 1), (1, 7), (2, 1)])).bind
        (fun s => (selectTask DEFAULT_TIME_QUANTUM (populateQueueIfArrive s)).map
          (fun r => r.2.2.readyQueue.map (fun e => (e.startedButNotComp, e.timeStopped)))) =
      some [(true, 6), (false, 0), (false, 0)] := by
  refine ⟨by decide, by decide, by decide, by decide⟩

/-- C17. At every scheduling decision of the driver loop on a well-formed
task table (the state after `populateQueueIfArrive` at the head of any round)
every queue node has `timeAddedToQueue = arrivalTime`, and every task with
`arrivalTime ≤ TIME_ELAPSED` is flagged as in the queue and has a node in it. -/
theorem arrivals_admitted_on_time (input : List (Int × Int)) (hw : WellFormed input)
    (k : Nat) (s : SimState) (hk : driverRounds k (initState input) = some s) :
    (∀ e ∈ (populateQueueIfArrive s).readyQueue, e.timeAddedToQueue = e.arrivalTime) ∧
    (∀ t ∈ (populateQueueIfArrive s).fileTable,
      t.arrivalTime ≤ (populateQueueIfArrive s).TIME_ELAPSED →
      t.inQueue = true ∧ ∃ e ∈ (populateQueueIfArrive s).readyQueue, e.fileID = t.fileID) := by
  obtain ⟨h, ha⟩ := driverRounds_admitted hw k (initState input) s (Inv.inv_init input)
    (Admitted.admitted_init input hw) hk
  have h0 := h.inv_populate hw
  have a0 := Admitted.admitted_populate hw h ha
  refine ⟨fun e he => (h0.nodes e he).added, ?_⟩
  intro t ht hle
  have hq := a0 t ht hle
  refine ⟨hq, ?_⟩
  have hmem : t.fileID ∈ ((populateQueueIfArrive s).fileTable.filter (fun e => e.inQueue)).map
      (fun e => e.fileID) :=
    List.mem_map_of_mem _ (List.mem_filter.mpr ⟨ht, hq⟩)
  rw [← h0.ids.mem_iff] at hmem
  obtain ⟨e, he, hef⟩ := List.mem_map.mp hmem
  exact ⟨e, he, hef⟩

theorem arrivals_admitted_on_time_witness :
    WellFormed [(0, 1)] ∧ driverRounds 1 (initState [(0, 1)]) = some (soloDone 0 1 1) ∧
      ∀ e ∈ (populateQueueIfArrive (soloDone 0 1 1)).readyQueue,
        e.timeAddedToQueue = e.arrivalTime :=
  ⟨by decide, by decide,
    (arrivals_admitted_on_time [(0, 1)] (by decide) 1 (soloDone 0 1 1) (by decide)).1⟩

/-- C18. In every reachable state the file ids of the queue nodes are pairwise
distinct, `ITEMS_IN_QUEUE` is the number of queue nodes, every step leaves
every node at its position (same file id there afterwards), and the nodes are
in admission order: arrival times do not decrease from head to tail, and nodes
of equal arrival time are in ascending file id. -/
theorem queue_keeps_admission_order (input : List (Int × Int)) (hw : WellFormed input)
    (s : SimState) (hr : Reachable input s) :
    (s.readyQueue.map (fun e => e.fileID)).Nodup ∧
    s.ITEMS_IN_QUEUE = s.readyQueue.length ∧
    (∀ s1, Step s s1 → ∀ (i : Nat) (e : fileAttribute), s.readyQueue[i]? = some e →
      ∃ e1, s1.readyQueue[i]? = some e1 ∧ e1.fileID = e.fileID) ∧
    (s.readyQueue.map (fun e => e.arrivalTime)).Pairwise (fun a b => a ≤ b) ∧
    AdmissionOrdered s.readyQueue := by
  have h := hr.inv hw
  refine ⟨queue_ids_nodup h, h.items, ?_, h.sorted, (hr.order hw).1⟩
  intro s1 hs i e he
  obtain ⟨e1, g1, g2⟩ := (Frame.of_step hw h hs).queue i e he
  exact ⟨e1, g1, g2.fileID⟩

theorem queue_keeps_admission_order_witness :
    WellFormed [(0, 3), (0, 2)] ∧
      Reachable [(0, 3), (0, 2)] (populateQueueIfArrive (initState [(0, 3), (0, 2)])) ∧
      AdmissionOrdered (populateQueueIfArrive (initState [(0, 3), (0, 2)])).readyQueue :=
  ⟨by decide, Reachable.step _ _ Reachable.init (Step.arrive _),
    (queue_keeps_admission_order [(0, 3), (0, 2)] (by decide) _
      (Reachable.step _ _ Reachable.init (Step.arrive _))).2.2.2.2⟩

/-- C19. In every reachable state whose queue holds an uncompleted node, one
call of `HybridRoundRobin` advances the clock by some `k ≥ 1`, lowers the
remaining burst of one node by `k` and leaves the remaining burst of every
other node unchanged; no step lowers the clock, and a tick of the `for` loop
advances it by exactly 1. -/
theorem round_services_exactly_one_task (input : List (Int × Int)) (hw : WellFormed input)
    (s : SimState) (hr : Reachable input s) (hc : 0 < uncompletedCount s.readyQueue) :
    (∃ (temp : Nat) (e : fileAttribute) (s1 : SimState) (k : Nat),
      s.readyQueue[temp]? = some e ∧ e.hasCompleted = false ∧
      HybridRoundRobin DEFAULT_TIME_QUANTUM s = some s1 ∧ 1 ≤ k ∧
      s1.TIME_ELAPSED = s.TIME_ELAPSED + k ∧
      (∃ e1, s1.readyQueue[temp]? = some e1 ∧
        e1.backUpBurstTime = e.backUpBurstTime - k) ∧
      ∀ (j : Nat) (x : fileAttribute), j ≠ temp → s.readyQueue[j]? = some x →
        ∃ x1, s1.readyQueue[j]? = some x1 ∧ x1.backUpBurstTime = x.backUpBurstTime) ∧
    (∀ s1, Step s s1 → s.TIME_ELAPSED ≤ s1.TIME_ELAPSED) ∧
    (∀ (temp : Nat) (e : fileAttribute), s.readyQueue[temp]? = some e →
      e.hasCompleted = false → (tick temp s).TIME_ELAPSED = s.TIME_ELAPSED + 1) := by
  have h := hr.inv hw
  have hcnt := count_eq h
  refine ⟨?_, fun s1 hs => (Frame.of_step hw h hs).clock,
    fun temp e hget hu => (tick_spec hw h hget hu).2.2⟩
  by_cases c1 : CountUncompletedProcessesInQueue s = 1
  · obtain ⟨temp, e, s1, hget, hu, hrr, _, v1, t1⟩ := HybridRoundRobin_one hw h c1
    have hpos := (h.nodes e (List.mem_iff_getElem?.mpr ⟨temp, hget⟩)).uncompleted hu
    have hm : 0 < min DEFAULT_TIME_QUANTUM e.backUpBurstTime := by
      unfold DEFAULT_TIME_QUANTUM; omega
    refine ⟨temp, e, s1, (min DEFAULT_TIME_QUANTUM e.backUpBurstTime).toNat, hget, hu, hrr,
      by omega, by rw [t1]; omega, ?_, ?_⟩
    · obtain ⟨e2, p1, _, p3, _⟩ := v1.node
      exact ⟨e2, p1, p3⟩
    · intro j x hj hx
      obtain ⟨x1, p1, p2⟩ := v1.others j x hj hx
      exact ⟨x1, p1, p2.backUpBurstTime⟩
  · obtain ⟨temp, e, s1, hsel, _, hrr, _, v1, t1⟩ := HybridRoundRobin_many hw h (by omega)
    have hpos := (h.nodes e (List.mem_iff_getElem?.mpr ⟨temp, hsel.at_pos⟩)).uncompleted
      hsel.uncompleted
    refine ⟨temp, e, s1, e.backUpBurstTime.toNat, hsel.at_pos, hsel.uncompleted, hrr,
      by omega, by rw [t1]; omega, ?_, ?_⟩
    · obtain ⟨e2, p1, _, p3, _⟩ := v1.node
      exact ⟨e2, p1, p3⟩
    · intro j x hj hx
      obtain ⟨x1, p1, p2⟩ := v1.others j x hj hx
      exact ⟨x1, p1, p2.backUpBurstTime⟩

theorem round_services_exactly_one_task_witness :
    WellFormed [(0, 3), (0, 2)] ∧
      0 < uncompletedCount (populateQueueIfArrive (initState [(0, 3), (0, 2)])).readyQueue ∧
      ∀ s1, Step (populateQueueIfArrive (initState [(0, 3), (0, 2)])) s1 →
        (populateQueueIfArrive (initState [(0, 3), (0, 2)])).TIME_ELAPSED ≤ s1.TIME_ELAPSED :=
  ⟨by decide, by decide,
    (round_services_exactly_one_task [(0, 3), (0, 2)] (by decide) _
      (Reachable.step _ _ Reachable.init (Step.arrive _)) (by decide)).2.1⟩

/-- C20. In every state whose queue holds no uncompleted node (empty, or all
nodes completed) one call of `HybridRoundRobin` returns the state with
`TIME_ELAPSED` increased by 1 and nothing else changed. -/
theorem idle_round_only_advances_clock (TIME_QUANTUM : Int) (s : SimState)
    (h : ∀ e ∈ s.readyQueue, e.hasCompleted = true) :
    HybridRoundRobin TIME_QUANTUM s = some { s with TIME_ELAPSED := s.TIME_ELAPSED + 1 } := by
  apply HybridRoundRobin_idle
  unfold CountUncompletedProcessesInQueue
  split_ifs
  · rfl
  · have : s.readyQueue.filter (fun e => decide (e.hasCompleted = false)) = [] := by
      rw [List.filter_eq_nil_iff]
      intro e he
      simp [h e he]
    rw [this]; rfl

theorem idle_round_only_advances_clock_witness :
    (∀ e ∈ (soloDone 0 1 1).readyQueue, e.hasCompleted = true) ∧
      HybridRoundRobin 5 (soloDone 0 1 1) =
        some { soloDone 0 1 1 with TIME_ELAPSED := (soloDone 0 1 1).TIME_ELAPSED + 1 } :=
  ⟨by decide, idle_round_only_advances_clock 5 (soloDone 0 1 1) (by decide)⟩

/-- C21. On a task table in which every task arrives at clock 0 and has a
positive burst time the driver loop returns, and in every state it returns the
completion records list the file ids in the order of the stable sort of the
tasks by burst time, each record with `waitingTime` and `responseTime` equal
to the sum of the burst times of the records before it and `turnAroundTime`
equal to that sum plus its own burst time, the clock at which it completes:
the records of non-preemptive shortest job first with FIFO ties. The clock
then stands at the sum of all burst times, the turnaround time of the task
completed last. -/
theorem zero_arrival_run_is_sjf (input : List (Int × Int)) (h0 : ZeroArrival input) :
    (∃ s, driverLoop (cost (initState input)) (initState input) = some s) ∧
    ∀ (fuel : Nat) (s : SimState), driverLoop fuel (initState input) = some s →
      s.completedFileTable.map (fun r => r.fileID) =
        (sjfOrder input).map (fun p => (p.1 : Int)) ∧
      s.completedFileTable.map
          (fun r => (r.fileID, r.waitingTime, r.turnAroundTime, r.responseTime)) =
        sjfRecords 0 (sjfOrder input) ∧
      s.TIME_ELAPSED = (input.map (fun r => r.2)).sum := by
  have hw := h0.wellFormed
  constructor
  · obtain ⟨s1, h1, _⟩ := driverLoop_terminates hw (cost (initState input)) (initState input)
      (Inv.inv_init input) (Admitted.admitted_init input hw) (le_refl _)
    exact ⟨s1, h1⟩
  · intro fuel s hd
    obtain ⟨hi, hdone⟩ := sjf_final h0 fuel s hd
    obtain ⟨_, hall, _, hci⟩ := final_state hi.inv hdone
    have hlen := hi.inv.records_len
    have hR : completedRecords s = s.completedFileTable := by
      unfold completedRecords
      apply List.take_of_length_le
      omega
    have hsorted := hi.sorted
    have hknown := hi.known
    have hchain := hi.chain
    rw [hR] at hsorted hknown hchain
    have huniq := sjfOrder_unique hsorted hknown hlen
    refine ⟨?_, chained_records _ _ 0 hchain huniq, ?_⟩
    · have := congrArg (List.map (fun t : Int × Int × Int => t.1)) huniq
      rw [List.map_map, List.map_map] at this
      exact this
    · have hclock : s.TIME_ELAPSED = sumBurst (completedRecords s) := by
        rcases hi.nodes with ⟨hT, _⟩ | ⟨hone, _⟩
        · exact hT
        · exfalso
          have hpos := exists_uncompleted (q := s.readyQueue) (by omega)
          obtain ⟨x, hx, hxu⟩ := hpos
          rw [hall x hx] at hxu
          cases hxu
      rw [hclock, hR]
      exact sumBurst_sjf huniq

theorem zero_arrival_run_is_sjf_witness :
    ZeroArrival [(0, 3), (0, 1), (0, 2)] ∧
      sjfRecords 0 (sjfOrder [(0, 3), (0, 1), (0, 2)]) =
        [(1, 0, 1, 0), (2, 1, 3, 1), (0, 3, 6, 3)] ∧
      ∃ s, driverLoop (cost (initState [(0, 3), (0, 1), (0, 2)]))
          (initState [(0, 3), (0, 1), (0, 2)]) = some s ∧
        s.completedFileTable.map
            (fun r => (r.fileID, r.waitingTime, r.turnAroundTime, r.responseTime)) =
          sjfRecords 0 (sjfOrder [(0, 3), (0, 1), (0, 2)]) :=
  ⟨by decide, by decide, by
    obtain ⟨s, hs⟩ := (zero_arrival_run_is_sjf [(0, 3), (0, 1), (0, 2)] (by decide)).1
    exact ⟨s, hs,
      ((zero_arrival_run_is_sjf [(0, 3), (0, 1), (0, 2)] (by decide)).2 _ s hs).2.1⟩⟩

/-- C22 (counterexample). On the task table `[(0, 2), (1, 0), (2, 5)]` the
state at the head of the second round has the clock at 2 and a queue whose only
uncompleted node, file id 1, has remaining burst 0; the admission of that round
adds file id 2, two nodes are then uncompleted, the first loop of
`getLowestRemainingBurstTime` stops at file id 1 without assigning its locals,
and the round has no defined result. What the second loop returns depends on
the values the locals happen to hold: from `lowestBurstTime = 1`, `fid = 7` it
returns file id 1, from `lowestBurstTime = -1`, `fid = 2` it returns file id 2,
whose remaining burst is 5. -/
theorem zero_burst_round_undefined_after_admission :
    (driverRounds 1 (initState [(0, 2), (1, 0), (2, 5)])).map
        (fun s => (s.TIME_ELAPSED, s.ITEMS_IN_QUEUE,
          (s.readyQueue.filter (fun x => x.hasCompleted = false)).map
            (fun x => [x.fileID, x.backUpBurstTime]))) = some (2, 2, [[1, 0]]) ∧
    (driverRounds 1 (initState [(0, 2), (1, 0), (2, 5)])).map
        (fun s => ((populateQueueIfArrive s).readyQueue.filter
          (fun x => x.hasCompleted = false)).map
            (fun x => [x.fileID, x.backUpBurstTime])) = some [[1, 0], [2, 5]] ∧
    (driverRounds 1 (initState [(0, 2), (1, 0), (2, 5)])).map
        (fun s => getLowestRemainingBurstTime
          (modifyNode (markStopped s.TIME_ELAPSED) 0 (populateQueueIfArrive s).readyQueue)) =
      some none ∧
    (driverRounds 1 (initState [(0, 2), (1, 0), (2, 5)])).bind driverRound = none ∧
    (driverRounds 1 (initState [(0, 2), (1, 0), (2, 5)])).map
        (fun s => [lowestScan
            (modifyNode (markStopped s.TIME_ELAPSED) 0 (populateQueueIfArrive s).readyQueue)
            1 7 0,
          lowestScan
            (modifyNode (markStopped s.TIME_ELAPSED) 0 (populateQueueIfArrive s).readyQueue)
            (-1) 2 0]) = some [1, 2] := by
  refine ⟨by decide, by decide, by decide, by decide, by decide⟩

/-- C22 (amended). In every state in which, once the admission at the head of
the round has run, the only uncompleted node of the queue has remaining burst
0, one driver round returns with `TIME_ELAPSED`, `processesCompleted`,
`completedIndex`, every remaining burst and every `hasCompleted` flag
unchanged; and on the task table `[(0, 0)]` the driver loop does not return,
whatever the bound on its rounds. -/
theorem zero_burst_stalls_driver (s : SimState) (e : fileAttribute)
    (hitems : (populateQueueIfArrive s).ITEMS_IN_QUEUE ≠ 0)
    (honly : (populateQueueIfArrive s).readyQueue.filter (fun x => x.hasCompleted = false) =
      [e])
    (hb : e.backUpBurstTime = 0) :
    (∃ s1, driverRound s = some s1 ∧ s1.TIME_ELAPSED = s.TIME_ELAPSED ∧
      s1.processesCompleted = s.processesCompleted ∧
      s1.completedIndex = s.completedIndex ∧
      s1.readyQueue.map (fun x => (x.backUpBurstTime, x.hasCompleted)) =
        (populateQueueIfArrive s).readyQueue.map (fun x => (x.backUpBurstTime, x.hasCompleted))) ∧
    ∀ fuel : Nat, driverLoop fuel (initState [(0, 0)]) = none := by
  refine ⟨?_, zero_task_never_done⟩
  obtain ⟨temp, hrr⟩ := stalled_round (populateQueueIfArrive s) e hitems honly hb
  have hd : driverRound s = some (UpdateWaitingTimes { populateQueueIfArrive s with
      readyQueue := modifyNode (fun t => { t with processing := true }) temp
        (populateQueueIfArrive s).readyQueue }) := by
    unfold driverRound
    rw [hrr]
  refine ⟨_, hd, ?_, ?_, ?_, ?_⟩
  · rw [(UpdateWaitingTimes_fields _).1]; rfl
  · rw [(UpdateWaitingTimes_fields _).2.2.2.2.1]; rfl
  · rw [(UpdateWaitingTimes_fields _).2.2.2.2.2]; rfl
  · rw [forall₂_untouched_map_eq _ (fun a b h => by rw [h.backUpBurstTime, h.hasCompleted])
      (UpdateWaitingTimes_queue _)]
    exact map_modifyNode _ _ _ _ (fun _ _ => rfl)

theorem zero_burst_stalls_driver_witness :
    (populateQueueIfArrive (initState [(0, 0)])).ITEMS_IN_QUEUE ≠ 0 ∧
      (populateQueueIfArrive (initState [(0, 0)])).readyQueue.filter
          (fun x => x.hasCompleted = false) = [admitEntry 0 (initFileEntry 0 (0, 0))] ∧
      (admitEntry 0 (initFileEntry 0 (0, 0))).backUpBurstTime = 0 ∧
      driverLoop 100 (initState [(0, 0)]) = none :=
  ⟨by decide, by decide, by decide,
    (zero_burst_stalls_driver (initState [(0, 0)]) (admitEntry 0 (initFileEntry 0 (0, 0)))
      (by decide) (by decide) (by decide)).2 100⟩

end HybridRR
